import Mathlib

/-!
# Tip syncer of gossamer (`dot/sync/tip_syncer.go`)

A shallow embedding of the tip-sync strategy: `handleNewPeerState`,
`handleWorkerResult`, `hasCurrentWorker` and `handleTick`, with the value types they read.

Conventions of the embedding.

* Go `uint` and `int` are 64 bits wide.  A `uint` is a `Nat`; arithmetic that can
  overflow is reduced `% 2 ^ 64` at the place the source computes it.  The conversion
  `int(x)` and the subtraction of two `int`s are the two's complement ones.
* A `*uint` is an `Option Nat`: `none` is the nil pointer, `some n` a pointer to a cell
  holding `n`.  `handleWorkerResult` writes through `res.startNumber` / `res.targetNumber`;
  the embedding returns the worker `res` points to as it is after the call next to the
  returned values.  When both pointers of a worker address the same cell the two numbers are
  equal, and then neither write is reached (the early `return nil, nil` fires first), so
  reading the cells by value loses nothing.
* A Go result `(x, err)` is a pair of options.
* The answer of `blockState.GetHighestFinalisedHeader()` is an argument of the handler that
  makes the call: `Except.ok fin` or `Except.error e`.  The answers of `HasHeader` are a
  function of the hash asked for.
* `handleTick` works on the pending set and the ready queue: the embedding passes both in and
  returns them as they are after the call.  A dereference of a nil pointer ends the call in a
  panic, which is a result of its own.
-/

namespace TipSyncer

/-! ## Value types declared outside `tip_syncer.go` -/

/-- Modelled from the spec: `common.Hash` (package `lib/common`) is a 32-byte array.  It is
represented by the number its bytes encode; `Hash.Equal` is equality of the bytes. -/
structure Hash where
  bytes : Nat
deriving DecidableEq, Repr

/-- Modelled from the spec: the zero/unknown hash, the Go composite literal `common.Hash{}`. -/
def Hash.zero : Hash := ⟨0⟩

/-- Modelled from the spec: `Hash.Equal`, byte-wise equality of two hashes. -/
def Hash.Equal (a b : Hash) : Bool := decide (a = b)

/-- Modelled from the spec: `network.SyncDirection` is a byte with the two named values
`Ascending` and `Descending`. -/
structure SyncDirection where
  val : Nat
deriving DecidableEq, Repr

/-- Modelled from the spec: `network.Ascending`, the first value (also the zero value). -/
def Ascending : SyncDirection := ⟨0⟩

/-- Modelled from the spec: `network.Descending`, the second value. -/
def Descending : SyncDirection := ⟨1⟩

/-- Modelled from the spec: the error values the handlers deal with.  The five sentinels are
the package-level errors of `dot/sync`; `other` is any further error value (a storage-layer
error of the oracle, a network failure of a worker); `wrapped msg inner` is the value
`fmt.Errorf(".. %w", .., inner)` builds. -/
inductive GoError where
  | errNilPeerStateNumber
  | errNilWorkerStartNumber
  | errNilWorkerTargetNumber
  | errNilPendingBlockNumber
  | errUnknownParent
  | other (msg : String)
  | wrapped (msg : String) (inner : GoError)
deriving DecidableEq, Repr

/-- The chain walk of Go `errors.Is` on a non-nil error: the error equals the target, or it
wraps an error that does. -/
def GoError.is : GoError → GoError → Bool
  | GoError.wrapped msg inner, target =>
      decide (GoError.wrapped msg inner = target) || GoError.is inner target
  | e, target => decide (e = target)

/-- Go `errors.Is(err, target)` for a non-nil `target`: a nil `err` matches nothing. -/
def errorsIs (err : Option GoError) (target : GoError) : Bool :=
  match err with
  | none => false
  | some e => e.is target

/-- Modelled from the spec: `types.Header`, reduced to the parts the tip syncer reads: the
parent hash, the number, and the value of `Hash()`. -/
structure Header where
  ParentHash : Hash
  Number : Nat
  hash : Hash
deriving DecidableEq, Repr

/-- Modelled from the spec: `workerError`, the failure a worker carries; `err` is a Go `error`
interface value and may itself be nil. -/
structure workerError where
  err : Option GoError
deriving DecidableEq, Repr

/-- Modelled from the spec: `worker`, with the fields `tip_syncer.go` reads or writes.
`startNumber` and `targetNumber` are `*uint`, `requestData` is a byte, `err` is a
`*workerError` (nil while the outcome is pending or a success). -/
structure worker where
  id : Nat
  startHash : Hash
  startNumber : Option Nat
  targetHash : Hash
  targetNumber : Option Nat
  direction : SyncDirection
  requestData : Nat
  err : Option workerError
deriving DecidableEq, Repr

/-- Modelled from the spec: `peerState`, a peer announcement; `number` is a `*uint`. -/
structure peerState where
  hash : Hash
  number : Option Nat
deriving DecidableEq, Repr

/-- Modelled from the spec: `network.RequestedDataHeader`, a bit of the request byte. -/
def RequestedDataHeader : Nat := 1

/-- Modelled from the spec: `network.RequestedDataBody`, a bit of the request byte. -/
def RequestedDataBody : Nat := 2

/-- Modelled from the spec: `network.RequestedDataJustification`, a bit of the request byte. -/
def RequestedDataJustification : Nat := 16

/-- Modelled from the spec: `bootstrapRequestData`, the full set header, body and
justification. -/
def bootstrapRequestData : Nat :=
  RequestedDataHeader + RequestedDataBody + RequestedDataJustification

/-! ## Machine integers -/

/-- Number of values of a Go `uint` (and of an `int`). -/
def uintSize : Nat := 2 ^ 64

/-- Go `x + 1` on `uint`. -/
def uintSucc (x : Nat) : Nat := (x + 1) % uintSize

/-- Go conversion `int(x)` of a `uint`: the same 64 bits read in two's complement. -/
def toInt (x : Nat) : Int :=
  if x % uintSize < 2 ^ 63 then ((x % uintSize : Nat) : Int)
  else ((x % uintSize : Nat) : Int) - (uintSize : Int)

/-- Go `a - b` on `int`: the difference wrapped into `[-2^63, 2^63)`. -/
def intSub (a b : Int) : Int :=
  (a - b + 2 ^ 63) % (2 ^ 64) - 2 ^ 63

/-! ## `handleNewPeerState` -/

/-- The method `tipSyncer.handleNewPeerState`.  `fin` is the answer
`GetHighestFinalisedHeader` gives when it is called.  The worker literal leaves `id`,
`direction` and `err` at their zero values. -/
def handleNewPeerState (fin : Except GoError Header) (ps : peerState) :
    Option worker × Option GoError :=
  match ps.number with
  | none => (none, some GoError.errNilPeerStateNumber)
  | some number =>
    match fin with
    | Except.error err => (none, some err)
    | Except.ok fin =>
      if number < fin.Number then (none, none)
      else
        (some
          { id := 0
            startHash := ps.hash
            startNumber := ps.number
            targetHash := ps.hash
            targetNumber := ps.number
            direction := ⟨0⟩
            requestData := bootstrapRequestData
            err := none },
         none)

/-! ## `handleWorkerResult` -/

/-- What a call of `handleWorkerResult` leaves behind: the worker `res` points to after the
call, and the two returned values. -/
structure WorkerResult where
  res : worker
  ret : Option worker
  err : Option GoError
deriving DecidableEq, Repr

/-- The worker literal at the end of `handleWorkerResult`: it copies the two hashes, the two
number pointers, the direction and the request byte; `id` and `err` keep zero values. -/
def retryOf (res : worker) : worker :=
  { id := 0
    startHash := res.startHash
    startNumber := res.startNumber
    targetHash := res.targetHash
    targetNumber := res.targetNumber
    direction := res.direction
    requestData := res.requestData
    err := none }

/-- The method `tipSyncer.handleWorkerResult`.  `fin` is the answer
`GetHighestFinalisedHeader` gives when it is called. -/
def handleWorkerResult (fin : Except GoError Header) (res : worker) : WorkerResult :=
  match res.err with
  | none => ⟨res, none, none⟩
  | some werr =>
    if errorsIs werr.err GoError.errUnknownParent then ⟨res, none, none⟩
    else
      match fin with
      | Except.error err => ⟨res, none, some err⟩
      | Except.ok fin =>
        match res.startNumber with
        | none => ⟨res, none, some GoError.errNilWorkerStartNumber⟩
        | some startNumber =>
          match res.targetNumber with
          | none => ⟨res, none, some GoError.errNilWorkerTargetNumber⟩
          | some targetNumber =>
            if res.direction = Ascending then
              if targetNumber ≤ fin.Number then ⟨res, none, none⟩
              else
                let res1 : worker :=
                  if startNumber ≤ fin.Number then
                    { res with
                      startNumber := some (uintSucc fin.Number)
                      startHash := Hash.zero }
                  else res
                ⟨res1, some (retryOf res1), none⟩
            else if res.direction = Descending then
              if startNumber ≤ fin.Number then ⟨res, none, none⟩
              else
                let res1 : worker :=
                  if targetNumber ≤ fin.Number then
                    { res with
                      targetNumber := some (uintSucc fin.Number)
                      targetHash := Hash.zero }
                  else res
                ⟨res1, some (retryOf res1), none⟩
            else ⟨res, some (retryOf res), none⟩

/-! ## `hasCurrentWorker` -/

/-- The direction switch of `hasCurrentWorker`: `true` when the loop body hits one of its
`continue` statements, that is when the candidate is not within the current worker. -/
def outsideRange (direction : SyncDirection) (targetDiff startDiff : Int) : Bool :=
  if direction = Ascending then decide (targetDiff > 0) || decide (startDiff < 0)
  else if direction = Descending then decide (targetDiff < 0) || decide (startDiff > 0)
  else false

/-- The error `fmt.Errorf("worker with id %d: %w", id, inner)`. -/
def workerIdError (id : Nat) (inner : GoError) : GoError :=
  GoError.wrapped ("worker with id " ++ toString id) inner

/-- The `for _, curr := range workers` loop of `hasCurrentWorker`, over the entries of the map
in the order this call enumerates them; `wStart` and `wTarget` are the candidate's numbers. -/
def hasCurrentWorkerLoop (w : worker) (wStart wTarget : Nat) :
    List (Nat × worker) → Bool × Option GoError
  | [] => (false, none)
  | (_, curr) :: rest =>
    if w.direction ≠ curr.direction ∨ w.requestData ≠ curr.requestData then
      hasCurrentWorkerLoop w wStart wTarget rest
    else
      match curr.startNumber with
      | none => (false, some (workerIdError curr.id GoError.errNilWorkerStartNumber))
      | some cStart =>
        match curr.targetNumber with
        | none => (false, some (workerIdError curr.id GoError.errNilWorkerTargetNumber))
        | some cTarget =>
          let targetDiff := intSub (toInt wTarget) (toInt cTarget)
          let startDiff := intSub (toInt wStart) (toInt cStart)
          if outsideRange w.direction targetDiff startDiff then
            hasCurrentWorkerLoop w wStart wTarget rest
          else if w.startHash.Equal curr.startHash || w.targetHash.Equal curr.targetHash then
            (true, none)
          else hasCurrentWorkerLoop w wStart wTarget rest

/-- The method `tipSyncer.hasCurrentWorker`.  The candidate `w` is a pointer (`none` is nil);
`workers` lists the entries of the map `map[uint64]*worker` in enumeration order. -/
def hasCurrentWorker (w : Option worker) (workers : List (Nat × worker)) :
    Bool × Option GoError :=
  match w with
  | none => (true, none)
  | some w =>
    match w.startNumber with
    | none => (true, none)
    | some wStart =>
      match w.targetNumber with
      | none => (true, none)
      | some wTarget => hasCurrentWorkerLoop w wStart wTarget workers

/-! ## The pending block set and the ready block queue

`tip_syncer.go` uses the pending block set (`DisjointBlockSet`), the ready block queue
(`blockQueue`) and `handleReadyBlock` without declaring them.  The pending set is the list of
its blocks in the order `getBlocks()` enumerates them, the ready queue is the list of its
entries, oldest first. -/

/-- Modelled from the spec: `types.Body`, the body of a block; the tip syncer only tests
whether it is present. -/
structure Body where
  extrinsics : List Nat
deriving DecidableEq, Repr

/-- Modelled from the spec: `pendingBlock`, a partially known block: `hash`, `number` (a
`*uint`), optional `header`, optional `body`, optional `justification`. -/
structure pendingBlock where
  hash : Hash
  number : Option Nat
  header : Option Header
  body : Option Body
  justification : Option (List Nat)
deriving DecidableEq, Repr

/-- Modelled from the spec: `types.BlockData`, an entry of the ready block queue. -/
structure BlockData where
  Hash : TipSyncer.Hash
  Header : Option TipSyncer.Header
  Body : Option TipSyncer.Body
  Justification : Option (List Nat)
deriving DecidableEq, Repr

/-- Modelled from the spec: `pendingBlock.toBlockData`, the block data of a pending block. -/
def pendingBlock.toBlockData (b : pendingBlock) : BlockData :=
  { Hash := b.hash, Header := b.header, Body := b.body, Justification := b.justification }

/-- Modelled from the spec: `DisjointBlockSet.removeBlock`, removal from the pending set, which
is indexed by hash. -/
def removeBlock (pending : List pendingBlock) (hash : Hash) : List pendingBlock :=
  pending.filter (fun b => decide (b.hash ≠ hash))

/-- Modelled from the spec: `blockQueue.has`, membership of a hash in the ready queue. -/
def blockQueueHas (ready : List BlockData) (hash : Hash) : Bool :=
  ready.any (fun bd => decide (bd.Hash = hash))

/-- Modelled from the spec: a pending block the cascade may promote.  Its header and its body
are both known (section 3: a ready block is a pending block whose header and body are both
known) and its header names, as its parent, a block of `ready`. -/
def hasReadyParent (ready : List BlockData) (b : pendingBlock) : Bool :=
  match b.header with
  | none => false
  | some header =>
    match b.body with
    | none => false
    | some _ => blockQueueHas ready header.ParentHash

/-- Modelled from the spec: `getReadyDescendants`, the promotion cascade of section 4.5.  While
some pending block with known header and body has a parent hash that is the hash of a block
already collected in `ready`, the first such block is appended to `ready` (after its parent)
and leaves the working copy of the pending set.  Every round removes a block, so
`fuel = pending.length` rounds exhaust the set. -/
def getReadyDescendants : Nat → List pendingBlock → List BlockData → List BlockData
  | 0, _, ready => ready
  | fuel + 1, pending, ready =>
    match pending.find? (hasReadyParent ready) with
    | none => ready
    | some child =>
      getReadyDescendants fuel (removeBlock pending child.hash) (ready ++ [child.toBlockData])

/-- Modelled from the spec: `handleReadyBlock`, the promotion of a block: the block and its
descendants in the pending set are collected parent before child, each is removed from the
pending set and pushed to the end of the ready queue.  The result is the pending set and the
ready queue after the call. -/
def handleReadyBlock (bd : BlockData) (pending : List pendingBlock) (ready : List BlockData) :
    List pendingBlock × List BlockData :=
  let found := getReadyDescendants pending.length pending [bd]
  (found.foldl (fun p rb => removeBlock p rb.Hash) pending, ready ++ found)

/-! ## `handleTick` -/

/-- Go `x - 1` on `uint`. -/
def uintPred (x : Nat) : Nat := (x + uintSize - 1) % uintSize

/-- The worker literal of case 1 of `handleTick` (only hash and number are known): the chain
from the block down to the finalised block. -/
def headerUnknownWorker (fin : Header) (block : pendingBlock) : worker :=
  { id := 0
    startHash := block.hash
    startNumber := block.number
    targetHash := fin.hash
    targetNumber := some fin.Number
    direction := Descending
    requestData := bootstrapRequestData
    err := none }

/-- The worker literal of case 2 of `handleTick` (only the header is known): the body of the
block.  The literal does not set `direction`. -/
def bodyUnknownWorker (block : pendingBlock) : worker :=
  { id := 0
    startHash := block.hash
    startNumber := block.number
    targetHash := block.hash
    targetNumber := block.number
    direction := ⟨0⟩
    requestData := RequestedDataBody + RequestedDataJustification
    err := none }

/-- The worker literal of case 3 of `handleTick` (the whole block is known, its parent is
not): the chain from the parent down to the finalised block.  The literal does not set
`targetHash`; `number` is `*block.number`. -/
def ancestorWorker (fin : Header) (header : Header) (number : Nat) : worker :=
  { id := 0
    startHash := header.ParentHash
    startNumber := some (uintPred number)
    targetHash := Hash.zero
    targetNumber := some fin.Number
    direction := Descending
    requestData := bootstrapRequestData
    err := none }

/-- The state the loop of `handleTick` works on: the pending set, the ready queue, and the
slice `workers`.  Each worker of the slice is recorded together with the hash of the block
whose visit appended it; the slice itself is the list of the second components. -/
structure TickState where
  pending : List pendingBlock
  ready : List BlockData
  emitted : List (Hash × worker)
deriving DecidableEq, Repr

/-- How one pass through the loop body of `handleTick` ends: it falls through or hits
`continue` (`next`), it hits `return nil, err` (`returned`), or it dereferences a nil pointer
(`panicked`). -/
inductive Visit where
  | next (st : TickState)
  | returned (err : GoError)
  | panicked
deriving DecidableEq, Repr

/-- The body of the loop `for _, block := range s.pendingBlocks.getBlocks()` of `handleTick`.
`hasHeader` is the answer of `blockState.HasHeader` for each hash.  The first statement reads
`*block.number`. -/
def handleTickVisit (fin : Header) (hasHeader : Hash → Except GoError Bool)
    (block : pendingBlock) (st : TickState) : Visit :=
  match block.number with
  | none => Visit.panicked
  | some number =>
    if number ≤ fin.Number then
      Visit.next { st with pending := removeBlock st.pending block.hash }
    else
      match block.header with
      | none =>
        Visit.next
          { st with emitted := st.emitted ++ [(block.hash, headerUnknownWorker fin block)] }
      | some header =>
        match block.body with
        | none =>
          Visit.next { st with emitted := st.emitted ++ [(block.hash, bodyUnknownWorker block)] }
        | some _ =>
          match hasHeader header.ParentHash with
          | Except.error err => Visit.returned err
          | Except.ok has =>
            if has || blockQueueHas st.ready header.ParentHash then
              Visit.next
                { st with
                  pending := (handleReadyBlock block.toBlockData st.pending st.ready).1
                  ready := (handleReadyBlock block.toBlockData st.pending st.ready).2 }
            else
              match block.number with
              | none => Visit.returned GoError.errNilPendingBlockNumber
              | some number1 =>
                Visit.next
                  { st with
                    emitted := st.emitted ++ [(block.hash, ancestorWorker fin header number1)] }

/-- What a call of `handleTick` leaves behind: the state after the call, and the returned pair
`(workers, err)`; `ret = none` stands for a call that ends in a runtime panic. -/
structure TickResult where
  st : TickState
  ret : Option (List worker × Option GoError)
deriving DecidableEq, Repr

/-- The loop of `handleTick` over the blocks `getBlocks()` returned, and the final
`return workers, nil`. -/
def handleTickLoop (fin : Header) (hasHeader : Hash → Except GoError Bool) :
    List pendingBlock → TickState → TickResult
  | [], st => ⟨st, some (st.emitted.map Prod.snd, none)⟩
  | block :: rest, st =>
    match handleTickVisit fin hasHeader block st with
    | Visit.next st1 => handleTickLoop fin hasHeader rest st1
    | Visit.returned err => ⟨st, some ([], some err)⟩
    | Visit.panicked => ⟨st, none⟩

/-- The method `tipSyncer.handleTick`.  `fin` is the answer of `GetHighestFinalisedHeader`,
`hasHeader` the answers of `HasHeader`; `pending` and `ready` are the pending set and the
ready queue before the call. -/
def handleTick (fin : Except GoError Header) (hasHeader : Hash → Except GoError Bool)
    (pending : List pendingBlock) (ready : List BlockData) : TickResult :=
  if pending.length = 0 then ⟨⟨pending, ready, []⟩, some ([], none)⟩
  else
    match fin with
    | Except.error err => ⟨⟨pending, ready, []⟩, some ([], some err)⟩
    | Except.ok fin => handleTickLoop fin hasHeader pending ⟨pending, ready, []⟩

/-! ## Predicates of the specification -/

/-- The containment of the specification, in its words: for `Ascending`,
`candidate.target ≤ existing.target` and `candidate.start ≥ existing.start`; for `Descending`
the mirrored comparison. -/
def rangeContained (direction : SyncDirection) (cStart cTarget eStart eTarget : Nat) : Prop :=
  (direction = Ascending ∧ cTarget ≤ eTarget ∧ cStart ≥ eStart) ∨
  (direction = Descending ∧ cTarget ≥ eTarget ∧ cStart ≤ eStart)

instance (direction : SyncDirection) (cStart cTarget eStart eTarget : Nat) :
    Decidable (rangeContained direction cStart cTarget eStart eTarget) := by
  unfold rangeContained; infer_instance

/-- The duplicate relation of the specification: `existing` has the direction and the request
byte of `candidate`, contains its range, and shares its start hash or its target hash. -/
def coveredBy (candidate : worker) (cStart cTarget : Nat) (existing : worker) : Prop :=
  candidate.direction = existing.direction ∧
  candidate.requestData = existing.requestData ∧
  (∃ eStart eTarget, existing.startNumber = some eStart ∧ existing.targetNumber = some eTarget ∧
    rangeContained candidate.direction cStart cTarget eStart eTarget) ∧
  (candidate.startHash = existing.startHash ∨ candidate.targetHash = existing.targetHash)

/-- A worker failed with something other than `UnknownParent`: it carries a failure, and
`errors.Is` does not find `errUnknownParent` in it. -/
def failedOther (res : worker) : Prop :=
  ∃ werr, res.err = some werr ∧ errorsIs werr.err GoError.errUnknownParent = false

/-- A request is not moot at finalised number `finNumber`: for `Ascending` the target is above
it, for `Descending` the start is above it. -/
def notMoot (direction : SyncDirection) (startNumber targetNumber finNumber : Nat) : Prop :=
  (direction = Ascending ∧ targetNumber > finNumber) ∨
  (direction = Descending ∧ startNumber > finNumber)

/-- The ready queue lists parents before children, with `HasHeader` telling which blocks are
persisted: every entry has a header whose parent is persisted or stands earlier in the
queue. -/
def readyOrdered (hasHeader : Hash → Except GoError Bool) (ready : List BlockData) : Prop :=
  ∀ before bd after, ready = before ++ bd :: after →
    ∃ header, bd.Header = some header ∧
      (hasHeader header.ParentHash = Except.ok true ∨
        blockQueueHas before header.ParentHash = true)

/-- An entry with hash `first` stands in the queue before an entry with hash `second`. -/
def precedes (first second : Hash) (ready : List BlockData) : Prop :=
  ∃ l1 x l2 y l3, ready = l1 ++ x :: (l2 ++ y :: l3) ∧ x.Hash = first ∧ y.Hash = second

/-- The test the loop of `hasCurrentWorker` applies to a worker of the map: it has the
direction and the request byte of the candidate, both its numbers are present, the candidate
is not outside its range, and it shares the start hash or the target hash. -/
def coversCandidate (w : worker) (wStart wTarget : Nat) (curr : worker) : Bool :=
  decide (w.direction = curr.direction) && decide (w.requestData = curr.requestData) &&
    match curr.startNumber, curr.targetNumber with
    | some cStart, some cTarget =>
      !(outsideRange w.direction (intSub (toInt wTarget) (toInt cTarget))
          (intSub (toInt wStart) (toInt cStart))) &&
        (w.startHash.Equal curr.startHash || w.targetHash.Equal curr.targetHash)
    | _, _ => false

/-- A worker of the map that has the direction and the request byte of the candidate has both
its numbers. -/
def sameKindNumbered (w curr : worker) : Prop :=
  w.direction = curr.direction → w.requestData = curr.requestData →
    ∃ cStart cTarget, curr.startNumber = some cStart ∧ curr.targetNumber = some cTarget

/-- A pending block the loop of `handleTick` prunes: its number is at or below the finalised
number. -/
def prunable (fin : Header) (b : pendingBlock) : Prop :=
  ∃ n, b.number = some n ∧ n ≤ fin.Number

/-! ## Sample values -/

/-- A finalised header with number 5. -/
def sampleFin : Header := ⟨⟨0⟩, 5, ⟨55⟩⟩

/-- A failure that is not `UnknownParent`. -/
def sampleFailure : workerError := ⟨some (GoError.other "timeout")⟩

/-- A failure that wraps `UnknownParent`. -/
def sampleUnknownParent : workerError :=
  ⟨some (GoError.wrapped "block 7" GoError.errUnknownParent)⟩

/-- A failed `Ascending` worker for the blocks 1 to 10. -/
def sampleAscending : worker :=
  { id := 7, startHash := ⟨11⟩, startNumber := some 1, targetHash := ⟨12⟩,
    targetNumber := some 10, direction := Ascending, requestData := bootstrapRequestData,
    err := some sampleFailure }

/-- A failed `Descending` worker for the blocks 10 down to 1. -/
def sampleDescending : worker :=
  { id := 8, startHash := ⟨12⟩, startNumber := some 10, targetHash := ⟨11⟩,
    targetNumber := some 1, direction := Descending, requestData := bootstrapRequestData,
    err := some sampleFailure }

/-- A failed `Ascending` worker whose range lies at or below block 5. -/
def sampleMoot : worker :=
  { id := 9, startHash := ⟨21⟩, startNumber := some 2, targetHash := ⟨22⟩,
    targetNumber := some 4, direction := Ascending, requestData := bootstrapRequestData,
    err := some sampleFailure }

/-- A worker that failed with `UnknownParent` and has no numbers. -/
def sampleOrphan : worker :=
  { id := 10, startHash := ⟨31⟩, startNumber := none, targetHash := ⟨32⟩,
    targetNumber := none, direction := Descending, requestData := bootstrapRequestData,
    err := some sampleUnknownParent }

/-- A failed worker without a start number. -/
def sampleNoStart : worker :=
  { id := 11, startHash := ⟨41⟩, startNumber := none, targetHash := ⟨42⟩,
    targetNumber := some 9, direction := Ascending, requestData := bootstrapRequestData,
    err := some sampleFailure }

/-- A failed worker with a start number and without a target number. -/
def sampleNoTarget : worker :=
  { id := 13, startHash := ⟨43⟩, startNumber := some 2, targetHash := ⟨44⟩,
    targetNumber := none, direction := Ascending, requestData := bootstrapRequestData,
    err := some sampleFailure }

/-- A failed `Ascending` worker for the blocks 7 to 10, all above block 5. -/
def sampleAbove : worker :=
  { id := 12, startHash := ⟨51⟩, startNumber := some 7, targetHash := ⟨52⟩,
    targetNumber := some 10, direction := Ascending, requestData := bootstrapRequestData,
    err := some sampleFailure }

/-- A peer announcement without a number. -/
def sampleNoNumber : peerState := ⟨⟨61⟩, none⟩

/-- A candidate for the blocks 3 to 4 with the start hash of `sampleAscending`. -/
def sampleCandidate : worker :=
  { id := 0, startHash := ⟨11⟩, startNumber := some 3, targetHash := ⟨77⟩,
    targetNumber := some 4, direction := Ascending, requestData := bootstrapRequestData,
    err := none }

/-- A peer announcement of block 3. -/
def samplePeerBehind : peerState := ⟨⟨62⟩, some 3⟩

/-- A peer announcement of block 5. -/
def samplePeerAtFinalised : peerState := ⟨⟨63⟩, some 5⟩

/-- An oracle that knows no header. -/
def sampleNoHeader : Hash → Except GoError Bool := fun _ => Except.ok false

/-- An oracle that knows the header with hash 50 only. -/
def sampleHasHeader : Hash → Except GoError Bool := fun h => Except.ok (decide (h = ⟨50⟩))

/-- A pending block of which only hash and number are known: hash 100, number 10. -/
def sampleHashOnly : pendingBlock :=
  { hash := ⟨100⟩, number := some 10, header := none, body := none, justification := none }

/-- A pending block at the finalised number 5, on another fork. -/
def samplePruned : pendingBlock :=
  { hash := ⟨110⟩, number := some 5, header := none, body := none, justification := none }

/-- A fully known pending block with number 6 whose parent is `samplePruned`. -/
def samplePrunedChild : pendingBlock :=
  { hash := ⟨111⟩, number := some 6, header := some ⟨⟨110⟩, 6, ⟨111⟩⟩, body := some ⟨[]⟩,
    justification := none }

/-- A fully known pending block with number 6 whose parent has hash 50. -/
def sampleParent : pendingBlock :=
  { hash := ⟨101⟩, number := some 6, header := some ⟨⟨50⟩, 6, ⟨101⟩⟩, body := some ⟨[]⟩,
    justification := none }

/-- A fully known pending block with number 7 whose parent is `sampleParent`. -/
def sampleChild : pendingBlock :=
  { hash := ⟨102⟩, number := some 7, header := some ⟨⟨101⟩, 7, ⟨102⟩⟩, body := some ⟨[]⟩,
    justification := none }

/-- A pending block with number 7 whose header is known, whose body is not, and whose parent
is `sampleParent`. -/
def sampleHeaderOnly : pendingBlock :=
  { hash := ⟨103⟩, number := some 7, header := some ⟨⟨101⟩, 7, ⟨103⟩⟩, body := none,
    justification := none }

/-- A fully known pending block without a number. -/
def sampleNumberless : pendingBlock :=
  { hash := ⟨104⟩, number := none, header := some ⟨⟨99⟩, 6, ⟨104⟩⟩, body := some ⟨[]⟩,
    justification := none }

/-- An `Ascending` candidate for the blocks 5 to `2 ^ 63 + 20` with the start hash of
`sampleAscending`. -/
def sampleHugeCandidate : worker :=
  { id := 0, startHash := ⟨11⟩, startNumber := some 5, targetHash := ⟨78⟩,
    targetNumber := some (2 ^ 63 + 20), direction := Ascending,
    requestData := bootstrapRequestData, err := none }

/-- A fully known pending block with number 9 whose parent has hash 120. -/
def sampleOtherFork : pendingBlock :=
  { hash := ⟨105⟩, number := some 9, header := some ⟨⟨120⟩, 9, ⟨105⟩⟩, body := some ⟨[]⟩,
    justification := none }

/-- An oracle that knows the headers with hash 50 and with hash 101, the hash of
`sampleParent`. -/
def sampleKnowsParent : Hash → Except GoError Bool :=
  fun h => Except.ok (decide (h = ⟨50⟩) || decide (h = ⟨101⟩))

/-- An oracle whose every `HasHeader` call fails. -/
def sampleFailingHeader : Hash → Except GoError Bool :=
  fun _ => Except.error (GoError.other "db closed")

/-! ## Machine integers below `2 ^ 63` -/

theorem intSub_toInt (a b : Nat) (ha : a < 2 ^ 63) (hb : b < 2 ^ 63) :
    intSub (toInt a) (toInt b) = (a : Int) - (b : Int) := by
  have ha1 : a % uintSize = a := Nat.mod_eq_of_lt (by unfold uintSize; omega)
  have hb1 : b % uintSize = b := Nat.mod_eq_of_lt (by unfold uintSize; omega)
  unfold intSub toInt
  rw [ha1, hb1, if_pos ha, if_pos hb]
  have h : ((a : Int) - (b : Int) + 2 ^ 63) % (2 ^ 64) = (a : Int) - (b : Int) + 2 ^ 63 :=
    Int.emod_eq_of_lt (by omega) (by omega)
  rw [h]; omega

theorem outsideRange_eq_false_iff (direction : SyncDirection)
    (hdir : direction = Ascending ∨ direction = Descending) (cStart cTarget eStart eTarget : Nat) :
    outsideRange direction ((cTarget : Int) - (eTarget : Int)) ((cStart : Int) - (eStart : Int))
        = false ↔
      rangeContained direction cStart cTarget eStart eTarget := by
  have hne : Descending ≠ Ascending := by decide
  rcases hdir with h | h <;> subst h <;>
    simp [outsideRange, rangeContained, hne, hne.symm]

/-! ## Claims about `handleWorkerResult` -/

/-- C2: a failed `Ascending` worker whose failure is not `UnknownParent`, with
`startNumber ≤ F.number < targetNumber`, gets a retry whose start number is `F.number + 1`,
whose start hash is the zero hash, and whose target number and hash are those of the failed
worker; no error is returned. -/
theorem handleWorkerResult_ascending_clamp (fin : Header) (res : worker)
    (startNumber targetNumber : Nat)
    (hfail : failedOther res) (hdir : res.direction = Ascending)
    (hs : res.startNumber = some startNumber) (ht : res.targetNumber = some targetNumber)
    (hrep : targetNumber < uintSize)
    (hlo : startNumber ≤ fin.Number) (hhi : fin.Number < targetNumber) :
    ∃ r, (handleWorkerResult (Except.ok fin) res).ret = some r ∧
      (handleWorkerResult (Except.ok fin) res).err = none ∧
      r.startNumber = some (fin.Number + 1) ∧ r.startHash = Hash.zero ∧
      r.targetNumber = some targetNumber ∧ r.targetHash = res.targetHash := by
  obtain ⟨werr, he, hup⟩ := hfail
  have hmod : uintSucc fin.Number = fin.Number + 1 :=
    Nat.mod_eq_of_lt (by omega)
  simp [handleWorkerResult, he, hup, hs, ht, hdir, not_le.mpr hhi, hlo, retryOf, hmod]

theorem handleWorkerResult_ascending_clamp_witness :
    ∃ r, (handleWorkerResult (Except.ok sampleFin) sampleAscending).ret = some r ∧
      (handleWorkerResult (Except.ok sampleFin) sampleAscending).err = none ∧
      r.startNumber = some (sampleFin.Number + 1) ∧ r.startHash = Hash.zero ∧
      r.targetNumber = some 10 ∧ r.targetHash = sampleAscending.targetHash :=
  handleWorkerResult_ascending_clamp sampleFin sampleAscending 1 10
    ⟨sampleFailure, rfl, by decide⟩ rfl rfl rfl (by decide) (by decide) (by decide)

/-- C3: a failed `Descending` worker whose failure is not `UnknownParent`, with
`targetNumber ≤ F.number < startNumber`, gets a retry whose target number is `F.number + 1`,
whose target hash is the zero hash, and whose start number and hash are those of the failed
worker; no error is returned. -/
theorem handleWorkerResult_descending_clamp (fin : Header) (res : worker)
    (startNumber targetNumber : Nat)
    (hfail : failedOther res) (hdir : res.direction = Descending)
    (hs : res.startNumber = some startNumber) (ht : res.targetNumber = some targetNumber)
    (hrep : startNumber < uintSize)
    (hlo : targetNumber ≤ fin.Number) (hhi : fin.Number < startNumber) :
    ∃ r, (handleWorkerResult (Except.ok fin) res).ret = some r ∧
      (handleWorkerResult (Except.ok fin) res).err = none ∧
      r.targetNumber = some (fin.Number + 1) ∧ r.targetHash = Hash.zero ∧
      r.startNumber = some startNumber ∧ r.startHash = res.startHash := by
  obtain ⟨werr, he, hup⟩ := hfail
  have hmod : uintSucc fin.Number = fin.Number + 1 :=
    Nat.mod_eq_of_lt (by omega)
  have hne : Descending ≠ Ascending := by decide
  simp [handleWorkerResult, he, hup, hs, ht, hdir, hne, not_le.mpr hhi, hlo, retryOf, hmod]

theorem handleWorkerResult_descending_clamp_witness :
    ∃ r, (handleWorkerResult (Except.ok sampleFin) sampleDescending).ret = some r ∧
      (handleWorkerResult (Except.ok sampleFin) sampleDescending).err = none ∧
      r.targetNumber = some (sampleFin.Number + 1) ∧ r.targetHash = Hash.zero ∧
      r.startNumber = some 10 ∧ r.startHash = sampleDescending.startHash :=
  handleWorkerResult_descending_clamp sampleFin sampleDescending 10 1
    ⟨sampleFailure, rfl, by decide⟩ rfl rfl rfl (by decide) (by decide) (by decide)

/-- C4: a failed `Ascending` worker with both numbers present, a failure other than
`UnknownParent`, and `targetNumber ≤ F.number` gets no worker and no error, whatever its start
number and its hashes are. -/
theorem handleWorkerResult_ascending_moot (fin : Header) (res : worker)
    (startNumber targetNumber : Nat)
    (hfail : failedOther res) (hdir : res.direction = Ascending)
    (hs : res.startNumber = some startNumber) (ht : res.targetNumber = some targetNumber)
    (hmoot : targetNumber ≤ fin.Number) :
    (handleWorkerResult (Except.ok fin) res).ret = none ∧
      (handleWorkerResult (Except.ok fin) res).err = none := by
  obtain ⟨werr, he, hup⟩ := hfail
  simp [handleWorkerResult, he, hup, hs, ht, hdir, hmoot]

theorem handleWorkerResult_ascending_moot_witness :
    (handleWorkerResult (Except.ok sampleFin) sampleMoot).ret = none ∧
      (handleWorkerResult (Except.ok sampleFin) sampleMoot).err = none :=
  handleWorkerResult_ascending_moot sampleFin sampleMoot 2 4
    ⟨sampleFailure, rfl, by decide⟩ rfl rfl rfl (by decide)

theorem errorsIs_self (target : GoError) : errorsIs (some target) target = true := by
  cases target <;> simp [errorsIs, GoError.is]

theorem errorsIs_wrapped (msg : String) (inner target : GoError)
    (h : errorsIs (some inner) target = true) :
    errorsIs (some (GoError.wrapped msg inner)) target = true := by
  simp only [errorsIs] at h
  simp [errorsIs, GoError.is, h]

/-- C5: a worker whose failure is, or wraps, `UnknownParent` gets no worker and no error, for
every direction, every start and target number (absent ones too) and every answer of the
oracle (a failing read too). -/
theorem handleWorkerResult_unknownParent (fin : Except GoError Header) (res : worker)
    (werr : workerError) (he : res.err = some werr)
    (hup : errorsIs werr.err GoError.errUnknownParent = true) :
    (handleWorkerResult fin res).ret = none ∧ (handleWorkerResult fin res).err = none := by
  simp [handleWorkerResult, he, hup]

theorem handleWorkerResult_unknownParent_witness :
    (handleWorkerResult (Except.error (GoError.other "db closed")) sampleOrphan).ret = none ∧
      (handleWorkerResult (Except.error (GoError.other "db closed")) sampleOrphan).err = none :=
  handleWorkerResult_unknownParent (Except.error (GoError.other "db closed")) sampleOrphan
    sampleUnknownParent rfl (by decide)

/-- C6: for a completed `Ascending` or `Descending` worker with both numbers present and a
finalised header `F` read without error, `handleWorkerResult` returns a replacement worker
exactly when the outcome is a failure other than `UnknownParent` and the request is not moot;
in every other case it returns no worker; it never returns an error. -/
theorem handleWorkerResult_retry_iff (fin : Header) (res : worker)
    (startNumber targetNumber : Nat)
    (hdir : res.direction = Ascending ∨ res.direction = Descending)
    (hs : res.startNumber = some startNumber) (ht : res.targetNumber = some targetNumber) :
    (failedOther res ∧ notMoot res.direction startNumber targetNumber fin.Number →
        ∃ r, (handleWorkerResult (Except.ok fin) res).ret = some r) ∧
      (¬ (failedOther res ∧ notMoot res.direction startNumber targetNumber fin.Number) →
        (handleWorkerResult (Except.ok fin) res).ret = none) ∧
      (handleWorkerResult (Except.ok fin) res).err = none := by
  have hne : Descending ≠ Ascending := by decide
  unfold failedOther notMoot
  cases herr : res.err with
  | none => simp [handleWorkerResult, herr]
  | some werr =>
    cases hup : errorsIs werr.err GoError.errUnknownParent with
    | true => simp [handleWorkerResult, herr, hup]
    | false =>
      rcases hdir with hd | hd
      · by_cases hm : targetNumber ≤ fin.Number
        · simp [handleWorkerResult, herr, hup, hs, ht, hd, hm, hne.symm]
        · simp [handleWorkerResult, herr, hup, hs, ht, hd, hm, hne.symm, not_le.mp hm]
      · by_cases hm : startNumber ≤ fin.Number
        · simp [handleWorkerResult, herr, hup, hs, ht, hd, hm, hne]
        · simp [handleWorkerResult, herr, hup, hs, ht, hd, hm, hne, not_le.mp hm]

theorem handleWorkerResult_retry_iff_witness :
    (failedOther sampleAscending ∧ notMoot sampleAscending.direction 1 10 sampleFin.Number →
        ∃ r, (handleWorkerResult (Except.ok sampleFin) sampleAscending).ret = some r) ∧
      (¬ (failedOther sampleAscending ∧
            notMoot sampleAscending.direction 1 10 sampleFin.Number) →
        (handleWorkerResult (Except.ok sampleFin) sampleAscending).ret = none) ∧
      (handleWorkerResult (Except.ok sampleFin) sampleAscending).err = none :=
  handleWorkerResult_retry_iff sampleFin sampleAscending 1 10 (Or.inl rfl) rfl rfl

/-- C7: every worker `handleWorkerResult` returns for an `Ascending` or `Descending` input
has its start number and its target number above `F.number`, `F` being the header read in
that call; with numbers representable as `uint` the sum `F.number + 1` does not wrap. -/
theorem handleWorkerResult_above_finalised (fin : Header) (res r : worker)
    (hdir : res.direction = Ascending ∨ res.direction = Descending)
    (hrepS : ∀ n, res.startNumber = some n → n < uintSize)
    (hrepT : ∀ n, res.targetNumber = some n → n < uintSize)
    (hret : (handleWorkerResult (Except.ok fin) res).ret = some r) :
    ∃ s t, r.startNumber = some s ∧ r.targetNumber = some t ∧
      fin.Number < s ∧ fin.Number < t ∧ uintSucc fin.Number = fin.Number + 1 := by
  have hne : Descending ≠ Ascending := by decide
  cases herr : res.err with
  | none => simp [handleWorkerResult, herr] at hret
  | some werr =>
    cases hup : errorsIs werr.err GoError.errUnknownParent with
    | true => simp [handleWorkerResult, herr, hup] at hret
    | false =>
      cases hs : res.startNumber with
      | none => simp [handleWorkerResult, herr, hup, hs] at hret
      | some s =>
        cases ht : res.targetNumber with
        | none => simp [handleWorkerResult, herr, hup, hs, ht] at hret
        | some t =>
          have hS := hrepS s hs
          have hT := hrepT t ht
          unfold uintSize at hS hT
          rcases hdir with hd | hd
          · by_cases hm : t ≤ fin.Number
            · simp [handleWorkerResult, herr, hup, hs, ht, hd, hm] at hret
            · have hmod : uintSucc fin.Number = fin.Number + 1 :=
                Nat.mod_eq_of_lt (by unfold uintSize; omega)
              by_cases hc : s ≤ fin.Number
              · simp [handleWorkerResult, herr, hup, hs, ht, hd, hm, hc, retryOf] at hret
                subst hret
                exact ⟨fin.Number + 1, t, by simp [hmod], by simp [ht], by omega, by omega, hmod⟩
              · simp [handleWorkerResult, herr, hup, hs, ht, hd, hm, hc, retryOf] at hret
                subst hret
                exact ⟨s, t, by simp [hs], by simp [ht], by omega, by omega, hmod⟩
          · by_cases hm : s ≤ fin.Number
            · simp [handleWorkerResult, herr, hup, hs, ht, hd, hne, hm] at hret
            · have hmod : uintSucc fin.Number = fin.Number + 1 :=
                Nat.mod_eq_of_lt (by unfold uintSize; omega)
              by_cases hc : t ≤ fin.Number
              · simp [handleWorkerResult, herr, hup, hs, ht, hd, hne, hm, hc, retryOf] at hret
                subst hret
                exact ⟨s, fin.Number + 1, by simp [hs], by simp [hmod], by omega, by omega, hmod⟩
              · simp [handleWorkerResult, herr, hup, hs, ht, hd, hne, hm, hc, retryOf] at hret
                subst hret
                exact ⟨s, t, by simp [hs], by simp [ht], by omega, by omega, hmod⟩

theorem handleWorkerResult_above_finalised_witness :
    ∃ s t, (retryOf { sampleAscending with
                      startNumber := some 6, startHash := Hash.zero }).startNumber = some s ∧
      (retryOf { sampleAscending with
                 startNumber := some 6, startHash := Hash.zero }).targetNumber = some t ∧
      sampleFin.Number < s ∧ sampleFin.Number < t ∧
      uintSucc sampleFin.Number = sampleFin.Number + 1 :=
  handleWorkerResult_above_finalised sampleFin sampleAscending
    (retryOf { sampleAscending with startNumber := some 6, startHash := Hash.zero })
    (Or.inl rfl)
    (fun n h => by
      have h1 : n = 1 := (Option.some.inj h).symm
      subst h1; decide)
    (fun n h => by
      have h1 : n = 10 := (Option.some.inj h).symm
      subst h1; decide)
    (by decide)

/-- C8: for a failed worker whose failure is not `UnknownParent`, with the finalised header
read without error: an absent start number gives the error `errNilWorkerStartNumber` and no
worker; a present start number with an absent target number gives the error
`errNilWorkerTargetNumber` and no worker. -/
theorem handleWorkerResult_nil_numbers (fin : Header) (res : worker)
    (hfail : failedOther res) :
    (res.startNumber = none →
        (handleWorkerResult (Except.ok fin) res).ret = none ∧
        (handleWorkerResult (Except.ok fin) res).err =
          some GoError.errNilWorkerStartNumber) ∧
      (∀ startNumber, res.startNumber = some startNumber → res.targetNumber = none →
        (handleWorkerResult (Except.ok fin) res).ret = none ∧
        (handleWorkerResult (Except.ok fin) res).err =
          some GoError.errNilWorkerTargetNumber) := by
  obtain ⟨werr, he, hup⟩ := hfail
  constructor
  · intro hs
    simp [handleWorkerResult, he, hup, hs]
  · intro startNumber hs ht
    simp [handleWorkerResult, he, hup, hs, ht]

theorem handleWorkerResult_nil_numbers_witness :
    (handleWorkerResult (Except.ok sampleFin) sampleNoStart).ret = none ∧
      (handleWorkerResult (Except.ok sampleFin) sampleNoStart).err =
        some GoError.errNilWorkerStartNumber :=
  (handleWorkerResult_nil_numbers sampleFin sampleNoStart
    ⟨sampleFailure, rfl, by decide⟩).1 rfl

/-- C9: when `handleWorkerResult` returns a retry for a failed worker (failure other than
`UnknownParent`), the retry has the direction and the request byte of the failed worker; and
when the start number and the target number are both above `F.number` it also has its start
hash, start number, target hash and target number. -/
theorem handleWorkerResult_frame (fin : Header) (res r : worker)
    (hfail : failedOther res)
    (hret : (handleWorkerResult (Except.ok fin) res).ret = some r) :
    r.direction = res.direction ∧ r.requestData = res.requestData ∧
      (∀ startNumber targetNumber : Nat,
        res.startNumber = some startNumber → res.targetNumber = some targetNumber →
        fin.Number < startNumber → fin.Number < targetNumber →
        r.startHash = res.startHash ∧ r.startNumber = res.startNumber ∧
        r.targetHash = res.targetHash ∧ r.targetNumber = res.targetNumber) := by
  obtain ⟨werr, he, hup⟩ := hfail
  cases hs : res.startNumber with
  | none => simp [handleWorkerResult, he, hup, hs] at hret
  | some s =>
    cases ht : res.targetNumber with
    | none => simp [handleWorkerResult, he, hup, hs, ht] at hret
    | some t =>
      simp only [handleWorkerResult, he, hup, hs, ht, Bool.false_eq_true, if_false] at hret
      split_ifs at hret <;> simp at hret <;> subst hret <;> refine ⟨rfl, rfl, ?_⟩ <;>
        intro s1 t1 hs1 ht1 hlt1 hlt2 <;> cases hs1 <;> cases ht1 <;>
        first
          | (exfalso; omega)
          | simp [retryOf, hs, ht]

theorem handleWorkerResult_frame_witness :
    (retryOf sampleAbove).direction = sampleAbove.direction ∧
      (retryOf sampleAbove).requestData = sampleAbove.requestData ∧
      (∀ startNumber targetNumber : Nat,
        sampleAbove.startNumber = some startNumber →
        sampleAbove.targetNumber = some targetNumber →
        sampleFin.Number < startNumber → sampleFin.Number < targetNumber →
        (retryOf sampleAbove).startHash = sampleAbove.startHash ∧
        (retryOf sampleAbove).startNumber = sampleAbove.startNumber ∧
        (retryOf sampleAbove).targetHash = sampleAbove.targetHash ∧
        (retryOf sampleAbove).targetNumber = sampleAbove.targetNumber) :=
  handleWorkerResult_frame sampleFin sampleAbove (retryOf sampleAbove)
    ⟨sampleFailure, rfl, by decide⟩ (by decide)

/-! ## Claims about `handleNewPeerState` -/

/-- C10: for a peer announcement whose number is absent `handleNewPeerState` fails with
`errNilPeerStateNumber` and returns no worker, whatever the oracle would answer. -/
theorem handleNewPeerState_nil_number (fin : Except GoError Header) (ps : peerState)
    (hnil : ps.number = none) :
    handleNewPeerState fin ps = (none, some GoError.errNilPeerStateNumber) := by
  simp [handleNewPeerState, hnil]

theorem handleNewPeerState_nil_number_witness :
    handleNewPeerState (Except.ok sampleFin) sampleNoNumber =
      (none, some GoError.errNilPeerStateNumber) :=
  handleNewPeerState_nil_number (Except.ok sampleFin) sampleNoNumber rfl

/-! ## Claims about `hasCurrentWorker` -/

theorem hasCurrentWorkerLoop_cons (w : worker) (wStart wTarget : Nat) (key : Nat)
    (curr : worker) (rest : List (Nat × worker)) (cStart cTarget : Nat)
    (hdir : w.direction = Ascending ∨ w.direction = Descending)
    (hws : wStart < 2 ^ 63) (hwt : wTarget < 2 ^ 63)
    (hcs : curr.startNumber = some cStart) (hct : curr.targetNumber = some cTarget)
    (hcsb : cStart < 2 ^ 63) (hctb : cTarget < 2 ^ 63) :
    (coveredBy w wStart wTarget curr →
        hasCurrentWorkerLoop w wStart wTarget ((key, curr) :: rest) = (true, none)) ∧
      (¬ coveredBy w wStart wTarget curr →
        hasCurrentWorkerLoop w wStart wTarget ((key, curr) :: rest) =
          hasCurrentWorkerLoop w wStart wTarget rest) := by
  have hT := intSub_toInt wTarget cTarget hwt hctb
  have hS := intSub_toInt wStart cStart hws hcsb
  have hR := outsideRange_eq_false_iff w.direction hdir wStart wTarget cStart cTarget
  constructor
  · rintro ⟨h1, h2, ⟨es, et, hes, het, hrc⟩, h4⟩
    rw [hcs] at hes
    rw [hct] at het
    cases hes
    cases het
    have hO := hR.mpr hrc
    simp only [hasCurrentWorkerLoop, hcs, hct, hT, hS, hO]
    simp [h1, h2, Hash.Equal, h4]
  · intro hnot
    by_cases hsame : w.direction ≠ curr.direction ∨ w.requestData ≠ curr.requestData
    · simp only [hasCurrentWorkerLoop, if_pos hsame]
    · have hsame1 : w.direction = curr.direction ∧ w.requestData = curr.requestData := by
        constructor
        · by_contra h
          exact hsame (Or.inl h)
        · by_contra h
          exact hsame (Or.inr h)
      simp only [hasCurrentWorkerLoop, if_neg hsame, hcs, hct, hT, hS]
      cases hO : outsideRange w.direction ((wTarget : Int) - cTarget) ((wStart : Int) - cStart)
      · have hrc := hR.mp hO
        have hh : ¬ (w.startHash = curr.startHash ∨ w.targetHash = curr.targetHash) :=
          fun h4 => hnot ⟨hsame1.1, hsame1.2, ⟨cStart, cTarget, hcs, hct, hrc⟩, h4⟩
        have hh1 : (w.startHash.Equal curr.startHash || w.targetHash.Equal curr.targetHash)
            = false := by
          simpa [Hash.Equal] using hh
        simp [hh1]
      · simp

theorem hasCurrentWorkerLoop_spec (w : worker) (wStart wTarget : Nat)
    (hdir : w.direction = Ascending ∨ w.direction = Descending)
    (hws : wStart < 2 ^ 63) (hwt : wTarget < 2 ^ 63) (workers : List (Nat × worker))
    (hall : ∀ p ∈ workers, ∃ cStart cTarget, p.2.startNumber = some cStart ∧
      p.2.targetNumber = some cTarget ∧ cStart < 2 ^ 63 ∧ cTarget < 2 ^ 63) :
    ((∃ p ∈ workers, coveredBy w wStart wTarget p.2) →
        hasCurrentWorkerLoop w wStart wTarget workers = (true, none)) ∧
      (¬ (∃ p ∈ workers, coveredBy w wStart wTarget p.2) →
        hasCurrentWorkerLoop w wStart wTarget workers = (false, none)) := by
  induction workers with
  | nil =>
    constructor
    · rintro ⟨p, hp, _⟩
      cases hp
    · intro _
      rfl
  | cons p rest ih =>
    obtain ⟨key, curr⟩ := p
    obtain ⟨cStart, cTarget, hcs, hct, hcsb, hctb⟩ := hall (key, curr) (List.mem_cons_self _ _)
    have ih1 := ih (fun q hq => hall q (List.mem_cons_of_mem _ hq))
    have hstep := hasCurrentWorkerLoop_cons w wStart wTarget key curr rest cStart cTarget
      hdir hws hwt hcs hct hcsb hctb
    by_cases hc : coveredBy w wStart wTarget curr
    · constructor
      · intro _
        exact hstep.1 hc
      · intro hno
        exact absurd ⟨(key, curr), List.mem_cons_self _ _, hc⟩ hno
    · rw [hstep.2 hc]
      constructor
      · rintro ⟨q, hq, hqc⟩
        rcases List.mem_cons.mp hq with hq1 | hq1
        · subst hq1
          exact absurd hqc hc
        · exact ih1.1 ⟨q, hq1, hqc⟩
      · intro hno
        exact ih1.2 (fun ⟨q, hq, hqc⟩ => hno ⟨q, List.mem_cons_of_mem _ hq, hqc⟩)

/-- C1: for a candidate with both numbers present (direction `Ascending` or `Descending`) and
a map in which every worker has both numbers, all numbers below `2 ^ 63`, `hasCurrentWorker`
returns `(true, nil)` exactly when some worker of the map has the candidate's direction and
request byte, contains its range, and shares its start hash or its target hash; in every
other case it returns `(false, nil)`. -/
theorem hasCurrentWorker_spec (w : worker) (wStart wTarget : Nat)
    (workers : List (Nat × worker))
    (hs : w.startNumber = some wStart) (ht : w.targetNumber = some wTarget)
    (hdir : w.direction = Ascending ∨ w.direction = Descending)
    (hws : wStart < 2 ^ 63) (hwt : wTarget < 2 ^ 63)
    (hall : ∀ p ∈ workers, ∃ cStart cTarget, p.2.startNumber = some cStart ∧
      p.2.targetNumber = some cTarget ∧ cStart < 2 ^ 63 ∧ cTarget < 2 ^ 63) :
    (hasCurrentWorker (some w) workers = (true, none) ↔
        ∃ p ∈ workers, coveredBy w wStart wTarget p.2) ∧
      (¬ (∃ p ∈ workers, coveredBy w wStart wTarget p.2) →
        hasCurrentWorker (some w) workers = (false, none)) := by
  have hloop := hasCurrentWorkerLoop_spec w wStart wTarget hdir hws hwt workers hall
  have heq : hasCurrentWorker (some w) workers =
      hasCurrentWorkerLoop w wStart wTarget workers := by
    simp [hasCurrentWorker, hs, ht]
  rw [heq]
  refine ⟨⟨fun htrue => ?_, hloop.1⟩, hloop.2⟩
  by_contra hno
  rw [hloop.2 hno] at htrue
  simp at htrue

theorem hasCurrentWorker_spec_witness :
    (hasCurrentWorker (some sampleCandidate) [(7, sampleAscending), (8, sampleDescending)]
          = (true, none) ↔
        ∃ p ∈ [(7, sampleAscending), (8, sampleDescending)],
          coveredBy sampleCandidate 3 4 p.2) ∧
      (¬ (∃ p ∈ [(7, sampleAscending), (8, sampleDescending)],
            coveredBy sampleCandidate 3 4 p.2) →
        hasCurrentWorker (some sampleCandidate) [(7, sampleAscending), (8, sampleDescending)]
          = (false, none)) :=
  hasCurrentWorker_spec sampleCandidate 3 4 [(7, sampleAscending), (8, sampleDescending)]
    rfl rfl (Or.inl rfl) (by decide) (by decide)
    (by
      intro p hp
      simp only [List.mem_cons, List.mem_singleton, List.not_mem_nil, or_false] at hp
      rcases hp with hp | hp
      · subst hp
        exact ⟨1, 10, rfl, rfl, by decide, by decide⟩
      · subst hp
        exact ⟨10, 1, rfl, rfl, by decide, by decide⟩)


/-! ## The pending set, the ready queue and the promotion cascade -/

theorem mem_removeBlock (pending : List pendingBlock) (hash : Hash) (b : pendingBlock) :
    b ∈ removeBlock pending hash ↔ b ∈ pending ∧ b.hash ≠ hash := by
  simp [removeBlock]

theorem removeBlock_sublist (pending : List pendingBlock) (hash : Hash) :
    (removeBlock pending hash).Sublist pending :=
  List.filter_sublist pending

theorem mem_foldl_removeBlock (found : List BlockData) (pending : List pendingBlock)
    (b : pendingBlock) :
    b ∈ found.foldl (fun p rb => removeBlock p rb.Hash) pending ↔
      b ∈ pending ∧ ∀ rb ∈ found, b.hash ≠ rb.Hash := by
  induction found generalizing pending with
  | nil => simp
  | cons rb rest ih =>
    simp only [List.foldl_cons, ih, mem_removeBlock, List.mem_cons, forall_eq_or_imp]
    tauto

theorem foldl_removeBlock_sublist (found : List BlockData) (pending : List pendingBlock) :
    (found.foldl (fun p rb => removeBlock p rb.Hash) pending).Sublist pending := by
  induction found generalizing pending with
  | nil => exact List.Sublist.refl _
  | cons rb rest ih =>
    exact (ih (removeBlock pending rb.Hash)).trans (removeBlock_sublist pending rb.Hash)

theorem blockQueueHas_iff (ready : List BlockData) (hash : Hash) :
    blockQueueHas ready hash = true ↔ ∃ bd ∈ ready, bd.Hash = hash := by
  simp [blockQueueHas]

theorem blockQueueHas_append_left (ready more : List BlockData) (hash : Hash)
    (h : blockQueueHas ready hash = true) : blockQueueHas (ready ++ more) hash = true := by
  rw [blockQueueHas_iff] at h ⊢
  obtain ⟨bd, hbd, hh⟩ := h
  exact ⟨bd, List.mem_append_left _ hbd, hh⟩

theorem hash_injective_of_nodup (pending : List pendingBlock)
    (hnodup : (pending.map (fun b => b.hash)).Nodup) (a b : pendingBlock)
    (ha : a ∈ pending) (hb : b ∈ pending) (hab : a.hash = b.hash) : a = b :=
  List.inj_on_of_nodup_map hnodup ha hb hab

theorem nodup_of_sublist (sub pending : List pendingBlock) (hsub : sub.Sublist pending)
    (hnodup : (pending.map (fun b => b.hash)).Nodup) : (sub.map (fun b => b.hash)).Nodup :=
  List.Nodup.sublist (hsub.map _) hnodup

/-- The cascade only appends: the result is the collected list followed by the descendants; a
descendant is the block data of a pending block whose parent stands before it in the result. -/
theorem getReadyDescendants_chain (fuel : Nat) (pending : List pendingBlock)
    (ready : List BlockData) :
    ∃ more, getReadyDescendants fuel pending ready = ready ++ more ∧
      ∀ before rb after, more = before ++ rb :: after →
        ∃ c ∈ pending, rb = c.toBlockData ∧ hasReadyParent (ready ++ before) c = true := by
  induction fuel generalizing pending ready with
  | zero => exact ⟨[], by simp [getReadyDescendants], by simp⟩
  | succ fuel ih =>
    cases hfind : pending.find? (hasReadyParent ready) with
    | none => exact ⟨[], by simp [getReadyDescendants, hfind], by simp⟩
    | some child =>
      obtain ⟨more, hmore, hchain⟩ :=
        ih (removeBlock pending child.hash) (ready ++ [child.toBlockData])
      refine ⟨child.toBlockData :: more, ?_, ?_⟩
      · simp only [getReadyDescendants, hfind, hmore, List.append_assoc, List.singleton_append]
      · intro before rb after hsplit
        cases before with
        | nil =>
          simp only [List.nil_append, List.cons.injEq] at hsplit
          refine ⟨child, List.mem_of_find?_eq_some hfind, hsplit.1.symm, ?_⟩
          simpa using List.find?_some hfind
        | cons first before1 =>
          simp only [List.cons_append, List.cons.injEq] at hsplit
          obtain ⟨c, hc, hrb, hpar⟩ := hchain before1 rb after hsplit.2
          refine ⟨c, ((mem_removeBlock _ _ _).mp hc).1, hrb, ?_⟩
          rw [← hsplit.1]
          simpa [List.append_assoc] using hpar

/-- The cascade is complete: with fuel for every pending block, a pending block whose parent
is in the result is itself among the descendants. -/
theorem getReadyDescendants_closed (fuel : Nat) (pending : List pendingBlock)
    (ready : List BlockData) (hfuel : pending.length ≤ fuel) (c : pendingBlock)
    (hc : c ∈ pending)
    (hpar : hasReadyParent (getReadyDescendants fuel pending ready) c = true) :
    ∃ more, getReadyDescendants fuel pending ready = ready ++ more ∧
      ∃ rb ∈ more, rb.Hash = c.hash := by
  induction fuel generalizing pending ready with
  | zero =>
    have : pending = [] := List.length_eq_zero.mp (Nat.le_zero.mp hfuel)
    subst this
    cases hc
  | succ fuel ih =>
    cases hfind : pending.find? (hasReadyParent ready) with
    | none =>
      exfalso
      simp only [getReadyDescendants, hfind] at hpar
      exact (List.find?_eq_none.mp hfind) c hc hpar
    | some child =>
      have hchild : child ∈ pending := List.mem_of_find?_eq_some hfind
      have hlen : (removeBlock pending child.hash).length ≤ fuel := by
        have hlt : (removeBlock pending child.hash).length < pending.length := by
          unfold removeBlock
          exact List.length_filter_lt_length_iff_exists.mpr ⟨child, hchild, by simp⟩
        omega
      have hout : getReadyDescendants (fuel + 1) pending ready =
          getReadyDescendants fuel (removeBlock pending child.hash)
            (ready ++ [child.toBlockData]) := by
        simp only [getReadyDescendants, hfind]
      by_cases hsame : c.hash = child.hash
      · obtain ⟨more, hmore, _⟩ :=
          getReadyDescendants_chain fuel (removeBlock pending child.hash)
            (ready ++ [child.toBlockData])
        refine ⟨child.toBlockData :: more, ?_, child.toBlockData, List.mem_cons_self _ _, ?_⟩
        · rw [hout, hmore]; simp
        · simp [pendingBlock.toBlockData, hsame]
      · have hc1 : c ∈ removeBlock pending child.hash := (mem_removeBlock _ _ _).mpr ⟨hc, hsame⟩
        rw [hout] at hpar
        obtain ⟨more, hmore, rb, hrb, hhash⟩ :=
          ih (removeBlock pending child.hash) (ready ++ [child.toBlockData]) hlen hc1 hpar
        refine ⟨child.toBlockData :: more, ?_, rb, List.mem_cons_of_mem _ hrb, hhash⟩
        rw [hout, hmore]; simp

theorem handleReadyBlock_ready (bd : BlockData) (pending : List pendingBlock)
    (ready : List BlockData) :
    ∃ more, getReadyDescendants pending.length pending [bd] = bd :: more ∧
      (handleReadyBlock bd pending ready).2 = ready ++ bd :: more ∧
      (∀ b, b ∈ (handleReadyBlock bd pending ready).1 ↔
        b ∈ pending ∧ b.hash ≠ bd.Hash ∧ ∀ rb ∈ more, b.hash ≠ rb.Hash) ∧
      ∀ before rb after, more = before ++ rb :: after →
        ∃ c ∈ pending, rb = c.toBlockData ∧ hasReadyParent (bd :: before) c = true := by
  obtain ⟨more, hmore, hchain⟩ := getReadyDescendants_chain pending.length pending [bd]
  refine ⟨more, by simpa using hmore, ?_, ?_, ?_⟩
  · simp [handleReadyBlock, hmore]
  · intro b
    simp only [handleReadyBlock, hmore, mem_foldl_removeBlock, List.singleton_append,
      List.mem_cons, forall_eq_or_imp]
  · intro before rb after hsplit
    simpa using hchain before rb after hsplit

theorem handleReadyBlock_sublist (bd : BlockData) (pending : List pendingBlock)
    (ready : List BlockData) : (handleReadyBlock bd pending ready).1.Sublist pending :=
  foldl_removeBlock_sublist _ pending



/-! ## One visit of the loop of `handleTick` -/

/-- The ways the loop body reaches the next block: it prunes the block, it appends one of the
three workers, or it promotes the block. -/
theorem handleTickVisit_next (fin : Header) (hasHeader : Hash → Except GoError Bool)
    (block : pendingBlock) (st st1 : TickState)
    (h : handleTickVisit fin hasHeader block st = Visit.next st1) :
    ∃ number, block.number = some number ∧
      ((number ≤ fin.Number ∧
          st1 = { st with pending := removeBlock st.pending block.hash }) ∨
        (fin.Number < number ∧ block.header = none ∧
          st1 = { st with
                  emitted := st.emitted ++ [(block.hash, headerUnknownWorker fin block)] }) ∨
        (fin.Number < number ∧ (∃ header, block.header = some header) ∧ block.body = none ∧
          st1 = { st with emitted := st.emitted ++ [(block.hash, bodyUnknownWorker block)] }) ∨
        (fin.Number < number ∧
          ∃ header body has, block.header = some header ∧ block.body = some body ∧
            hasHeader header.ParentHash = Except.ok has ∧
            (has || blockQueueHas st.ready header.ParentHash) = true ∧
            st1 = { st with
                    pending := (handleReadyBlock block.toBlockData st.pending st.ready).1
                    ready := (handleReadyBlock block.toBlockData st.pending st.ready).2 }) ∨
        (fin.Number < number ∧
          ∃ header body, block.header = some header ∧ block.body = some body ∧
            hasHeader header.ParentHash = Except.ok false ∧
            blockQueueHas st.ready header.ParentHash = false ∧
            st1 = { st with
                    emitted :=
                      st.emitted ++ [(block.hash, ancestorWorker fin header number)] })) := by
  cases hn : block.number with
  | none => simp [handleTickVisit, hn] at h
  | some number =>
    refine ⟨number, rfl, ?_⟩
    by_cases hle : number ≤ fin.Number
    · left
      simp only [handleTickVisit, hn, if_pos hle, Visit.next.injEq] at h
      exact ⟨hle, h.symm⟩
    · right
      have hlt : fin.Number < number := not_le.mp hle
      cases hh : block.header with
      | none =>
        left
        simp only [handleTickVisit, hn, if_neg hle, hh, Visit.next.injEq] at h
        exact ⟨hlt, rfl, h.symm⟩
      | some header =>
        right
        cases hb : block.body with
        | none =>
          left
          simp only [handleTickVisit, hn, if_neg hle, hh, hb, Visit.next.injEq] at h
          exact ⟨hlt, ⟨header, rfl⟩, rfl, h.symm⟩
        | some body =>
          right
          cases ho : hasHeader header.ParentHash with
          | error err => simp [handleTickVisit, hn, hle, hh, hb, ho] at h
          | ok has =>
            by_cases hk : (has || blockQueueHas st.ready header.ParentHash) = true
            · left
              simp only [handleTickVisit, hn, if_neg hle, hh, hb, ho, if_pos hk,
                Visit.next.injEq] at h
              exact ⟨hlt, header, body, has, rfl, rfl, ho, hk, h.symm⟩
            · right
              simp only [handleTickVisit, hn, if_neg hle, hh, hb, ho, if_neg hk,
                Visit.next.injEq] at h
              simp only [Bool.or_eq_true, not_or, Bool.not_eq_true] at hk
              refine ⟨hlt, header, body, rfl, rfl, ?_, hk.2, h.symm⟩
              rw [ho, hk.1]

/-- A visit never returns `errNilPendingBlockNumber` of its own: a returned error is an answer
of `HasHeader`. -/
theorem handleTickVisit_returned (fin : Header) (hasHeader : Hash → Except GoError Bool)
    (block : pendingBlock) (st : TickState) (err : GoError)
    (h : handleTickVisit fin hasHeader block st = Visit.returned err) :
    ∃ hash, hasHeader hash = Except.error err := by
  cases hn : block.number with
  | none => simp [handleTickVisit, hn] at h
  | some number =>
    by_cases hle : number ≤ fin.Number
    · simp [handleTickVisit, hn, hle] at h
    · cases hh : block.header with
      | none => simp [handleTickVisit, hn, hle, hh] at h
      | some header =>
        cases hb : block.body with
        | none => simp [handleTickVisit, hn, hle, hh, hb] at h
        | some body =>
          cases ho : hasHeader header.ParentHash with
          | error e =>
            simp only [handleTickVisit, hn, if_neg hle, hh, hb, ho, Visit.returned.injEq] at h
            exact ⟨header.ParentHash, by rw [ho, h]⟩
          | ok has =>
            by_cases hk : (has || blockQueueHas st.ready header.ParentHash) = true
            · simp [handleTickVisit, hn, hle, hh, hb, ho, hk] at h
            · simp [handleTickVisit, hn, hle, hh, hb, ho, hk] at h

/-- A block without a number makes the visit panic, whatever else is known of it. -/
theorem handleTickVisit_nil_number (fin : Header) (hasHeader : Hash → Except GoError Bool)
    (block : pendingBlock) (st : TickState) (hnil : block.number = none) :
    handleTickVisit fin hasHeader block st = Visit.panicked := by
  simp [handleTickVisit, hnil]

/-- A visit only shrinks the pending set, only extends the ready queue, and appends at most
one worker, recorded under the hash of the visited block. -/
theorem handleTickVisit_frame (fin : Header) (hasHeader : Hash → Except GoError Bool)
    (block : pendingBlock) (st st1 : TickState)
    (h : handleTickVisit fin hasHeader block st = Visit.next st1) :
    st1.pending.Sublist st.pending ∧ (∃ more, st1.ready = st.ready ++ more) ∧
      (st1.emitted = st.emitted ∨ ∃ w, st1.emitted = st.emitted ++ [(block.hash, w)]) := by
  obtain ⟨number, _, hcase⟩ := handleTickVisit_next fin hasHeader block st st1 h
  rcases hcase with ⟨_, rfl⟩ | ⟨_, _, rfl⟩ | ⟨_, _, _, rfl⟩ | ⟨_, header, body, has, _, _, _, _, rfl⟩ |
    ⟨_, header, body, _, _, _, _, rfl⟩
  · exact ⟨removeBlock_sublist _ _, ⟨[], by simp⟩, Or.inl rfl⟩
  · exact ⟨List.Sublist.refl _, ⟨[], by simp⟩, Or.inr ⟨_, rfl⟩⟩
  · exact ⟨List.Sublist.refl _, ⟨[], by simp⟩, Or.inr ⟨_, rfl⟩⟩
  · obtain ⟨more, _, hready, _, _⟩ := handleReadyBlock_ready block.toBlockData st.pending st.ready
    exact ⟨handleReadyBlock_sublist block.toBlockData st.pending st.ready, ⟨_, hready⟩,
      Or.inl rfl⟩
  · exact ⟨List.Sublist.refl _, ⟨[], by simp⟩, Or.inr ⟨_, rfl⟩⟩

/-- Workers recorded under another hash are not touched by the visit of a block. -/
theorem handleTickVisit_filter (fin : Header) (hasHeader : Hash → Except GoError Bool)
    (block : pendingBlock) (st st1 : TickState) (hash : Hash)
    (h : handleTickVisit fin hasHeader block st = Visit.next st1) (hne : block.hash ≠ hash) :
    st1.emitted.filter (fun e => decide (e.1 = hash)) =
      st.emitted.filter (fun e => decide (e.1 = hash)) := by
  rcases (handleTickVisit_frame fin hasHeader block st st1 h).2.2 with he | ⟨w, he⟩
  · rw [he]
  · rw [he]; simp [hne]

/-! ## The loop of `handleTick` -/

/-- Induction over a scan that reaches `return workers, nil`: a property of the blocks still
to visit and of the state, kept by every visit, holds at the end; `pending0` and `ready0` are
the pending set and the ready queue at the start of the scan. -/
theorem handleTickLoop_induction (fin : Header) (hasHeader : Hash → Except GoError Bool)
    (pending0 : List pendingBlock) (ready0 : List BlockData)
    (Inv : List pendingBlock → TickState → Prop)
    (hstep : ∀ block rest st st1, (∃ visited, pending0 = visited ++ block :: rest) →
      st.pending.Sublist pending0 → (∃ more, st.ready = ready0 ++ more) →
      Inv (block :: rest) st → handleTickVisit fin hasHeader block st = Visit.next st1 →
      Inv rest st1)
    (blocks : List pendingBlock) (st : TickState) (ws : List worker)
    (hblocks : ∃ visited, pending0 = visited ++ blocks)
    (hsub : st.pending.Sublist pending0) (hready : ∃ more, st.ready = ready0 ++ more)
    (hinv : Inv blocks st)
    (hret : (handleTickLoop fin hasHeader blocks st).ret = some (ws, none)) :
    Inv [] (handleTickLoop fin hasHeader blocks st).st ∧
      ws = (handleTickLoop fin hasHeader blocks st).st.emitted.map Prod.snd ∧
      (handleTickLoop fin hasHeader blocks st).st.pending.Sublist pending0 ∧
      ∃ more, (handleTickLoop fin hasHeader blocks st).st.ready = ready0 ++ more := by
  induction blocks generalizing st with
  | nil =>
    simp only [handleTickLoop, Option.some.injEq, Prod.mk.injEq, and_true] at hret
    exact ⟨hinv, hret.symm, hsub, hready⟩
  | cons block rest ih =>
    cases hv : handleTickVisit fin hasHeader block st with
    | next st1 =>
      simp only [handleTickLoop, hv] at hret ⊢
      obtain ⟨visited, hvis⟩ := hblocks
      obtain ⟨hs1, ⟨more1, hr1⟩, _⟩ := handleTickVisit_frame fin hasHeader block st st1 hv
      obtain ⟨more, hr⟩ := hready
      exact ih st1 ⟨visited ++ [block], by simp [hvis]⟩ (hs1.trans hsub)
        ⟨more ++ more1, by rw [hr1, hr, List.append_assoc]⟩
        (hstep block rest st st1 ⟨visited, hvis⟩ hsub ⟨more, hr⟩ hinv hv) hret
    | returned err => simp [handleTickLoop, hv] at hret
    | panicked => simp [handleTickLoop, hv] at hret

/-- Induction over any scan, also one cut short: a property of the state kept by every visit
holds of the state the call leaves behind. -/
theorem handleTickLoop_state (fin : Header) (hasHeader : Hash → Except GoError Bool)
    (Inv : TickState → Prop)
    (hstep : ∀ block st st1, Inv st → handleTickVisit fin hasHeader block st = Visit.next st1 →
      Inv st1)
    (blocks : List pendingBlock) (st : TickState) (hinv : Inv st) :
    Inv (handleTickLoop fin hasHeader blocks st).st := by
  induction blocks generalizing st with
  | nil => simpa [handleTickLoop] using hinv
  | cons block rest ih =>
    cases hv : handleTickVisit fin hasHeader block st with
    | next st1 =>
      simp only [handleTickLoop, hv]
      exact ih st1 (hstep block st st1 hinv hv)
    | returned err => simpa [handleTickLoop, hv] using hinv
    | panicked => simpa [handleTickLoop, hv] using hinv

/-- A successful call on a non-empty pending set is a full scan of the loop. -/
theorem handleTick_eq_loop (fin : Header) (hasHeader : Hash → Except GoError Bool)
    (pending : List pendingBlock) (ready : List BlockData) (hne : pending ≠ []) :
    handleTick (Except.ok fin) hasHeader pending ready =
      handleTickLoop fin hasHeader pending ⟨pending, ready, []⟩ := by
  have hlen : ¬ pending.length = 0 := fun h => hne (List.length_eq_zero.mp h)
  simp [handleTick, hlen]



/-! ## More claims about `handleNewPeerState` and `hasCurrentWorker` -/

/-- C11: for a peer announcement with a number below the number of the finalised header `F`,
`handleNewPeerState` returns no worker and no error (number 3 with `F.number = 5` is the
witness). -/
theorem handleNewPeerState_superseded (fin : Header) (ps : peerState) (number : Nat)
    (hn : ps.number = some number) (hlt : number < fin.Number) :
    handleNewPeerState (Except.ok fin) ps = (none, none) := by
  simp [handleNewPeerState, hn, hlt]

theorem handleNewPeerState_superseded_witness :
    handleNewPeerState (Except.ok sampleFin) samplePeerBehind = (none, none) :=
  handleNewPeerState_superseded sampleFin samplePeerBehind 3 rfl (by decide)

/-- C12: for a peer announcement with a number at or above the number of the finalised header
`F`, `handleNewPeerState` returns one worker and no error; the worker starts and ends at the
announced hash and number, its direction is `Ascending`, and it requests header, body and
justification. -/
theorem handleNewPeerState_worker (fin : Header) (ps : peerState) (number : Nat)
    (hn : ps.number = some number) (hge : fin.Number ≤ number) :
    ∃ w, handleNewPeerState (Except.ok fin) ps = (some w, none) ∧
      w.startHash = ps.hash ∧ w.targetHash = ps.hash ∧
      w.startNumber = some number ∧ w.targetNumber = some number ∧
      w.direction = Ascending ∧
      w.requestData =
        RequestedDataHeader + RequestedDataBody + RequestedDataJustification := by
  have hnlt : ¬ number < fin.Number := not_lt.mpr hge
  refine ⟨{ id := 0, startHash := ps.hash, startNumber := ps.number, targetHash := ps.hash,
            targetNumber := ps.number, direction := ⟨0⟩, requestData := bootstrapRequestData,
            err := none }, ?_, rfl, rfl, hn, hn, rfl, rfl⟩
  simp only [handleNewPeerState, hn, if_neg hnlt]

theorem handleNewPeerState_worker_witness :
    ∃ w, handleNewPeerState (Except.ok sampleFin) samplePeerAtFinalised = (some w, none) ∧
      w.startHash = samplePeerAtFinalised.hash ∧ w.targetHash = samplePeerAtFinalised.hash ∧
      w.startNumber = some 5 ∧ w.targetNumber = some 5 ∧
      w.direction = Ascending ∧
      w.requestData =
        RequestedDataHeader + RequestedDataBody + RequestedDataJustification :=
  handleNewPeerState_worker sampleFin samplePeerAtFinalised 5 rfl (by decide)

/-- C13: for a candidate that is nil, or lacks its start number, or lacks its target number,
`hasCurrentWorker` returns `(true, nil)` for every map, the empty one and those whose workers
lack numbers included. -/
theorem hasCurrentWorker_no_bounds (w : Option worker) (workers : List (Nat × worker))
    (hw : w = none ∨ ∃ x, w = some x ∧ (x.startNumber = none ∨ x.targetNumber = none)) :
    hasCurrentWorker w workers = (true, none) := by
  rcases hw with rfl | ⟨x, rfl, hx | hx⟩
  · rfl
  · simp [hasCurrentWorker, hx]
  · cases hs : x.startNumber <;> simp [hasCurrentWorker, hs, hx]

theorem hasCurrentWorker_no_bounds_witness :
    hasCurrentWorker (some sampleNoStart) [(10, sampleOrphan)] = (true, none) :=
  hasCurrentWorker_no_bounds (some sampleNoStart) [(10, sampleOrphan)]
    (Or.inr ⟨sampleNoStart, rfl, Or.inl rfl⟩)

/-! ## Helpers for the claims about `handleTick` -/

theorem uintPred_eq (n : Nat) (hpos : 0 < n) (hrep : n < uintSize) : uintPred n = n - 1 := by
  unfold uintPred
  unfold uintSize at hrep ⊢
  omega

/-- The visit of a fully known block above the finalised number either promotes it or appends
the ancestor worker. -/
theorem handleTickVisit_full (fin : Header) (hasHeader : Hash → Except GoError Bool)
    (block : pendingBlock) (st st1 : TickState) (number : Nat) (header : Header) (body : Body)
    (hn : block.number = some number) (hgt : fin.Number < number)
    (hh : block.header = some header) (hb : block.body = some body)
    (h : handleTickVisit fin hasHeader block st = Visit.next st1) :
    (∃ has, hasHeader header.ParentHash = Except.ok has ∧
        (has || blockQueueHas st.ready header.ParentHash) = true ∧
        st1 = { st with
                pending := (handleReadyBlock block.toBlockData st.pending st.ready).1
                ready := (handleReadyBlock block.toBlockData st.pending st.ready).2 }) ∨
      (hasHeader header.ParentHash = Except.ok false ∧
        blockQueueHas st.ready header.ParentHash = false ∧
        st1 = { st with
                emitted := st.emitted ++ [(block.hash, ancestorWorker fin header number)] }) := by
  obtain ⟨n1, hn1, hcase⟩ := handleTickVisit_next fin hasHeader block st st1 h
  rw [hn] at hn1
  cases hn1
  rcases hcase with ⟨hle, _⟩ | ⟨_, hnone, _⟩ | ⟨_, _, hnone, _⟩ |
    ⟨_, header1, body1, has, hh1, _, ho, hk, hst⟩ | ⟨_, header1, body1, hh1, _, ho, hk, hst⟩
  · omega
  · rw [hh] at hnone; cases hnone
  · rw [hb] at hnone; cases hnone
  · rw [hh] at hh1; cases hh1
    exact Or.inl ⟨has, ho, hk, hst⟩
  · rw [hh] at hh1; cases hh1
    exact Or.inr ⟨ho, hk, hst⟩

/-- A visit of another block leaves a pending block in the set, unless the block has a header
and a body and the parent its header names is in the ready queue after the visit. -/
theorem handleTickVisit_keeps (fin : Header) (hasHeader : Hash → Except GoError Bool)
    (block b : pendingBlock) (st st1 : TickState)
    (hnodup : (st.pending.map (fun x => x.hash)).Nodup)
    (h : handleTickVisit fin hasHeader block st = Visit.next st1)
    (hb : b ∈ st.pending) (hne : block.hash ≠ b.hash)
    (hpar : ∀ header body, b.header = some header → b.body = some body →
      blockQueueHas st1.ready header.ParentHash = false) :
    b ∈ st1.pending := by
  obtain ⟨number, _, hcase⟩ := handleTickVisit_next fin hasHeader block st st1 h
  rcases hcase with ⟨_, rfl⟩ | ⟨_, _, rfl⟩ | ⟨_, _, _, rfl⟩ | ⟨_, header, body, has, _, _, _, _, rfl⟩ |
    ⟨_, header, body, _, _, _, _, rfl⟩
  · exact (mem_removeBlock _ _ _).mpr ⟨hb, fun heq => hne heq.symm⟩
  · exact hb
  · exact hb
  · obtain ⟨more, _, hready, hmem, hchain⟩ :=
      handleReadyBlock_ready block.toBlockData st.pending st.ready
    refine (hmem b).mpr ⟨hb, fun heq => hne heq.symm, ?_⟩
    intro rb hrb heq
    obtain ⟨before, after, hsplit⟩ := List.append_of_mem hrb
    obtain ⟨c, hc, hrbc, hcpar⟩ := hchain before rb after hsplit
    have hcb : c = b := by
      apply hash_injective_of_nodup st.pending hnodup c b hc hb
      rw [heq, hrbc]
      rfl
    subst hcb
    cases hhd : c.header with
    | none => simp [hasReadyParent, hhd] at hcpar
    | some header1 =>
      cases hbody : c.body with
      | none => simp [hasReadyParent, hhd, hbody] at hcpar
      | some body1 =>
        have hfalse := hpar header1 body1 hhd hbody
        simp only [hasReadyParent, hhd, hbody] at hcpar
        simp only at hfalse
        rw [hready, hsplit] at hfalse
        have htrue : blockQueueHas (st.ready ++ block.toBlockData :: (before ++ rb :: after))
            header1.ParentHash = true := by
          rw [blockQueueHas_iff] at hcpar ⊢
          obtain ⟨bd, hbd, hh⟩ := hcpar
          refine ⟨bd, ?_, hh⟩
          rcases List.mem_cons.mp hbd with h1 | h1
          · subst h1; simp
          · simp [h1]
        rw [htrue] at hfalse
        cases hfalse
  · exact hb

/-- A returned error of `handleTick` is an answer of the oracle: the finalised header read or
a `HasHeader` call failed with it. -/
theorem handleTick_error_origin (fin : Except GoError Header)
    (hasHeader : Hash → Except GoError Bool) (pending : List pendingBlock)
    (ready : List BlockData) (ws : List worker) (err : GoError)
    (hret : (handleTick fin hasHeader pending ready).ret = some (ws, some err)) :
    fin = Except.error err ∨ ∃ hash, hasHeader hash = Except.error err := by
  unfold handleTick at hret
  split_ifs at hret with hlen
  · simp at hret
  · cases fin with
    | error e =>
      simp only [Option.some.injEq, Prod.mk.injEq] at hret
      left
      rw [hret.2]
    | ok fin =>
      right
      simp only at hret
      generalize (⟨pending, ready, []⟩ : TickState) = st at hret
      clear hlen
      induction pending generalizing st with
      | nil => simp [handleTickLoop] at hret
      | cons block rest ih =>
        cases hv : handleTickVisit fin hasHeader block st with
        | next st1 =>
          simp only [handleTickLoop, hv] at hret
          exact ih st1 hret
        | returned e =>
          simp only [handleTickLoop, hv, Option.some.injEq, Prod.mk.injEq] at hret
          have := handleTickVisit_returned fin hasHeader block st e hv
          rw [← hret.2]
          exact this
        | panicked => simp [handleTickLoop, hv] at hret

/-! ## Claims about `handleTick` -/

/-- C20: on a pending set with a fully known block without a number, whose parent is not
known, `handleTick` does not return `errNilPendingBlockNumber`: the loop reads
`*block.number` first and the call ends in a panic. -/
theorem handleTick_nil_number_panics :
    (handleTick (Except.ok sampleFin) sampleNoHeader [sampleNumberless] []).ret = none := by
  decide



theorem scan_split_facts (pending0 visited rest : List pendingBlock) (block : pendingBlock)
    (hnodup : (pending0.map (fun b => b.hash)).Nodup)
    (hsplit : pending0 = visited ++ block :: rest) :
    block ∈ pending0 ∧ (∀ y ∈ rest, y ∈ pending0) ∧ (∀ y ∈ rest, y.hash ≠ block.hash) := by
  subst hsplit
  refine ⟨by simp, fun y hy => by simp [hy], ?_⟩
  intro y hy heq
  rw [List.map_append, List.map_cons, List.nodup_append] at hnodup
  have hcons := hnodup.2.1
  rw [List.nodup_cons] at hcons
  exact hcons.1 (heq ▸ List.mem_map_of_mem (fun b => b.hash) hy)

/-- C14, as amended: after `handleTick` returns without error no block with number at or below
`F.number` remains in the pending set; no returned worker was appended while such a block was
visited, and every returned worker starts at a number at or above `F.number`. -/
theorem handleTick_prunes (fin : Header) (hasHeader : Hash → Except GoError Bool)
    (pending : List pendingBlock) (ready : List BlockData) (ws : List worker)
    (hnodup : (pending.map (fun b => b.hash)).Nodup)
    (hrep : ∀ b ∈ pending, ∀ n, b.number = some n → n < uintSize)
    (hret : (handleTick (Except.ok fin) hasHeader pending ready).ret = some (ws, none)) :
    (∀ b ∈ (handleTick (Except.ok fin) hasHeader pending ready).st.pending,
        ∃ n, b.number = some n ∧ fin.Number < n) ∧
      ws = (handleTick (Except.ok fin) hasHeader pending ready).st.emitted.map Prod.snd ∧
      (∀ b ∈ pending, ∀ n, b.number = some n → n ≤ fin.Number →
        ∀ e ∈ (handleTick (Except.ok fin) hasHeader pending ready).st.emitted, e.1 ≠ b.hash) ∧
      (∀ w ∈ ws, ∃ m, w.startNumber = some m ∧ fin.Number ≤ m) := by
  by_cases hne : pending = []
  · subst hne
    simp only [handleTick, List.length_nil, if_true, Option.some.injEq, Prod.mk.injEq,
      and_true] at hret
    subst hret
    simp [handleTick]
  · rw [handleTick_eq_loop fin hasHeader pending ready hne] at hret ⊢
    have hmain := handleTickLoop_induction fin hasHeader pending ready
      (fun blocks st =>
        (∀ b ∈ st.pending, (∃ n, b.number = some n ∧ fin.Number < n) ∨ b ∈ blocks) ∧
        (∀ e ∈ st.emitted, ∃ b ∈ pending, b.hash = e.1 ∧ ∃ n, b.number = some n ∧
          fin.Number < n ∧ ∃ m, e.2.startNumber = some m ∧ fin.Number ≤ m))
      (by
        intro block rest st st1 hvis _ _ hinv hv
        obtain ⟨visited, hsplit⟩ := hvis
        obtain ⟨hblock, _, _⟩ := scan_split_facts pending visited rest block hnodup hsplit
        obtain ⟨hpend, hemit⟩ := hinv
        obtain ⟨number, hn, hcase⟩ := handleTickVisit_next fin hasHeader block st st1 hv
        have hrepn := hrep block hblock number hn
        have hgood : fin.Number < number →
            ∀ b ∈ st.pending, (∃ n, b.number = some n ∧ fin.Number < n) ∨ b ∈ rest := by
          intro hgt b hb
          rcases hpend b hb with hg | hmem
          · exact Or.inl hg
          · rcases List.mem_cons.mp hmem with heq | hrest
            · subst heq
              exact Or.inl ⟨number, hn, hgt⟩
            · exact Or.inr hrest
        have hnew : ∀ w : worker, fin.Number < number →
            (∃ m, w.startNumber = some m ∧ fin.Number ≤ m) →
            ∀ e ∈ st.emitted ++ [(block.hash, w)], ∃ b ∈ pending, b.hash = e.1 ∧
              ∃ n, b.number = some n ∧ fin.Number < n ∧
                ∃ m, e.2.startNumber = some m ∧ fin.Number ≤ m := by
          intro w hgt hw e he
          rcases List.mem_append.mp he with h1 | h1
          · exact hemit e h1
          · simp only [List.mem_singleton] at h1
            subst h1
            exact ⟨block, hblock, rfl, number, hn, hgt, hw⟩
        rcases hcase with ⟨hle, rfl⟩ | ⟨hgt, _, rfl⟩ | ⟨hgt, _, _, rfl⟩ |
          ⟨hgt, header, body, has, _, _, _, _, rfl⟩ | ⟨hgt, header, body, _, _, _, _, rfl⟩
        · refine ⟨?_, hemit⟩
          intro b hb
          obtain ⟨hb1, hb2⟩ := (mem_removeBlock _ _ _).mp hb
          rcases hpend b hb1 with hg | hmem
          · exact Or.inl hg
          · rcases List.mem_cons.mp hmem with heq | hrest
            · subst heq
              exact absurd rfl hb2
            · exact Or.inr hrest
        · exact ⟨hgood hgt, hnew _ hgt ⟨number, hn, le_of_lt hgt⟩⟩
        · exact ⟨hgood hgt, hnew _ hgt ⟨number, hn, le_of_lt hgt⟩⟩
        · refine ⟨?_, hemit⟩
          intro b hb
          exact hgood hgt b
            ((handleReadyBlock_sublist block.toBlockData st.pending st.ready).subset hb)
        · refine ⟨hgood hgt, hnew _ hgt ⟨number - 1, ?_, by omega⟩⟩
          simp only [ancestorWorker]
          rw [uintPred_eq number (by omega) hrepn])
      pending ⟨pending, ready, []⟩ ws ⟨[], rfl⟩ (List.Sublist.refl _) ⟨[], by simp⟩
      ⟨fun b hb => Or.inr hb, by simp⟩ hret
    obtain ⟨⟨hpend, hemit⟩, hws, _, _⟩ := hmain
    refine ⟨?_, hws, ?_, ?_⟩
    · intro b hb
      rcases hpend b hb with hg | hmem
      · exact hg
      · cases hmem
    · intro b hb n hn hle e he heq
      obtain ⟨b1, hb1, hhash, n1, hn1, hgt, _⟩ := hemit e he
      have hsame : b1 = b :=
        hash_injective_of_nodup pending hnodup b1 b hb1 hb (by rw [hhash, heq])
      subst hsame
      rw [hn] at hn1
      cases hn1
      omega
    · intro w hw
      rw [hws] at hw
      obtain ⟨e, he, rfl⟩ := List.mem_map.mp hw
      obtain ⟨_, _, _, _, _, _, hm⟩ := hemit e he
      exact hm

theorem handleTick_prunes_witness :
    (∀ b ∈ (handleTick (Except.ok sampleFin) sampleNoHeader
          [samplePruned, sampleHashOnly] []).st.pending,
        ∃ n, b.number = some n ∧ sampleFin.Number < n) ∧
      [headerUnknownWorker sampleFin sampleHashOnly] =
        (handleTick (Except.ok sampleFin) sampleNoHeader
          [samplePruned, sampleHashOnly] []).st.emitted.map Prod.snd ∧
      (∀ b ∈ [samplePruned, sampleHashOnly], ∀ n, b.number = some n → n ≤ sampleFin.Number →
        ∀ e ∈ (handleTick (Except.ok sampleFin) sampleNoHeader
          [samplePruned, sampleHashOnly] []).st.emitted, e.1 ≠ b.hash) ∧
      (∀ w ∈ [headerUnknownWorker sampleFin sampleHashOnly],
        ∃ m, w.startNumber = some m ∧ sampleFin.Number ≤ m) :=
  handleTick_prunes sampleFin sampleNoHeader [samplePruned, sampleHashOnly] []
    [headerUnknownWorker sampleFin sampleHashOnly] (by decide)
    (by
      intro b hb n hn
      simp only [List.mem_cons, List.mem_singleton, List.not_mem_nil, or_false] at hb
      rcases hb with rfl | rfl
      · have h1 : n = 5 := (Option.some.inj hn).symm
        subst h1; decide
      · have h1 : n = 10 := (Option.some.inj hn).symm
        subst h1; decide)
    (by decide)

/-- C14 fails as stated: the pruned block `samplePruned` has the finalised number 5, and the
worker returned for its child starts at its hash and its number. -/
theorem handleTick_prunes_counterexample :
    (handleTick (Except.ok sampleFin) sampleNoHeader [samplePruned, samplePrunedChild] []).ret
        = some ([ancestorWorker sampleFin ⟨⟨110⟩, 6, ⟨111⟩⟩ 6], none) ∧
      samplePruned.number = some 5 ∧ 5 ≤ sampleFin.Number ∧
      (ancestorWorker sampleFin ⟨⟨110⟩, 6, ⟨111⟩⟩ 6).startHash = samplePruned.hash ∧
      (ancestorWorker sampleFin ⟨⟨110⟩, 6, ⟨111⟩⟩ 6).startNumber = samplePruned.number := by
  decide



theorem scan_other_block (pending0 visited rest : List pendingBlock) (block b : pendingBlock)
    (hnodup : (pending0.map (fun x => x.hash)).Nodup)
    (hsplit : pending0 = visited ++ block :: rest) (hb : b ∈ pending0) (hne : block ≠ b) :
    block.hash ≠ b.hash ∧ (b ∈ block :: rest → b ∈ rest) := by
  obtain ⟨hblock, _, _⟩ := scan_split_facts pending0 visited rest block hnodup hsplit
  refine ⟨fun heq => hne (hash_injective_of_nodup pending0 hnodup block b hblock hb heq), ?_⟩
  intro hmem
  rcases List.mem_cons.mp hmem with heq | hrest
  · exact absurd heq.symm hne
  · exact hrest

theorem filter_append_tagged (emitted : List (Hash × worker)) (hash : Hash) (w : worker) :
    (emitted ++ [(hash, w)]).filter (fun e => decide (e.1 = hash)) =
      emitted.filter (fun e => decide (e.1 = hash)) ++ [(hash, w)] := by
  simp

/-- C15, as amended: in a call that returns without error, a pending block with number above
`F.number` whose header is unknown gets exactly one worker: `Descending`, from the block's
hash and number to `F.number` and the hash of `F`, requesting header, body and justification;
the block stays in the pending set.  A pending set that holds only this block yields exactly
this worker. -/
theorem handleTick_header_unknown (fin : Header) (hasHeader : Hash → Except GoError Bool)
    (pending : List pendingBlock) (ready : List BlockData) (ws : List worker)
    (b : pendingBlock) (n : Nat)
    (hnodup : (pending.map (fun x => x.hash)).Nodup) (hb : b ∈ pending)
    (hn : b.number = some n) (hgt : fin.Number < n) (hh : b.header = none)
    (hret : (handleTick (Except.ok fin) hasHeader pending ready).ret = some (ws, none)) :
    ∃ w, (handleTick (Except.ok fin) hasHeader pending ready).st.emitted.filter
          (fun e => decide (e.1 = b.hash)) = [(b.hash, w)] ∧
      ws = (handleTick (Except.ok fin) hasHeader pending ready).st.emitted.map Prod.snd ∧
      w.direction = Descending ∧ w.startHash = b.hash ∧ w.startNumber = some n ∧
      w.targetNumber = some fin.Number ∧ w.targetHash = fin.hash ∧
      w.requestData = RequestedDataHeader + RequestedDataBody + RequestedDataJustification ∧
      b ∈ (handleTick (Except.ok fin) hasHeader pending ready).st.pending ∧
      (pending = [b] → ws = [w]) := by
  have hne : pending ≠ [] := List.ne_nil_of_mem hb
  have hvisit : ∀ st, handleTickVisit fin hasHeader b st = Visit.next
      { st with emitted := st.emitted ++ [(b.hash, headerUnknownWorker fin b)] } := by
    intro st
    simp [handleTickVisit, hn, not_le.mpr hgt, hh]
  have hsingle : pending = [b] → ws = [headerUnknownWorker fin b] := by
    intro hp
    subst hp
    simp [handleTick, handleTickLoop, hvisit] at hret
    exact hret.symm
  rw [handleTick_eq_loop fin hasHeader pending ready hne] at hret ⊢
  have hmain := handleTickLoop_induction fin hasHeader pending ready
    (fun blocks st =>
      b ∈ st.pending ∧
      (b ∈ blocks → st.emitted.filter (fun e => decide (e.1 = b.hash)) = []) ∧
      (b ∉ blocks → st.emitted.filter (fun e => decide (e.1 = b.hash)) =
        [(b.hash, headerUnknownWorker fin b)]))
    (by
      intro block rest st st1 hvis hsub _ hinv hv
      obtain ⟨visited, hsplit⟩ := hvis
      obtain ⟨hbp, hin, hout⟩ := hinv
      by_cases heq : block = b
      · subst heq
        obtain ⟨_, _, hrest⟩ := scan_split_facts pending visited rest block hnodup hsplit
        have hnotin : block ∉ rest := fun hmem => hrest block hmem rfl
        rw [hvisit st] at hv
        cases hv
        refine ⟨hbp, fun hmem => absurd hmem hnotin, fun _ => ?_⟩
        rw [filter_append_tagged, hin (List.mem_cons_self _ _)]
        rfl
      · obtain ⟨hhash, hmem⟩ := scan_other_block pending visited rest block b hnodup hsplit hb heq
        have hfilter := handleTickVisit_filter fin hasHeader block st st1 b.hash hv hhash
        refine ⟨?_, ?_, ?_⟩
        · exact handleTickVisit_keeps fin hasHeader block b st st1
            (nodup_of_sublist st.pending pending hsub hnodup) hv hbp hhash
            (fun header _ hheader _ => by rw [hh] at hheader; cases hheader)
        · intro hrest
          rw [hfilter]
          exact hin (List.mem_cons_of_mem _ hrest)
        · intro hrest
          rw [hfilter]
          exact hout (fun hmem1 => hrest (hmem hmem1)))
    pending ⟨pending, ready, []⟩ ws ⟨[], rfl⟩ (List.Sublist.refl _) ⟨[], by simp⟩
    ⟨hb, fun _ => rfl, fun hnot => absurd hb hnot⟩ hret
  obtain ⟨⟨hbp, _, hout⟩, hws, _, _⟩ := hmain
  exact ⟨headerUnknownWorker fin b, hout (List.not_mem_nil _), hws, rfl, rfl, hn, rfl, rfl, rfl,
    hbp, hsingle⟩

theorem handleTick_header_unknown_witness :
    ∃ w, (handleTick (Except.ok sampleFin) sampleNoHeader [sampleHashOnly] []).st.emitted.filter
          (fun e => decide (e.1 = sampleHashOnly.hash)) = [(sampleHashOnly.hash, w)] ∧
      [headerUnknownWorker sampleFin sampleHashOnly] =
        (handleTick (Except.ok sampleFin) sampleNoHeader [sampleHashOnly] []).st.emitted.map
          Prod.snd ∧
      w.direction = Descending ∧ w.startHash = sampleHashOnly.hash ∧ w.startNumber = some 10 ∧
      w.targetNumber = some sampleFin.Number ∧ w.targetHash = sampleFin.hash ∧
      w.requestData = RequestedDataHeader + RequestedDataBody + RequestedDataJustification ∧
      sampleHashOnly ∈
        (handleTick (Except.ok sampleFin) sampleNoHeader [sampleHashOnly] []).st.pending ∧
      [headerUnknownWorker sampleFin sampleHashOnly] = [w] := by
  obtain ⟨w, h1, h2, h3, h4, h5, h6, h7, h8, h9, h10⟩ :=
    handleTick_header_unknown sampleFin sampleNoHeader [sampleHashOnly] []
      [headerUnknownWorker sampleFin sampleHashOnly] sampleHashOnly 10 (by decide) (by decide)
      rfl (by decide) rfl (by decide)
  exact ⟨w, h1, h2, h3, h4, h5, h6, h7, h8, h9, h10 rfl⟩

/-- C15 fails as stated: `sampleHashOnly` has number 10 above the finalised number 5 and no
header, and the call returns no worker at all, because `HasHeader` fails at the other pending
block and the call returns the error with a nil slice. -/
theorem handleTick_header_unknown_counterexample :
    (handleTick (Except.ok sampleFin) sampleFailingHeader [sampleHashOnly, sampleParent] []).ret
        = some ([], some (GoError.other "db closed")) ∧
      sampleHashOnly.number = some 10 ∧ sampleFin.Number < 10 ∧
      sampleHashOnly.header = none := by
  refine ⟨by decide, rfl, by decide, rfl⟩

/-- C16, as amended: in a call that returns without error, a fully known pending block with
number above `F.number` whose parent is not reported by `HasHeader` and is not in the ready
queue up to the end of the call gets exactly one worker: `Descending`, from the parent hash
and `number - 1` (no wrap-around, at or above `F.number`) to `F.number`, zero target hash,
requesting header, body and justification; the block stays in the pending set. -/
theorem handleTick_parent_unknown (fin : Header) (hasHeader : Hash → Except GoError Bool)
    (pending : List pendingBlock) (ready : List BlockData) (ws : List worker)
    (b : pendingBlock) (n : Nat) (header : Header) (body : Body)
    (hnodup : (pending.map (fun x => x.hash)).Nodup) (hb : b ∈ pending)
    (hn : b.number = some n) (hgt : fin.Number < n) (hrep : n < uintSize)
    (hh : b.header = some header) (hbody : b.body = some body)
    (hunknown : hasHeader header.ParentHash = Except.ok false)
    (hnever : blockQueueHas (handleTick (Except.ok fin) hasHeader pending ready).st.ready
      header.ParentHash = false)
    (hret : (handleTick (Except.ok fin) hasHeader pending ready).ret = some (ws, none)) :
    ∃ w, (handleTick (Except.ok fin) hasHeader pending ready).st.emitted.filter
          (fun e => decide (e.1 = b.hash)) = [(b.hash, w)] ∧
      ws = (handleTick (Except.ok fin) hasHeader pending ready).st.emitted.map Prod.snd ∧
      w.direction = Descending ∧ w.startHash = header.ParentHash ∧
      w.startNumber = some (n - 1) ∧ fin.Number ≤ n - 1 ∧
      w.targetNumber = some fin.Number ∧ w.targetHash = Hash.zero ∧
      w.requestData = RequestedDataHeader + RequestedDataBody + RequestedDataJustification ∧
      b ∈ (handleTick (Except.ok fin) hasHeader pending ready).st.pending := by
  have hne : pending ≠ [] := List.ne_nil_of_mem hb
  rw [handleTick_eq_loop fin hasHeader pending ready hne] at hret hnever ⊢
  have hmain := handleTickLoop_induction fin hasHeader pending ready
    (fun blocks st =>
      blockQueueHas st.ready header.ParentHash = true ∨
      (b ∈ st.pending ∧
        (b ∈ blocks → st.emitted.filter (fun e => decide (e.1 = b.hash)) = []) ∧
        (b ∉ blocks → st.emitted.filter (fun e => decide (e.1 = b.hash)) =
          [(b.hash, ancestorWorker fin header n)])))
    (by
      intro block rest st st1 hvis hsub _ hinv hv
      obtain ⟨visited, hsplit⟩ := hvis
      obtain ⟨_, ⟨more, hmore⟩, _⟩ := handleTickVisit_frame fin hasHeader block st st1 hv
      rcases hinv with hq | ⟨hbp, hin, hout⟩
      · left
        rw [hmore]
        exact blockQueueHas_append_left _ _ _ hq
      · cases hq1 : blockQueueHas st1.ready header.ParentHash with
        | true => exact Or.inl rfl
        | false =>
          right
          by_cases heq : block = b
          · subst heq
            obtain ⟨_, _, hrest⟩ := scan_split_facts pending visited rest block hnodup hsplit
            have hnotin : block ∉ rest := fun hmem => hrest block hmem rfl
            rcases handleTickVisit_full fin hasHeader block st st1 n header body hn hgt hh
              hbody hv with ⟨has, ho, hk, _⟩ | ⟨_, _, hst⟩
            · exfalso
              rw [hunknown] at ho
              cases ho
              simp only [Bool.false_or] at hk
              rw [hmore, blockQueueHas_append_left _ _ _ hk] at hq1
              cases hq1
            · subst hst
              refine ⟨hbp, fun hmem => absurd hmem hnotin, fun _ => ?_⟩
              simp only
              rw [filter_append_tagged, hin (List.mem_cons_self _ _)]
              rfl
          · obtain ⟨hhash, hmem⟩ :=
              scan_other_block pending visited rest block b hnodup hsplit hb heq
            have hfilter := handleTickVisit_filter fin hasHeader block st st1 b.hash hv hhash
            refine ⟨?_, ?_, ?_⟩
            · exact handleTickVisit_keeps fin hasHeader block b st st1
                (nodup_of_sublist st.pending pending hsub hnodup) hv hbp hhash
                (fun header1 _ hheader _ => by
                  rw [hh] at hheader
                  cases hheader
                  exact hq1)
            · intro hrest
              rw [hfilter]
              exact hin (List.mem_cons_of_mem _ hrest)
            · intro hrest
              rw [hfilter]
              exact hout (fun hmem1 => hrest (hmem hmem1)))
    pending ⟨pending, ready, []⟩ ws ⟨[], rfl⟩ (List.Sublist.refl _) ⟨[], by simp⟩
    (by
      cases hq0 : blockQueueHas ready header.ParentHash with
      | true => exact Or.inl hq0
      | false => exact Or.inr ⟨hb, fun _ => rfl, fun hnot => absurd hb hnot⟩)
    hret
  obtain ⟨hfinal, hws, _, _⟩ := hmain
  rcases hfinal with hq | ⟨hbp, _, hout⟩
  · rw [hnever] at hq
    cases hq
  · refine ⟨ancestorWorker fin header n, hout (List.not_mem_nil _), hws, rfl, rfl, ?_, by omega,
      rfl, rfl, rfl, hbp⟩
    simp only [ancestorWorker]
    rw [uintPred_eq n (by omega) hrep]

theorem handleTick_parent_unknown_witness :
    ∃ w, (handleTick (Except.ok sampleFin) sampleNoHeader [sampleChild] []).st.emitted.filter
          (fun e => decide (e.1 = sampleChild.hash)) = [(sampleChild.hash, w)] ∧
      [ancestorWorker sampleFin ⟨⟨101⟩, 7, ⟨102⟩⟩ 7] =
        (handleTick (Except.ok sampleFin) sampleNoHeader [sampleChild] []).st.emitted.map
          Prod.snd ∧
      w.direction = Descending ∧ w.startHash = (⟨⟨101⟩, 7, ⟨102⟩⟩ : Header).ParentHash ∧
      w.startNumber = some (7 - 1) ∧ sampleFin.Number ≤ 7 - 1 ∧
      w.targetNumber = some sampleFin.Number ∧ w.targetHash = Hash.zero ∧
      w.requestData = RequestedDataHeader + RequestedDataBody + RequestedDataJustification ∧
      sampleChild ∈ (handleTick (Except.ok sampleFin) sampleNoHeader [sampleChild] []).st.pending :=
  handleTick_parent_unknown sampleFin sampleNoHeader [sampleChild] []
    [ancestorWorker sampleFin ⟨⟨101⟩, 7, ⟨102⟩⟩ 7] sampleChild 7 ⟨⟨101⟩, 7, ⟨102⟩⟩ ⟨[]⟩
    (by decide) (by decide) rfl (by decide) (by decide) rfl rfl rfl (by decide) (by decide)

/-- C16 fails as stated: `sampleChild` is visited before its pending parent `sampleParent`;
its parent is neither reported by `HasHeader` nor in the ready queue, a worker is appended for
it, and the promotion of the parent then moves it out of the pending set. -/
theorem handleTick_parent_unknown_counterexample :
    (handleTick (Except.ok sampleFin) sampleHasHeader [sampleChild, sampleParent] []).ret
        = some ([ancestorWorker sampleFin ⟨⟨101⟩, 7, ⟨102⟩⟩ 7], none) ∧
      sampleChild.number = some 7 ∧ sampleFin.Number < 7 ∧
      sampleChild.header = some ⟨⟨101⟩, 7, ⟨102⟩⟩ ∧ sampleChild.body = some ⟨[]⟩ ∧
      sampleHasHeader ⟨101⟩ = Except.ok false ∧
      blockQueueHas [] ⟨101⟩ = false ∧
      sampleChild ∉
        (handleTick (Except.ok sampleFin) sampleHasHeader [sampleChild, sampleParent] []).st.pending ∧
      (handleTick (Except.ok sampleFin) sampleHasHeader [sampleChild, sampleParent] []).st.ready
        = [sampleParent.toBlockData, sampleChild.toBlockData] := by
  refine ⟨by decide, rfl, by decide, rfl, rfl, rfl, rfl, by decide, by decide⟩



/-- C17, as amended: in a call that returns without error, a pending block with number above
`F.number` whose header is known and whose body is not gets exactly one worker, which starts
and ends at the block's hash and number and requests body and justification, not the header;
the block stays in the pending set. -/
theorem handleTick_body_unknown (fin : Header) (hasHeader : Hash → Except GoError Bool)
    (pending : List pendingBlock) (ready : List BlockData) (ws : List worker)
    (b : pendingBlock) (n : Nat) (header : Header)
    (hnodup : (pending.map (fun x => x.hash)).Nodup) (hb : b ∈ pending)
    (hn : b.number = some n) (hgt : fin.Number < n)
    (hh : b.header = some header) (hbody : b.body = none)
    (hret : (handleTick (Except.ok fin) hasHeader pending ready).ret = some (ws, none)) :
    ∃ w, (handleTick (Except.ok fin) hasHeader pending ready).st.emitted.filter
          (fun e => decide (e.1 = b.hash)) = [(b.hash, w)] ∧
      ws = (handleTick (Except.ok fin) hasHeader pending ready).st.emitted.map Prod.snd ∧
      w.startHash = b.hash ∧ w.targetHash = b.hash ∧
      w.startNumber = some n ∧ w.targetNumber = some n ∧
      w.requestData = RequestedDataBody + RequestedDataJustification ∧
      w.requestData.testBit 0 = false ∧
      b ∈ (handleTick (Except.ok fin) hasHeader pending ready).st.pending := by
  have hne : pending ≠ [] := List.ne_nil_of_mem hb
  have hvisit : ∀ st, handleTickVisit fin hasHeader b st = Visit.next
      { st with emitted := st.emitted ++ [(b.hash, bodyUnknownWorker b)] } := by
    intro st
    simp [handleTickVisit, hn, not_le.mpr hgt, hh, hbody]
  rw [handleTick_eq_loop fin hasHeader pending ready hne] at hret ⊢
  have hmain := handleTickLoop_induction fin hasHeader pending ready
    (fun blocks st =>
      (b ∈ blocks → st.emitted.filter (fun e => decide (e.1 = b.hash)) = []) ∧
      (b ∉ blocks → st.emitted.filter (fun e => decide (e.1 = b.hash)) =
        [(b.hash, bodyUnknownWorker b)]) ∧
      b ∈ st.pending)
    (by
      intro block rest st st1 hvis hsub _ hinv hv
      obtain ⟨visited, hsplit⟩ := hvis
      obtain ⟨hin, hout, hstay⟩ := hinv
      by_cases heq : block = b
      · subst heq
        obtain ⟨_, _, hrest⟩ := scan_split_facts pending visited rest block hnodup hsplit
        have hnotin : block ∉ rest := fun hmem => hrest block hmem rfl
        rw [hvisit st] at hv
        cases hv
        refine ⟨fun hmem => absurd hmem hnotin, fun _ => ?_, hstay⟩
        simp only
        rw [filter_append_tagged, hin (List.mem_cons_self _ _)]
        rfl
      · obtain ⟨hhash, hmem⟩ := scan_other_block pending visited rest block b hnodup hsplit hb heq
        have hfilter := handleTickVisit_filter fin hasHeader block st st1 b.hash hv hhash
        refine ⟨?_, ?_, ?_⟩
        · intro hrest
          rw [hfilter]
          exact hin (List.mem_cons_of_mem _ hrest)
        · intro hrest
          rw [hfilter]
          exact hout (fun hmem1 => hrest (hmem hmem1))
        · exact handleTickVisit_keeps fin hasHeader block b st st1
            (nodup_of_sublist st.pending pending hsub hnodup) hv hstay hhash
            (fun _ body1 _ hb1 => by rw [hbody] at hb1; cases hb1))
    pending ⟨pending, ready, []⟩ ws ⟨[], rfl⟩ (List.Sublist.refl _) ⟨[], by simp⟩
    ⟨fun _ => rfl, fun hnot => absurd hb hnot, hb⟩ hret
  obtain ⟨⟨_, hout, hstay⟩, hws, _, _⟩ := hmain
  have hbit : Nat.testBit (RequestedDataBody + RequestedDataJustification) 0 = false := by
    decide
  exact ⟨bodyUnknownWorker b, hout (List.not_mem_nil _), hws, rfl, rfl, hn, hn, rfl,
    hbit, hstay⟩

theorem handleTick_body_unknown_witness :
    ∃ w, (handleTick (Except.ok sampleFin) sampleHasHeader
            [sampleParent, sampleHeaderOnly] []).st.emitted.filter
          (fun e => decide (e.1 = sampleHeaderOnly.hash)) = [(sampleHeaderOnly.hash, w)] ∧
      [bodyUnknownWorker sampleHeaderOnly] =
        (handleTick (Except.ok sampleFin) sampleHasHeader
          [sampleParent, sampleHeaderOnly] []).st.emitted.map Prod.snd ∧
      w.startHash = sampleHeaderOnly.hash ∧ w.targetHash = sampleHeaderOnly.hash ∧
      w.startNumber = some 7 ∧ w.targetNumber = some 7 ∧
      w.requestData = RequestedDataBody + RequestedDataJustification ∧
      w.requestData.testBit 0 = false ∧
      sampleHeaderOnly ∈
        (handleTick (Except.ok sampleFin) sampleHasHeader
          [sampleParent, sampleHeaderOnly] []).st.pending :=
  handleTick_body_unknown sampleFin sampleHasHeader [sampleParent, sampleHeaderOnly] []
    [bodyUnknownWorker sampleHeaderOnly] sampleHeaderOnly 7 ⟨⟨101⟩, 7, ⟨103⟩⟩
    (by decide) (by decide) rfl (by decide) rfl rfl (by decide)

/-- C17 fails as stated: `sampleHeaderOnly` has a known header and no body, and the call
returns no worker at all, because `HasHeader` fails at the other pending block and the call
returns the error with a nil slice. -/
theorem handleTick_body_unknown_counterexample :
    (handleTick (Except.ok sampleFin) sampleFailingHeader
        [sampleHeaderOnly, sampleOtherFork] []).ret
        = some ([], some (GoError.other "db closed")) ∧
      sampleHeaderOnly.number = some 7 ∧ sampleFin.Number < 7 ∧
      sampleHeaderOnly.header = some ⟨⟨101⟩, 7, ⟨103⟩⟩ ∧ sampleHeaderOnly.body = none := by
  refine ⟨by decide, rfl, by decide, rfl, rfl⟩

/-- C18, as amended: in a call that returns without error, a fully known pending block with
number above `F.number` whose parent is reported by `HasHeader` or is in the ready queue
before the call is promoted: after the call no block with its hash is in the pending set, its
block data is in the ready queue, and no worker was appended for it. -/
theorem handleTick_promotes (fin : Header) (hasHeader : Hash → Except GoError Bool)
    (pending : List pendingBlock) (ready : List BlockData) (ws : List worker)
    (b : pendingBlock) (n : Nat) (header : Header) (body : Body)
    (hnodup : (pending.map (fun x => x.hash)).Nodup) (hb : b ∈ pending)
    (hn : b.number = some n) (hgt : fin.Number < n)
    (hh : b.header = some header) (hbody : b.body = some body)
    (hknown : hasHeader header.ParentHash = Except.ok true ∨
      blockQueueHas ready header.ParentHash = true)
    (hret : (handleTick (Except.ok fin) hasHeader pending ready).ret = some (ws, none)) :
    (∀ x ∈ (handleTick (Except.ok fin) hasHeader pending ready).st.pending, x.hash ≠ b.hash) ∧
      b.toBlockData ∈ (handleTick (Except.ok fin) hasHeader pending ready).st.ready ∧
      (handleTick (Except.ok fin) hasHeader pending ready).st.emitted.filter
          (fun e => decide (e.1 = b.hash)) = [] ∧
      ws = (handleTick (Except.ok fin) hasHeader pending ready).st.emitted.map Prod.snd := by
  have hne : pending ≠ [] := List.ne_nil_of_mem hb
  rw [handleTick_eq_loop fin hasHeader pending ready hne] at hret ⊢
  have hmain := handleTickLoop_induction fin hasHeader pending ready
    (fun blocks st =>
      st.emitted.filter (fun e => decide (e.1 = b.hash)) = [] ∧
      (b ∈ blocks ∨ ((∀ x ∈ st.pending, x.hash ≠ b.hash) ∧ b.toBlockData ∈ st.ready)))
    (by
      intro block rest st st1 hvis hsub hready hinv hv
      obtain ⟨visited, hsplit⟩ := hvis
      obtain ⟨hnil, hstate⟩ := hinv
      obtain ⟨hsub1, ⟨more, hmore⟩, _⟩ := handleTickVisit_frame fin hasHeader block st st1 hv
      by_cases heq : block = b
      · subst heq
        rcases handleTickVisit_full fin hasHeader block st st1 n header body hn hgt hh
          hbody hv with ⟨has, _, _, hst⟩ | ⟨ho, hk, _⟩
        · subst hst
          obtain ⟨found, _, hfound, hmem, _⟩ :=
            handleReadyBlock_ready block.toBlockData st.pending st.ready
          refine ⟨hnil, Or.inr ⟨?_, ?_⟩⟩
          · intro x hx
            exact ((hmem x).mp hx).2.1
          · simp only
            rw [hfound]
            simp
        · exfalso
          rcases hknown with hp | hq
          · rw [hp] at ho
            cases ho
          · obtain ⟨more0, hmore0⟩ := hready
            rw [hmore0, blockQueueHas_append_left _ _ _ hq] at hk
            cases hk
      · obtain ⟨hhash, hmem⟩ := scan_other_block pending visited rest block b hnodup hsplit hb heq
        have hfilter := handleTickVisit_filter fin hasHeader block st st1 b.hash hv hhash
        refine ⟨by rw [hfilter]; exact hnil, ?_⟩
        rcases hstate with hin | ⟨hgone, hthere⟩
        · exact Or.inl (hmem hin)
        · refine Or.inr ⟨fun x hx => hgone x (hsub1.subset hx), ?_⟩
          rw [hmore]
          exact List.mem_append_left _ hthere)
    pending ⟨pending, ready, []⟩ ws ⟨[], rfl⟩ (List.Sublist.refl _) ⟨[], by simp⟩
    ⟨rfl, Or.inl hb⟩ hret
  obtain ⟨⟨hnil, hstate⟩, hws, _, _⟩ := hmain
  rcases hstate with hin | ⟨hgone, hthere⟩
  · cases hin
  · exact ⟨hgone, hthere, hnil, hws⟩

theorem handleTick_promotes_witness :
    (∀ x ∈ (handleTick (Except.ok sampleFin) sampleHasHeader [sampleParent] []).st.pending,
        x.hash ≠ sampleParent.hash) ∧
      sampleParent.toBlockData ∈
        (handleTick (Except.ok sampleFin) sampleHasHeader [sampleParent] []).st.ready ∧
      (handleTick (Except.ok sampleFin) sampleHasHeader [sampleParent] []).st.emitted.filter
          (fun e => decide (e.1 = sampleParent.hash)) = [] ∧
      [] = (handleTick (Except.ok sampleFin) sampleHasHeader [sampleParent] []).st.emitted.map
        Prod.snd :=
  handleTick_promotes sampleFin sampleHasHeader [sampleParent] [] [] sampleParent 6
    ⟨⟨50⟩, 6, ⟨101⟩⟩ ⟨[]⟩ (by decide) (by decide) rfl (by decide) rfl rfl (Or.inl rfl)
    (by decide)

/-- C18 fails as stated: the parent of the fully known block `sampleChild` is in the ready
queue, `HasHeader` fails for the parent hash, and the call returns the error: the block is
still pending and is not in the ready queue. -/
theorem handleTick_promotes_counterexample :
    (handleTick (Except.ok sampleFin) sampleFailingHeader [sampleChild]
        [sampleParent.toBlockData]).ret = some ([], some (GoError.other "db closed")) ∧
      sampleChild.number = some 7 ∧ sampleFin.Number < 7 ∧
      sampleChild.header = some ⟨⟨101⟩, 7, ⟨102⟩⟩ ∧ sampleChild.body = some ⟨[]⟩ ∧
      blockQueueHas [sampleParent.toBlockData] ⟨101⟩ = true ∧
      sampleChild ∈
        (handleTick (Except.ok sampleFin) sampleFailingHeader [sampleChild]
          [sampleParent.toBlockData]).st.pending ∧
      sampleChild.toBlockData ∉
        (handleTick (Except.ok sampleFin) sampleFailingHeader [sampleChild]
          [sampleParent.toBlockData]).st.ready := by
  refine ⟨by decide, rfl, by decide, rfl, rfl, by decide, by decide, by decide⟩



/-! ## The promotion cascade inside `handleTick` -/

theorem blockQueueHas_append_right (ready more : List BlockData) (hash : Hash)
    (h : blockQueueHas more hash = true) : blockQueueHas (ready ++ more) hash = true := by
  rw [blockQueueHas_iff] at h ⊢
  obtain ⟨bd, hbd, hh⟩ := h
  exact ⟨bd, List.mem_append_right _ hbd, hh⟩

/-- A visit leaves the ready queue as it is, or it promotes the visited block, whose parent is
then persisted or already in the queue. -/
theorem handleTickVisit_ready (fin : Header) (hasHeader : Hash → Except GoError Bool)
    (block : pendingBlock) (st st1 : TickState)
    (h : handleTickVisit fin hasHeader block st = Visit.next st1) :
    st1.ready = st.ready ∨
      ∃ found, getReadyDescendants st.pending.length st.pending [block.toBlockData] =
          block.toBlockData :: found ∧
        st1.ready = st.ready ++ block.toBlockData :: found ∧
        (∀ b, b ∈ st1.pending ↔
          b ∈ st.pending ∧ b.hash ≠ block.hash ∧ ∀ rb ∈ found, b.hash ≠ rb.Hash) ∧
        (∀ before rb after, found = before ++ rb :: after →
          ∃ c ∈ st.pending, rb = c.toBlockData ∧
            hasReadyParent (block.toBlockData :: before) c = true) ∧
        ∃ header, block.header = some header ∧
          (hasHeader header.ParentHash = Except.ok true ∨
            blockQueueHas st.ready header.ParentHash = true) := by
  obtain ⟨number, _, hcase⟩ := handleTickVisit_next fin hasHeader block st st1 h
  rcases hcase with ⟨_, rfl⟩ | ⟨_, _, rfl⟩ | ⟨_, _, _, rfl⟩ |
    ⟨_, header, body, has, hh, _, ho, hk, rfl⟩ | ⟨_, header, body, _, _, _, _, rfl⟩
  · exact Or.inl rfl
  · exact Or.inl rfl
  · exact Or.inl rfl
  · right
    obtain ⟨found, hfound, hready, hmem, hchain⟩ :=
      handleReadyBlock_ready block.toBlockData st.pending st.ready
    refine ⟨found, hfound, hready, hmem, hchain, header, hh, ?_⟩
    cases has with
    | true => exact Or.inl ho
    | false =>
      right
      simpa using hk
  · exact Or.inl rfl

theorem readyOrdered_extend (hasHeader : Hash → Except GoError Bool)
    (ready more : List BlockData) (hready : readyOrdered hasHeader ready)
    (hmore : ∀ before bd after, more = before ++ bd :: after →
      ∃ header, bd.Header = some header ∧
        (hasHeader header.ParentHash = Except.ok true ∨
          blockQueueHas (ready ++ before) header.ParentHash = true)) :
    readyOrdered hasHeader (ready ++ more) := by
  intro before bd after hsplit
  rcases List.append_eq_append_iff.mp hsplit with ⟨a1, hbefore, hm⟩ | ⟨c1, hr, hm⟩
  · subst hbefore
    exact hmore a1 bd after hm
  · cases c1 with
    | nil =>
      simp only [List.append_nil] at hr
      simp only [List.nil_append] at hm
      subst hr
      obtain ⟨header, hh, hk⟩ := hmore [] bd after hm.symm
      exact ⟨header, hh, by simpa using hk⟩
    | cons y c2 =>
      simp only [List.cons_append, List.cons.injEq] at hm
      obtain ⟨hy, _⟩ := hm
      subst hy
      exact hready before bd c2 hr

/-- A visit keeps the ready queue ordered parent before child. -/
theorem handleTickVisit_readyOrdered (fin : Header) (hasHeader : Hash → Except GoError Bool)
    (block : pendingBlock) (st st1 : TickState)
    (hordered : readyOrdered hasHeader st.ready)
    (h : handleTickVisit fin hasHeader block st = Visit.next st1) :
    readyOrdered hasHeader st1.ready := by
  rcases handleTickVisit_ready fin hasHeader block st st1 h with hsame |
    ⟨found, _, hready, _, hchain, header, hh, hknown⟩
  · rw [hsame]
    exact hordered
  · rw [hready]
    apply readyOrdered_extend hasHeader st.ready _ hordered
    intro before bd after hsplit
    cases before with
    | nil =>
      simp only [List.nil_append, List.cons.injEq] at hsplit
      obtain ⟨hbd, _⟩ := hsplit
      subst hbd
      refine ⟨header, hh, ?_⟩
      simpa using hknown
    | cons first before1 =>
      simp only [List.cons_append, List.cons.injEq] at hsplit
      obtain ⟨hfirst, hfound⟩ := hsplit
      subst hfirst
      obtain ⟨c, _, hrb, hpar⟩ := hchain before1 bd after hfound
      cases hc : c.header with
      | none => simp [hasReadyParent, hc] at hpar
      | some header1 =>
        cases hcb : c.body with
        | none => simp [hasReadyParent, hc, hcb] at hpar
        | some body1 =>
          simp only [hasReadyParent, hc, hcb] at hpar
          refine ⟨header1, by rw [hrb]; exact hc, Or.inr ?_⟩
          exact blockQueueHas_append_right _ _ _ hpar

/-- Every call of `handleTick`, also a failing one, keeps the ready queue ordered parent
before child. -/
theorem handleTick_readyOrdered (fin : Except GoError Header)
    (hasHeader : Hash → Except GoError Bool) (pending : List pendingBlock)
    (ready : List BlockData) (hordered : readyOrdered hasHeader ready) :
    readyOrdered hasHeader (handleTick fin hasHeader pending ready).st.ready := by
  unfold handleTick
  split_ifs with hlen
  · exact hordered
  · cases fin with
    | error err => exact hordered
    | ok fin =>
      exact handleTickLoop_state fin hasHeader (fun st => readyOrdered hasHeader st.ready)
        (fun block st st1 hinv hv =>
          handleTickVisit_readyOrdered fin hasHeader block st st1 hinv hv)
        pending ⟨pending, ready, []⟩ hordered

theorem precedes_append (first second : Hash) (ready more : List BlockData)
    (h : precedes first second ready) : precedes first second (ready ++ more) := by
  obtain ⟨l1, x, l2, y, l3, hsplit, hx, hy⟩ := h
  exact ⟨l1, x, l2, y, l3 ++ more, by simp [hsplit], hx, hy⟩

theorem precedes_of_mem (first second : Hash) (ready after : List BlockData)
    (y : BlockData) (h : blockQueueHas ready first = true) (hy : y.Hash = second) :
    precedes first second (ready ++ y :: after) := by
  obtain ⟨x, hx, hxh⟩ := (blockQueueHas_iff _ _).mp h
  obtain ⟨l1, l2, hsplit⟩ := List.append_of_mem hx
  exact ⟨l1, x, l2, y, after, by simp [hsplit], hxh, hy⟩

/-- The promotion of a block whose cascade brings the hash `B1.hash` into the queue also
brings in the pending child `B2` of `B1`, after an entry with the hash of `B1`. -/
theorem promotion_reaches_child (block B1 B2 : pendingBlock) (header2 : Header) (body2 : Body)
    (pending : List pendingBlock) (ready found : List BlockData)
    (hnodup : (pending.map (fun x => x.hash)).Nodup)
    (hB2 : B2 ∈ pending) (hh2 : B2.header = some header2) (hb2 : B2.body = some body2)
    (hlink : header2.ParentHash = B1.hash)
    (hfound : getReadyDescendants pending.length pending [block.toBlockData] =
      block.toBlockData :: found)
    (hchain : ∀ before rb after, found = before ++ rb :: after →
      ∃ c ∈ pending, rb = c.toBlockData ∧
        hasReadyParent (block.toBlockData :: before) c = true)
    (hin : blockQueueHas (block.toBlockData :: found) B1.hash = true) :
    (∃ rb ∈ found, rb.Hash = B2.hash) ∧ B2.toBlockData ∈ found ∧
      precedes B1.hash B2.hash (ready ++ block.toBlockData :: found) := by
  have hpar : hasReadyParent
      (getReadyDescendants pending.length pending [block.toBlockData]) B2 = true := by
    rw [hfound]
    simp only [hasReadyParent, hh2, hb2, hlink]
    exact hin
  obtain ⟨more, hmore, rb, hrb, hrbh⟩ :=
    getReadyDescendants_closed pending.length pending [block.toBlockData] (le_refl _) B2 hB2 hpar
  have hmf : more = found := by
    rw [hfound] at hmore
    simpa using hmore.symm
  subst hmf
  obtain ⟨before, after, hsplit⟩ := List.append_of_mem hrb
  obtain ⟨c, hc, hrbc, hcpar⟩ := hchain before rb after hsplit
  have hcB2 : c = B2 := by
    apply hash_injective_of_nodup pending hnodup c B2 hc hB2
    rw [← hrbh, hrbc]
    rfl
  subst hcB2
  refine ⟨⟨rb, hrb, hrbh⟩, hrbc ▸ hrb, ?_⟩
  simp only [hasReadyParent, hh2, hb2, hlink] at hcpar
  have hp := precedes_of_mem B1.hash c.hash (block.toBlockData :: before) after rb hcpar hrbh
  obtain ⟨l1, x, l2, y, l3, hl, hx, hy⟩ := hp
  refine ⟨ready ++ l1, x, l2, y, l3, ?_, hx, hy⟩
  rw [hsplit, List.append_assoc, ← hl]
  simp



/-- C19, as amended: promotion cascade ordering.  `B1` and `B2` are fully known pending blocks
above `F.number`, the parent of `B1` is persisted or in the ready queue before the call, `B1`
itself is not persisted, and `B1` is the parent of `B2`.  In a call that returns without error
`B2` leaves the pending set and its block data enters the ready queue, behind an entry with
the hash of `B1`.  More generally every call, also a failing one, keeps the ready queue
ordered: no entry whose parent is neither persisted nor earlier in the queue. -/
theorem handleTick_cascade_order (fin : Header) (hasHeader : Hash → Except GoError Bool)
    (pending : List pendingBlock) (ready : List BlockData) (ws : List worker)
    (B1 B2 : pendingBlock) (n1 n2 : Nat) (header1 header2 : Header) (body1 body2 : Body)
    (hnodup : (pending.map (fun x => x.hash)).Nodup)
    (hB1 : B1 ∈ pending) (hB2 : B2 ∈ pending)
    (hn1 : B1.number = some n1) (hgt1 : fin.Number < n1)
    (hh1 : B1.header = some header1) (hb1 : B1.body = some body1)
    (hknown : hasHeader header1.ParentHash = Except.ok true ∨
      blockQueueHas ready header1.ParentHash = true)
    (hfresh : hasHeader B1.hash = Except.ok false)
    (hn2 : B2.number = some n2) (hgt2 : fin.Number < n2)
    (hh2 : B2.header = some header2) (hb2 : B2.body = some body2)
    (hlink : header2.ParentHash = B1.hash)
    (hret : (handleTick (Except.ok fin) hasHeader pending ready).ret = some (ws, none)) :
    ((∀ x ∈ (handleTick (Except.ok fin) hasHeader pending ready).st.pending,
          x.hash ≠ B2.hash) ∧
        B2.toBlockData ∈ (handleTick (Except.ok fin) hasHeader pending ready).st.ready ∧
        precedes B1.hash B2.hash (handleTick (Except.ok fin) hasHeader pending ready).st.ready) ∧
      (∀ (answer : Except GoError Header) (oracle : Hash → Except GoError Bool)
          (blocks : List pendingBlock) (queue : List BlockData),
        readyOrdered oracle queue →
          readyOrdered oracle (handleTick answer oracle blocks queue).st.ready) := by
  refine ⟨?_, fun answer oracle blocks queue =>
    handleTick_readyOrdered answer oracle blocks queue⟩
  have hne : pending ≠ [] := List.ne_nil_of_mem hB1
  rw [handleTick_eq_loop fin hasHeader pending ready hne] at hret ⊢
  have hmain := handleTickLoop_induction fin hasHeader pending ready
    (fun blocks st =>
      ((∀ x ∈ st.pending, x.hash ≠ B2.hash) ∧ B2.toBlockData ∈ st.ready ∧
        precedes B1.hash B2.hash st.ready) ∨
      (blockQueueHas st.ready B1.hash = false ∧ B1 ∈ blocks ∧ B2 ∈ st.pending) ∨
      (blockQueueHas st.ready B1.hash = true ∧ B2 ∈ blocks))
    (by
      intro block rest st st1 hvis hsub hready hinv hv
      obtain ⟨visited, hsplit⟩ := hvis
      obtain ⟨hsub1, ⟨more, hmore⟩, _⟩ := handleTickVisit_frame fin hasHeader block st st1 hv
      have hnodup1 := nodup_of_sublist st.pending pending hsub hnodup
      rcases hinv with ⟨hgone, hthere, hprec⟩ | ⟨hq, hB1S, hB2P⟩ | ⟨hq, hB2S⟩
      · left
        refine ⟨fun x hx => hgone x (hsub1.subset hx), ?_, ?_⟩
        · rw [hmore]
          exact List.mem_append_left _ hthere
        · rw [hmore]
          exact precedes_append _ _ _ _ hprec
      · by_cases heq1 : block = B1
        · subst heq1
          left
          rcases handleTickVisit_ready fin hasHeader block st st1 hv with hsame |
            ⟨found, hfound, hrd, hmem, hchain, _⟩
          · exfalso
            rcases handleTickVisit_full fin hasHeader block st st1 n1 header1 body1 hn1 hgt1
              hh1 hb1 hv with ⟨has, _, _, hst⟩ | ⟨ho, hk, _⟩
            · obtain ⟨found, _, hrd, _, _⟩ :=
                handleReadyBlock_ready block.toBlockData st.pending st.ready
              have hlen := congrArg List.length hsame
              rw [hst] at hlen
              simp only at hlen
              rw [hrd] at hlen
              simp at hlen
            · rcases hknown with hp | hp
              · rw [hp] at ho
                cases ho
              · obtain ⟨more0, hmore0⟩ := hready
                rw [hmore0, blockQueueHas_append_left _ _ _ hp] at hk
                cases hk
          · have hin : blockQueueHas (block.toBlockData :: found) block.hash = true :=
              (blockQueueHas_iff _ _).mpr ⟨block.toBlockData, List.mem_cons_self _ _, rfl⟩
            obtain ⟨⟨rb, hrb, hrbh⟩, hnew, hprec⟩ :=
              promotion_reaches_child block block B2 header2 body2 st.pending st.ready found
                hnodup1 hB2P hh2 hb2 hlink hfound hchain hin
            refine ⟨?_, by rw [hrd]; simp [hnew], by rw [hrd]; exact hprec⟩
            intro x hx
            rw [← hrbh]
            exact ((hmem x).mp hx).2.2 rb hrb
        · have hB1rest : B1 ∈ rest :=
            (scan_other_block pending visited rest block B1 hnodup hsplit hB1 heq1).2 hB1S
          cases hq1 : blockQueueHas st1.ready B1.hash with
          | false =>
            right
            left
            refine ⟨rfl, hB1rest, ?_⟩
            by_cases heq2 : block = B2
            · subst heq2
              rcases handleTickVisit_full fin hasHeader block st st1 n2 header2 body2 hn2 hgt2
                hh2 hb2 hv with ⟨has, ho, hk, _⟩ | ⟨_, _, hst⟩
              · exfalso
                rw [hlink, hfresh] at ho
                cases ho
                rw [hlink, hq] at hk
                cases hk
              · rw [hst]
                exact hB2P
            · have hhash :=
                (scan_other_block pending visited rest block B2 hnodup hsplit hB2 heq2).1
              exact handleTickVisit_keeps fin hasHeader block B2 st st1 hnodup1 hv hB2P hhash
                (fun header _ hheader _ => by
                  rw [hh2] at hheader
                  cases hheader
                  rw [hlink]
                  exact hq1)
          | true =>
            left
            rcases handleTickVisit_ready fin hasHeader block st st1 hv with hsame |
              ⟨found, hfound, hrd, hmem, hchain, _⟩
            · exfalso
              rw [hsame, hq] at hq1
              cases hq1
            · have hin : blockQueueHas (block.toBlockData :: found) B1.hash = true := by
                rw [hrd, blockQueueHas_iff] at hq1
                obtain ⟨bd, hbd, hbdh⟩ := hq1
                rcases List.mem_append.mp hbd with hold | hnew
                · exfalso
                  have : blockQueueHas st.ready B1.hash = true :=
                    (blockQueueHas_iff _ _).mpr ⟨bd, hold, hbdh⟩
                  rw [hq] at this
                  cases this
                · exact (blockQueueHas_iff _ _).mpr ⟨bd, hnew, hbdh⟩
              obtain ⟨⟨rb, hrb, hrbh⟩, hnew, hprec⟩ :=
                promotion_reaches_child block B1 B2 header2 body2 st.pending st.ready found
                  hnodup1 hB2P hh2 hb2 hlink hfound hchain hin
              refine ⟨?_, by rw [hrd]; simp [hnew], by rw [hrd]; exact hprec⟩
              intro x hx
              rw [← hrbh]
              exact ((hmem x).mp hx).2.2 rb hrb
      · by_cases heq2 : block = B2
        · subst heq2
          left
          rcases handleTickVisit_full fin hasHeader block st st1 n2 header2 body2 hn2 hgt2
            hh2 hb2 hv with ⟨has, _, _, hst⟩ | ⟨_, hk, _⟩
          · obtain ⟨found, _, hrd, hmem, _⟩ :=
              handleReadyBlock_ready block.toBlockData st.pending st.ready
            subst hst
            refine ⟨fun x hx => ((hmem x).mp hx).2.1, ?_, ?_⟩
            · simp only
              rw [hrd]
              simp
            · simp only
              rw [hrd]
              exact precedes_of_mem B1.hash block.hash st.ready found block.toBlockData hq rfl
          · exfalso
            rw [hlink, hq] at hk
            cases hk
        · right
          right
          refine ⟨?_, (scan_other_block pending visited rest block B2 hnodup hsplit hB2 heq2).2 hB2S⟩
          rw [hmore]
          exact blockQueueHas_append_left _ _ _ hq)
    pending ⟨pending, ready, []⟩ ws ⟨[], rfl⟩ (List.Sublist.refl _) ⟨[], by simp⟩
    (by
      cases hq0 : blockQueueHas ready B1.hash with
      | true => exact Or.inr (Or.inr ⟨hq0, hB2⟩)
      | false => exact Or.inr (Or.inl ⟨hq0, hB1, hB2⟩))
    hret
  obtain ⟨hfinal, _, _, _⟩ := hmain
  rcases hfinal with hA | ⟨_, hin, _⟩ | ⟨_, hin⟩
  · exact hA
  · cases hin
  · cases hin

theorem handleTick_cascade_order_witness :
    ((∀ x ∈ (handleTick (Except.ok sampleFin) sampleHasHeader
            [sampleChild, sampleParent] []).st.pending, x.hash ≠ sampleChild.hash) ∧
        sampleChild.toBlockData ∈
          (handleTick (Except.ok sampleFin) sampleHasHeader
            [sampleChild, sampleParent] []).st.ready ∧
        precedes sampleParent.hash sampleChild.hash
          (handleTick (Except.ok sampleFin) sampleHasHeader
            [sampleChild, sampleParent] []).st.ready) ∧
      readyOrdered sampleHasHeader
        (handleTick (Except.ok sampleFin) sampleHasHeader
          [sampleChild, sampleParent] []).st.ready :=
  have h := handleTick_cascade_order sampleFin sampleHasHeader [sampleChild, sampleParent] []
    [ancestorWorker sampleFin ⟨⟨101⟩, 7, ⟨102⟩⟩ 7]
    sampleParent sampleChild 6 7 ⟨⟨50⟩, 6, ⟨101⟩⟩ ⟨⟨101⟩, 7, ⟨102⟩⟩ ⟨[]⟩ ⟨[]⟩
    (by decide) (by decide) (by decide) rfl (by decide) rfl rfl (Or.inl rfl) rfl
    rfl (by decide) rfl rfl rfl (by decide)
  ⟨h.1, h.2 (Except.ok sampleFin) sampleHasHeader [sampleChild, sampleParent] []
    (fun before bd after hsplit => by simp at hsplit)⟩

/-- C19 fails as stated: `sampleParent` is pending and its header is persisted too.  Its child
`sampleChild` is enumerated first and promoted on its own, `sampleParent` is promoted after it,
and the ready queue lists the child before the parent. -/
theorem handleTick_cascade_order_counterexample :
    (handleTick (Except.ok sampleFin) sampleKnowsParent [sampleChild, sampleParent] []).ret
        = some ([], none) ∧
      sampleKnowsParent ⟨50⟩ = Except.ok true ∧
      sampleKnowsParent sampleParent.hash = Except.ok true ∧
      sampleParent.header = some ⟨⟨50⟩, 6, ⟨101⟩⟩ ∧
      sampleChild.header = some ⟨sampleParent.hash, 7, ⟨102⟩⟩ ∧
      (handleTick (Except.ok sampleFin) sampleKnowsParent [sampleChild, sampleParent] []).st.ready
        = [sampleChild.toBlockData, sampleParent.toBlockData] ∧
      ¬ precedes sampleParent.hash sampleChild.hash
        (handleTick (Except.ok sampleFin) sampleKnowsParent
          [sampleChild, sampleParent] []).st.ready := by
  have hready : (handleTick (Except.ok sampleFin) sampleKnowsParent
      [sampleChild, sampleParent] []).st.ready =
        [sampleChild.toBlockData, sampleParent.toBlockData] := by decide
  refine ⟨by decide, rfl, rfl, rfl, rfl, hready, ?_⟩
  rw [hready]
  rintro ⟨l1, x, l2, y, l3, hsplit, hx, hy⟩
  cases l1 with
  | nil =>
    simp only [List.nil_append, List.cons.injEq] at hsplit
    obtain ⟨hfirst, _⟩ := hsplit
    rw [← hfirst] at hx
    revert hx
    decide
  | cons a l1 =>
    simp only [List.cons_append, List.cons.injEq] at hsplit
    obtain ⟨_, hrest⟩ := hsplit
    cases l1 with
    | nil =>
      simp only [List.nil_append, List.cons.injEq] at hrest
      obtain ⟨_, hnil⟩ := hrest
      cases l2 <;> simp at hnil
    | cons b l1 => simp at hrest



/-! ## The input worker of `handleWorkerResult` -/

/-- The outcomes of `handleWorkerResult`: no retry and an untouched input, or a retry that
copies the input as it is after the call, the input being untouched or clamped at one end. -/
theorem handleWorkerResult_shape (fin : Except GoError Header) (res : worker) :
    ((handleWorkerResult fin res).ret = none ∧ (handleWorkerResult fin res).res = res) ∨
      ∃ F s t, fin = Except.ok F ∧ res.startNumber = some s ∧ res.targetNumber = some t ∧
        (handleWorkerResult fin res).ret = some (retryOf (handleWorkerResult fin res).res) ∧
        ((handleWorkerResult fin res).res = res ∨
          (res.direction = Ascending ∧ s ≤ F.Number ∧ F.Number < t ∧
            (handleWorkerResult fin res).res =
              { res with startNumber := some (uintSucc F.Number), startHash := Hash.zero }) ∨
          (res.direction = Descending ∧ t ≤ F.Number ∧ F.Number < s ∧
            (handleWorkerResult fin res).res =
              { res with targetNumber := some (uintSucc F.Number), targetHash := Hash.zero })) := by
  have hne : Descending ≠ Ascending := by decide
  cases herr : res.err with
  | none => left; simp [handleWorkerResult, herr]
  | some werr =>
    cases hup : errorsIs werr.err GoError.errUnknownParent with
    | true => left; simp [handleWorkerResult, herr, hup]
    | false =>
      cases fin with
      | error e => left; simp [handleWorkerResult, herr, hup]
      | ok F =>
        cases hs : res.startNumber with
        | none => left; simp [handleWorkerResult, herr, hup, hs]
        | some s =>
          cases ht : res.targetNumber with
          | none => left; simp [handleWorkerResult, herr, hup, hs, ht]
          | some t =>
            by_cases hd1 : res.direction = Ascending
            · by_cases hm : t ≤ F.Number
              · left; simp [handleWorkerResult, herr, hup, hs, ht, hd1, hm]
              · right
                refine ⟨F, s, t, rfl, rfl, rfl, ?_⟩
                by_cases hc : s ≤ F.Number
                · refine ⟨by simp [handleWorkerResult, herr, hup, hs, ht, hd1, hm, hc], ?_⟩
                  right; left
                  exact ⟨hd1, hc, not_le.mp hm,
                    by simp [handleWorkerResult, herr, hup, hs, ht, hd1, hm, hc]⟩
                · refine ⟨by simp [handleWorkerResult, herr, hup, hs, ht, hd1, hm, hc], ?_⟩
                  left
                  simp [handleWorkerResult, herr, hup, hs, ht, hd1, hm, hc]
            · by_cases hd2 : res.direction = Descending
              · by_cases hm : s ≤ F.Number
                · left; simp [handleWorkerResult, herr, hup, hs, ht, hne, hd2, hm]
                · right
                  refine ⟨F, s, t, rfl, rfl, rfl, ?_⟩
                  by_cases hc : t ≤ F.Number
                  · refine ⟨by simp [handleWorkerResult, herr, hup, hs, ht, hne, hd2, hm, hc], ?_⟩
                    right; right
                    exact ⟨hd2, hc, not_le.mp hm,
                      by simp [handleWorkerResult, herr, hup, hs, ht, hne, hd2, hm, hc]⟩
                  · refine ⟨by simp [handleWorkerResult, herr, hup, hs, ht, hne, hd2, hm, hc], ?_⟩
                    left
                    simp [handleWorkerResult, herr, hup, hs, ht, hne, hd2, hm, hc]
              · right
                refine ⟨F, s, t, rfl, rfl, rfl,
                  by simp [handleWorkerResult, herr, hup, hs, ht, hd1, hd2], ?_⟩
                left
                simp [handleWorkerResult, herr, hup, hs, ht, hd1, hd2]

/-- C25, as amended: `handleWorkerResult` leaves the worker it is given as it was when it
returns no retry and when both numbers are above `F.number`; when it returns a retry, the
start and target hashes and numbers of the given worker are, after the call, those of the
retry (a clamped end is overwritten in place), and its `id`, direction, request byte and
outcome are as before. -/
theorem handleWorkerResult_input_after (fin : Except GoError Header) (res : worker) :
    ((handleWorkerResult fin res).ret = none → (handleWorkerResult fin res).res = res) ∧
      (∀ r, (handleWorkerResult fin res).ret = some r →
        (handleWorkerResult fin res).res.startHash = r.startHash ∧
        (handleWorkerResult fin res).res.startNumber = r.startNumber ∧
        (handleWorkerResult fin res).res.targetHash = r.targetHash ∧
        (handleWorkerResult fin res).res.targetNumber = r.targetNumber ∧
        (handleWorkerResult fin res).res.id = res.id ∧
        (handleWorkerResult fin res).res.direction = res.direction ∧
        (handleWorkerResult fin res).res.requestData = res.requestData ∧
        (handleWorkerResult fin res).res.err = res.err) ∧
      (∀ F startNumber targetNumber, fin = Except.ok F →
        res.startNumber = some startNumber → res.targetNumber = some targetNumber →
        F.Number < startNumber → F.Number < targetNumber →
        (handleWorkerResult fin res).res = res) := by
  rcases handleWorkerResult_shape fin res with ⟨hnone, hsame⟩ |
    ⟨F, s, t, hfin, hs, ht, hret, hshape⟩
  · refine ⟨fun _ => hsame, ?_, fun _ _ _ _ _ _ _ _ => hsame⟩
    intro r hr
    rw [hnone] at hr
    cases hr
  · refine ⟨?_, ?_, ?_⟩
    · intro hnone
      rw [hret] at hnone
      cases hnone
    · intro r hr
      rw [hret] at hr
      cases hr
      refine ⟨rfl, rfl, rfl, rfl, ?_⟩
      rcases hshape with h | ⟨_, _, _, h⟩ | ⟨_, _, _, h⟩ <;> rw [h] <;>
        exact ⟨rfl, rfl, rfl, rfl⟩
    · intro F1 s1 t1 hfin1 hs1 ht1 hgs hgt
      rw [hfin] at hfin1
      cases hfin1
      rw [hs] at hs1
      rw [ht] at ht1
      cases hs1
      cases ht1
      rcases hshape with h | ⟨_, hle, _, _⟩ | ⟨_, hle, _, _⟩
      · exact h
      · omega
      · omega

theorem handleWorkerResult_input_after_witness :
    (handleWorkerResult (Except.ok sampleFin) sampleAbove).res = sampleAbove :=
  (handleWorkerResult_input_after (Except.ok sampleFin) sampleAbove).2.2 sampleFin 7 10
    rfl rfl rfl (by decide) (by decide)

/-- C25 fails as stated: the failed worker for the blocks 1 to 10 is clamped at `F.number = 5`,
and after the call its own start number is 6 and its own start hash is the zero hash. -/
theorem handleWorkerResult_input_after_counterexample :
    sampleAscending.startNumber = some 1 ∧ sampleAscending.startHash = ⟨11⟩ ∧
      (handleWorkerResult (Except.ok sampleFin) sampleAscending).res.startNumber = some 6 ∧
      (handleWorkerResult (Except.ok sampleFin) sampleAscending).res.startHash = Hash.zero := by
  decide

/-! ## Numbers at or above `2 ^ 63` in `hasCurrentWorker` -/

/-- C26: the candidate for the blocks 5 to `2 ^ 63 + 20` is reported as covered by the worker
for the blocks 1 to 10: the signed difference of the targets wraps to a negative number. -/
theorem hasCurrentWorker_wraps :
    hasCurrentWorker (some sampleHugeCandidate) [(7, sampleAscending)] = (true, none) ∧
      intSub (toInt (2 ^ 63 + 20)) (toInt 10) = 10 - 2 ^ 63 := by
  decide



/-! ## Retries against the request they replace -/

/-- C29: a retry is a duplicate of the request it replaces.  For an `Ascending` or
`Descending` worker `w` with both numbers below `2 ^ 63` and a retry `r` returned for it (which
happens only after a failure other than `UnknownParent`), `hasCurrentWorker` called with `r`
and the map holding `w` as it was before the call returns `(true, nil)`: the range of `r` lies
within the range of `w`, and `r` has the start hash or the target hash of `w`. -/
theorem retry_hasCurrentWorker (fin : Header) (w r : worker) (s t key : Nat)
    (hdir : w.direction = Ascending ∨ w.direction = Descending)
    (hs : w.startNumber = some s) (ht : w.targetNumber = some t)
    (hsb : s < 2 ^ 63) (htb : t < 2 ^ 63)
    (hret : (handleWorkerResult (Except.ok fin) w).ret = some r) :
    hasCurrentWorker (some r) [(key, w)] = (true, none) ∧
      ∃ rs rt, r.startNumber = some rs ∧ r.targetNumber = some rt ∧
        rangeContained w.direction rs rt s t ∧
        (r.startHash = w.startHash ∨ r.targetHash = w.targetHash) := by
  have hkey : ∃ rs rt, r.startNumber = some rs ∧ r.targetNumber = some rt ∧
      rs < 2 ^ 63 ∧ rt < 2 ^ 63 ∧ r.direction = w.direction ∧
      r.requestData = w.requestData ∧ rangeContained w.direction rs rt s t ∧
      (r.startHash = w.startHash ∨ r.targetHash = w.targetHash) := by
    rcases handleWorkerResult_shape (Except.ok fin) w with ⟨hnone, _⟩ |
      ⟨F, s1, t1, hfin, hs1, ht1, hret1, hshape⟩
    · rw [hnone] at hret
      cases hret
    · cases hfin
      rw [hs] at hs1
      rw [ht] at ht1
      cases hs1
      cases ht1
      rw [hret1] at hret
      cases hret
      rcases hshape with h | ⟨hd, hle, hlt, h⟩ | ⟨hd, hle, hlt, h⟩
      · rw [h]
        refine ⟨s, t, hs, ht, hsb, htb, rfl, rfl, ?_, Or.inl rfl⟩
        rcases hdir with hd | hd
        · exact Or.inl ⟨hd, le_refl _, le_refl _⟩
        · exact Or.inr ⟨hd, le_refl _, le_refl _⟩
      · have hmod : uintSucc fin.Number = fin.Number + 1 :=
          Nat.mod_eq_of_lt (by unfold uintSize; omega)
        rw [h]
        refine ⟨fin.Number + 1, t, by simp [retryOf, hmod], by simp [retryOf, ht], by omega,
          htb, rfl, rfl, Or.inl ⟨hd, le_refl _, by omega⟩, Or.inr rfl⟩
      · have hmod : uintSucc fin.Number = fin.Number + 1 :=
          Nat.mod_eq_of_lt (by unfold uintSize; omega)
        rw [h]
        refine ⟨s, fin.Number + 1, by simp [retryOf, hs], by simp [retryOf, hmod], hsb,
          by omega, rfl, rfl, Or.inr ⟨hd, by omega, le_refl _⟩, Or.inl rfl⟩
  obtain ⟨rs, rt, hrs, hrt, hrsb, hrtb, hrd, hrq, hrange, hhash⟩ := hkey
  refine ⟨?_, rs, rt, hrs, hrt, hrange, hhash⟩
  have hrdir : r.direction = Ascending ∨ r.direction = Descending := by
    rw [hrd]
    exact hdir
  have hcov : coveredBy r rs rt w :=
    ⟨hrd, hrq, ⟨s, t, hs, ht, by rw [hrd]; exact hrange⟩, hhash⟩
  have hloop := (hasCurrentWorkerLoop_cons r rs rt key w [] s t hrdir hrsb hrtb hs ht hsb
    htb).1 hcov
  simp only [hasCurrentWorker, hrs, hrt]
  exact hloop

theorem retry_hasCurrentWorker_witness :
    hasCurrentWorker
        (some (retryOf { sampleAscending with startNumber := some 6, startHash := Hash.zero }))
        [(7, sampleAscending)] = (true, none) ∧
      ∃ rs rt,
        (retryOf { sampleAscending with
                   startNumber := some 6, startHash := Hash.zero }).startNumber = some rs ∧
        (retryOf { sampleAscending with
                   startNumber := some 6, startHash := Hash.zero }).targetNumber = some rt ∧
        rangeContained sampleAscending.direction rs rt 1 10 ∧
        ((retryOf { sampleAscending with
                    startNumber := some 6, startHash := Hash.zero }).startHash =
            sampleAscending.startHash ∨
          (retryOf { sampleAscending with
                     startNumber := some 6, startHash := Hash.zero }).targetHash =
            sampleAscending.targetHash) :=
  retry_hasCurrentWorker sampleFin sampleAscending
    (retryOf { sampleAscending with startNumber := some 6, startHash := Hash.zero }) 1 10 7
    (Or.inl rfl) rfl rfl (by decide) (by decide) (by decide)


/-! ## Clamping along an advancing finalised number -/

/-- A retry that failed again, processed at a finalised number that has not gone back, gives
what the replaced worker gives there. -/
theorem handleWorkerResult_retry_again (fin fin1 : Header) (w r : worker) (s t : Nat)
    (werr : workerError)
    (hfail : failedOther w)
    (hdir : w.direction = Ascending ∨ w.direction = Descending)
    (hs : w.startNumber = some s) (ht : w.targetNumber = some t)
    (hsb : s < uintSize) (htb : t < uintSize)
    (hle : fin.Number ≤ fin1.Number)
    (hret : (handleWorkerResult (Except.ok fin) w).ret = some r)
    (hup : errorsIs werr.err GoError.errUnknownParent = false) :
    (handleWorkerResult (Except.ok fin1) { r with err := some werr }).ret =
      (handleWorkerResult (Except.ok fin1) w).ret := by
  have hne : Descending ≠ Ascending := by decide
  obtain ⟨werr0, he, hup0⟩ := hfail
  unfold uintSize at hsb htb
  rcases handleWorkerResult_shape (Except.ok fin) w with ⟨hnone, _⟩ |
    ⟨F, s1, t1, hfin, hs1, ht1, hret1, hshape⟩
  · rw [hnone] at hret
    cases hret
  · cases hfin
    rw [hs] at hs1
    rw [ht] at ht1
    cases hs1
    cases ht1
    rw [hret1] at hret
    cases hret
    rcases hshape with h | ⟨hd, hc, hlt, h⟩ | ⟨hd, hc, hlt, h⟩
    · rw [h]
      rcases hdir with hd | hd
      · by_cases hm : t ≤ fin1.Number
        · simp [handleWorkerResult, retryOf, he, hup, hup0, hs, ht, hd, hm]
        · by_cases hc1 : s ≤ fin1.Number
          · simp [handleWorkerResult, retryOf, he, hup, hup0, hs, ht, hd, hm, hc1]
          · simp [handleWorkerResult, retryOf, he, hup, hup0, hs, ht, hd, hm, hc1]
      · by_cases hm : s ≤ fin1.Number
        · simp [handleWorkerResult, retryOf, he, hup, hup0, hs, ht, hd, hne, hm]
        · by_cases hc1 : t ≤ fin1.Number
          · simp [handleWorkerResult, retryOf, he, hup, hup0, hs, ht, hd, hne, hm, hc1]
          · simp [handleWorkerResult, retryOf, he, hup, hup0, hs, ht, hd, hne, hm, hc1]
    · have hmod : uintSucc fin.Number = fin.Number + 1 :=
        Nat.mod_eq_of_lt (by unfold uintSize; omega)
      rw [h]
      by_cases hm : t ≤ fin1.Number
      · simp [handleWorkerResult, retryOf, he, hup, hup0, hs, ht, hd, hm]
      · have hc1 : s ≤ fin1.Number := by omega
        by_cases hc2 : fin.Number + 1 ≤ fin1.Number
        · simp [handleWorkerResult, retryOf, he, hup, hup0, hs, ht, hd, hm, hc1, hmod, hc2]
        · have heq : fin1.Number = fin.Number := by omega
          have hm0 : ¬ t ≤ fin.Number := by omega
          simp [handleWorkerResult, retryOf, he, hup, hup0, hs, ht, hd, hm0, hc, hmod, heq]
    · have hmod : uintSucc fin.Number = fin.Number + 1 :=
        Nat.mod_eq_of_lt (by unfold uintSize; omega)
      rw [h]
      by_cases hm : s ≤ fin1.Number
      · simp [handleWorkerResult, retryOf, he, hup, hup0, hs, ht, hd, hne, hm]
      · have hc1 : t ≤ fin1.Number := by omega
        by_cases hc2 : fin.Number + 1 ≤ fin1.Number
        · simp [handleWorkerResult, retryOf, he, hup, hup0, hs, ht, hd, hne, hm, hc1, hmod, hc2]
        · have heq : fin1.Number = fin.Number := by omega
          have hm0 : ¬ s ≤ fin.Number := by omega
          simp [handleWorkerResult, retryOf, he, hup, hup0, hs, ht, hd, hne, hm0, hc, hmod,
            heq]

/-- C30: clamping composes along an advancing finalised number.  For a failed `Ascending` or
`Descending` worker `w` (failure other than `UnknownParent`, both numbers present) and
finalised headers `F`, `F1` with `F.number ≤ F1.number`: the retry returned at `F`, failing
again and processed at `F1`, gives what `w` gives at `F1`; processed at `F` again it gives
itself; and a request that gets no retry at `F` gets none at `F1`. -/
theorem handleWorkerResult_compose (fin fin1 : Header) (w : worker) (s t : Nat)
    (hfail : failedOther w)
    (hdir : w.direction = Ascending ∨ w.direction = Descending)
    (hs : w.startNumber = some s) (ht : w.targetNumber = some t)
    (hsb : s < uintSize) (htb : t < uintSize)
    (hle : fin.Number ≤ fin1.Number) :
    (∀ r werr, (handleWorkerResult (Except.ok fin) w).ret = some r →
        errorsIs werr.err GoError.errUnknownParent = false →
        (handleWorkerResult (Except.ok fin1) { r with err := some werr }).ret =
          (handleWorkerResult (Except.ok fin1) w).ret) ∧
      (∀ r werr, (handleWorkerResult (Except.ok fin) w).ret = some r →
        errorsIs werr.err GoError.errUnknownParent = false →
        (handleWorkerResult (Except.ok fin) { r with err := some werr }).ret = some r) ∧
      ((handleWorkerResult (Except.ok fin) w).ret = none →
        (handleWorkerResult (Except.ok fin1) w).ret = none) := by
  refine ⟨?_, ?_, ?_⟩
  · intro r werr hret hup
    exact handleWorkerResult_retry_again fin fin1 w r s t werr hfail hdir hs ht hsb htb hle
      hret hup
  · intro r werr hret hup
    rw [handleWorkerResult_retry_again fin fin w r s t werr hfail hdir hs ht hsb htb
      (le_refl _) hret hup]
    exact hret
  · intro hnone
    have hne : Descending ≠ Ascending := by decide
    obtain ⟨werr0, he, hup0⟩ := hfail
    rcases hdir with hd | hd
    · by_cases hm : t ≤ fin.Number
      · have hm1 : t ≤ fin1.Number := le_trans hm hle
        simp [handleWorkerResult, he, hup0, hs, ht, hd, hm1]
      · simp [handleWorkerResult, he, hup0, hs, ht, hd, hm] at hnone
    · by_cases hm : s ≤ fin.Number
      · have hm1 : s ≤ fin1.Number := le_trans hm hle
        simp [handleWorkerResult, he, hup0, hs, ht, hd, hne, hm1]
      · simp [handleWorkerResult, he, hup0, hs, ht, hd, hne, hm] at hnone

theorem handleWorkerResult_compose_witness :
    (handleWorkerResult (Except.ok ⟨⟨0⟩, 8, ⟨88⟩⟩)
        { retryOf { sampleAscending with startNumber := some 6, startHash := Hash.zero } with
          err := some sampleFailure }).ret =
      (handleWorkerResult (Except.ok ⟨⟨0⟩, 8, ⟨88⟩⟩) sampleAscending).ret :=
  (handleWorkerResult_compose sampleFin ⟨⟨0⟩, 8, ⟨88⟩⟩ sampleAscending 1 10
    ⟨sampleFailure, rfl, by decide⟩ (Or.inl rfl) rfl rfl (by decide) (by decide)
    (by decide)).1
    (retryOf { sampleAscending with startNumber := some 6, startHash := Hash.zero })
    sampleFailure (by decide) (by decide)



/-! ## Enumeration order and forks in `hasCurrentWorker` -/

/-- With both numbers in every worker of the candidate's kind, the loop never returns an error
and finds a match exactly when some worker of the map passes the test. -/
theorem hasCurrentWorkerLoop_eq_any (w : worker) (wStart wTarget : Nat)
    (workers : List (Nat × worker)) (hall : ∀ p ∈ workers, sameKindNumbered w p.2) :
    hasCurrentWorkerLoop w wStart wTarget workers =
      (workers.any (fun p => coversCandidate w wStart wTarget p.2), none) := by
  induction workers with
  | nil => rfl
  | cons p rest ih =>
    obtain ⟨key, curr⟩ := p
    have ih1 := ih (fun q hq => hall q (List.mem_cons_of_mem _ hq))
    have hcurr := hall (key, curr) (List.mem_cons_self _ _)
    by_cases hsame : w.direction ≠ curr.direction ∨ w.requestData ≠ curr.requestData
    · have hcov : coversCandidate w wStart wTarget curr = false := by
        rcases hsame with h | h <;> simp [coversCandidate, h]
      simp only [hasCurrentWorkerLoop, if_pos hsame, ih1, List.any_cons, hcov, Bool.false_or]
    · have hd : w.direction = curr.direction := by
        by_contra h
        exact hsame (Or.inl h)
      have hq : w.requestData = curr.requestData := by
        by_contra h
        exact hsame (Or.inr h)
      obtain ⟨cs, ct, hcs, hct⟩ := hcurr hd hq
      simp only at hcs hct
      have hcov : coversCandidate w wStart wTarget curr =
          (!(outsideRange w.direction (intSub (toInt wTarget) (toInt ct))
              (intSub (toInt wStart) (toInt cs))) &&
            (w.startHash.Equal curr.startHash || w.targetHash.Equal curr.targetHash)) := by
        simp only [coversCandidate, hcs, hct]
        rw [decide_eq_true hd, decide_eq_true hq]
        rfl
      rw [List.any_cons, hcov]
      simp only [hasCurrentWorkerLoop, if_neg hsame, hcs, hct, ih1]
      cases hO : outsideRange w.direction (intSub (toInt wTarget) (toInt ct))
          (intSub (toInt wStart) (toInt cs)) <;>
        cases h1 : w.startHash.Equal curr.startHash <;>
        cases h2 : w.targetHash.Equal curr.targetHash <;>
        simp

/-- The loop over a list that starts with workers which all have both numbers when they are of
the candidate's kind: a match among them ends the loop, otherwise the loop goes on with the
rest of the list. -/
theorem hasCurrentWorkerLoop_numbered_append (w : worker) (wStart wTarget : Nat)
    (before rest : List (Nat × worker)) (hall : ∀ p ∈ before, sameKindNumbered w p.2) :
    hasCurrentWorkerLoop w wStart wTarget (before ++ rest) =
      if before.any (fun p => coversCandidate w wStart wTarget p.2) then (true, none)
      else hasCurrentWorkerLoop w wStart wTarget rest := by
  induction before with
  | nil => simp
  | cons p before1 ih =>
    have ih1 := ih (fun q hq => hall q (List.mem_cons_of_mem _ hq))
    have hhead := hasCurrentWorkerLoop_eq_any w wStart wTarget [p]
      (fun q hq => hall q (by rw [List.mem_singleton.mp hq]; exact List.mem_cons_self _ _))
    have hstep : hasCurrentWorkerLoop w wStart wTarget (p :: (before1 ++ rest)) =
        if coversCandidate w wStart wTarget p.2 = true then (true, none)
        else hasCurrentWorkerLoop w wStart wTarget (before1 ++ rest) := by
      obtain ⟨key, curr⟩ := p
      simp only [hasCurrentWorkerLoop, List.any_cons, List.any_nil, Bool.or_false] at hhead ⊢
      by_cases hsame : w.direction ≠ curr.direction ∨ w.requestData ≠ curr.requestData
      · rw [if_pos hsame] at hhead ⊢
        have hc : coversCandidate w wStart wTarget curr = false := by
          simpa using (congrArg Prod.fst hhead).symm
        rw [hc]
        simp
      · rw [if_neg hsame] at hhead ⊢
        cases hcs : curr.startNumber with
        | none => simp [hcs] at hhead
        | some cs =>
          cases hct : curr.targetNumber with
          | none => simp [hcs, hct] at hhead
          | some ct =>
            simp only [hcs, hct] at hhead ⊢
            cases hO : outsideRange w.direction (intSub (toInt wTarget) (toInt ct))
                (intSub (toInt wStart) (toInt cs)) <;>
              cases h1 : w.startHash.Equal curr.startHash <;>
              cases h2 : w.targetHash.Equal curr.targetHash <;>
              simp [hO, h1, h2] at hhead <;>
              simp [hhead]
    rw [List.cons_append, hstep, ih1, List.any_cons]
    cases hc : coversCandidate w wStart wTarget p.2 <;> rfl

/-- C27, as amended.  When every worker of the map that has the candidate's direction and
request byte has both numbers, `hasCurrentWorker` returns the same pair for every order in
which the map is enumerated.  When such a worker lacks a number, the result depends on the
order: with `curr` the first such worker the enumeration reaches, the call returns
`(true, nil)` if a worker that covers the candidate is enumerated before `curr`, and otherwise
`false` with the error for `curr`, which wraps `errNilWorkerStartNumber` if `curr` has no
start number and `errNilWorkerTargetNumber` if it has a start number and no target number. -/
theorem hasCurrentWorker_order (w : Option worker) :
    (∀ workers1 workers2 : List (Nat × worker), workers1.Perm workers2 →
        (∀ x, w = some x → ∀ p ∈ workers1, sameKindNumbered x p.2) →
        hasCurrentWorker w workers1 = hasCurrentWorker w workers2) ∧
      (∀ (x : worker) (wStart wTarget : Nat) (before after : List (Nat × worker)) (key : Nat)
          (curr : worker),
        w = some x → x.startNumber = some wStart → x.targetNumber = some wTarget →
        x.direction = curr.direction → x.requestData = curr.requestData →
        (curr.startNumber = none ∨ curr.targetNumber = none) →
        (∀ p ∈ before, sameKindNumbered x p.2) →
        hasCurrentWorker w (before ++ (key, curr) :: after) =
          if before.any (fun p => coversCandidate x wStart wTarget p.2) then (true, none)
          else (false, some (workerIdError curr.id
            (if curr.startNumber = none then GoError.errNilWorkerStartNumber
              else GoError.errNilWorkerTargetNumber)))) := by
  constructor
  · intro workers1 workers2 hperm hall
    cases w with
    | none => rfl
    | some x =>
      cases hs : x.startNumber with
      | none => simp [hasCurrentWorker, hs]
      | some ws =>
        cases ht : x.targetNumber with
        | none => simp [hasCurrentWorker, hs, ht]
        | some wt =>
          have h1 := hall x rfl
          have h2 : ∀ p ∈ workers2, sameKindNumbered x p.2 :=
            fun p hp => h1 p (hperm.mem_iff.mpr hp)
          simp only [hasCurrentWorker, hs, ht]
          rw [hasCurrentWorkerLoop_eq_any x ws wt workers1 h1,
            hasCurrentWorkerLoop_eq_any x ws wt workers2 h2]
          congr 1
          rw [Bool.eq_iff_iff]
          simp only [List.any_eq_true]
          constructor
          · rintro ⟨p, hp, hc⟩
            exact ⟨p, hperm.mem_iff.mp hp, hc⟩
          · rintro ⟨p, hp, hc⟩
            exact ⟨p, hperm.mem_iff.mpr hp, hc⟩
  · intro x wStart wTarget before after key curr hw hs ht hd hq hnil hall
    subst hw
    have hsame : ¬ (x.direction ≠ curr.direction ∨ x.requestData ≠ curr.requestData) := by
      rintro (h | h)
      · exact h hd
      · exact h hq
    have hcurr : hasCurrentWorkerLoop x wStart wTarget ((key, curr) :: after) =
        (false, some (workerIdError curr.id
          (if curr.startNumber = none then GoError.errNilWorkerStartNumber
            else GoError.errNilWorkerTargetNumber))) := by
      cases hcs : curr.startNumber with
      | none => simp [hasCurrentWorkerLoop, hsame, hcs]
      | some cs =>
        rcases hnil with h | h
        · rw [hcs] at h
          cases h
        · simp [hasCurrentWorkerLoop, hsame, hcs, h]
    simp only [hasCurrentWorker, hs, ht]
    rw [hasCurrentWorkerLoop_numbered_append x wStart wTarget before _ hall, hcurr]

theorem hasCurrentWorker_order_witness :
    hasCurrentWorker (some sampleCandidate) [(7, sampleAscending), (8, sampleDescending)] =
        hasCurrentWorker (some sampleCandidate) [(8, sampleDescending), (7, sampleAscending)] ∧
      hasCurrentWorker (some sampleCandidate)
          ([(8, sampleDescending)] ++ (13, sampleNoTarget) :: [(7, sampleAscending)]) =
        (false, some (workerIdError 13 GoError.errNilWorkerTargetNumber)) ∧
      hasCurrentWorker (some sampleCandidate)
          ([(7, sampleAscending)] ++ (11, sampleNoStart) :: [(13, sampleNoTarget)]) =
        (true, none) :=
  ⟨(hasCurrentWorker_order (some sampleCandidate)).1
      [(7, sampleAscending), (8, sampleDescending)] [(8, sampleDescending), (7, sampleAscending)]
      (List.Perm.swap _ _ [])
      (by
        intro x hx p hp _ _
        simp only [List.mem_cons, List.mem_singleton, List.not_mem_nil, or_false] at hp
        rcases hp with rfl | rfl
        · exact ⟨1, 10, rfl, rfl⟩
        · exact ⟨10, 1, rfl, rfl⟩),
    (hasCurrentWorker_order (some sampleCandidate)).2 sampleCandidate 3 4
      [(8, sampleDescending)] [(7, sampleAscending)] 13 sampleNoTarget rfl rfl rfl rfl rfl
      (Or.inr rfl)
      (by
        intro p hp _ _
        simp only [List.mem_singleton] at hp
        subst hp
        exact ⟨10, 1, rfl, rfl⟩),
    (hasCurrentWorker_order (some sampleCandidate)).2 sampleCandidate 3 4
      [(7, sampleAscending)] [(13, sampleNoTarget)] 11 sampleNoStart rfl rfl rfl rfl rfl
      (Or.inl rfl)
      (by
        intro p hp _ _
        simp only [List.mem_singleton] at hp
        subst hp
        exact ⟨1, 10, rfl, rfl⟩)⟩

/-- C27 fails as stated: with a worker of the candidate's kind that lacks its start number in
the map, one order returns the error for that worker and the other order returns
`(true, nil)`. -/
theorem hasCurrentWorker_order_counterexample :
    List.Perm [(11, sampleNoStart), (7, sampleAscending)]
        [(7, sampleAscending), (11, sampleNoStart)] ∧
      hasCurrentWorker (some sampleCandidate) [(11, sampleNoStart), (7, sampleAscending)] =
        (false, some (workerIdError 11 GoError.errNilWorkerStartNumber)) ∧
      hasCurrentWorker (some sampleCandidate) [(7, sampleAscending), (11, sampleNoStart)] =
        (true, none) :=
  ⟨List.Perm.swap _ _ [], by rfl, by decide⟩

/-- C28, as amended: for two `Descending` workers with the same request byte, numbers below
`2 ^ 63` and different start hashes, the one whose range is contained in the other's is
reported as covered exactly when their target hashes are equal. -/
theorem hasCurrentWorker_forks (w curr : worker) (key wStart wTarget cStart cTarget : Nat)
    (hdw : w.direction = Descending) (hdc : curr.direction = Descending)
    (hreq : w.requestData = curr.requestData)
    (hws : w.startNumber = some wStart) (hwt : w.targetNumber = some wTarget)
    (hcs : curr.startNumber = some cStart) (hct : curr.targetNumber = some cTarget)
    (hwsb : wStart < 2 ^ 63) (hwtb : wTarget < 2 ^ 63)
    (hcsb : cStart < 2 ^ 63) (hctb : cTarget < 2 ^ 63)
    (hin : wTarget ≥ cTarget ∧ wStart ≤ cStart)
    (hstart : w.startHash ≠ curr.startHash) :
    hasCurrentWorker (some w) [(key, curr)] = (decide (w.targetHash = curr.targetHash), none) := by
  have hstep := hasCurrentWorkerLoop_cons w wStart wTarget key curr [] cStart cTarget
    (Or.inr hdw) hwsb hwtb hcs hct hcsb hctb
  simp only [hasCurrentWorker, hws, hwt]
  by_cases hth : w.targetHash = curr.targetHash
  · have hcov : coveredBy w wStart wTarget curr :=
      ⟨by rw [hdw, hdc], hreq, ⟨cStart, cTarget, hcs, hct, Or.inr ⟨hdw, hin.1, hin.2⟩⟩,
        Or.inr hth⟩
    rw [hstep.1 hcov]
    simp [hth]
  · have hnot : ¬ coveredBy w wStart wTarget curr := by
      rintro ⟨_, _, _, h | h⟩
      · exact hstart h
      · exact hth h
    rw [hstep.2 hnot]
    simp [hasCurrentWorkerLoop, hth]

theorem hasCurrentWorker_forks_witness :
    hasCurrentWorker (some { sampleDescending with startHash := ⟨13⟩, startNumber := some 8 })
        [(8, sampleDescending)] =
      (decide (({ sampleDescending with startHash := ⟨13⟩, startNumber := some 8 } :
        worker).targetHash = sampleDescending.targetHash), none) :=
  hasCurrentWorker_forks { sampleDescending with startHash := ⟨13⟩, startNumber := some 8 }
    sampleDescending 8 8 1 10 1 rfl rfl rfl rfl rfl rfl rfl (by decide) (by decide) (by decide)
    (by decide) (by decide) (by decide)

/-- C28 fails as stated: the two ancestor workers `handleTick` returns for two pending blocks
with different unknown parents have different start hashes and both the zero target hash,
and the one with the smaller range is reported as covered by the other. -/
theorem hasCurrentWorker_forks_counterexample :
    (handleTick (Except.ok sampleFin) sampleNoHeader [sampleOtherFork, sampleChild] []).ret =
        some ([ancestorWorker sampleFin ⟨⟨120⟩, 9, ⟨105⟩⟩ 9,
               ancestorWorker sampleFin ⟨⟨101⟩, 7, ⟨102⟩⟩ 7], none) ∧
      (ancestorWorker sampleFin ⟨⟨101⟩, 7, ⟨102⟩⟩ 7).startHash ≠
        (ancestorWorker sampleFin ⟨⟨120⟩, 9, ⟨105⟩⟩ 9).startHash ∧
      hasCurrentWorker (some (ancestorWorker sampleFin ⟨⟨101⟩, 7, ⟨102⟩⟩ 7))
        [(1, ancestorWorker sampleFin ⟨⟨120⟩, 9, ⟨105⟩⟩ 9)] = (true, none) := by
  decide



/-! ## Scans of `handleTick` cut in two -/

theorem handleTickLoop_ret_ok (fin : Header) (hasHeader : Hash → Except GoError Bool)
    (blocks : List pendingBlock) (st : TickState) (ws : List worker)
    (hret : (handleTickLoop fin hasHeader blocks st).ret = some (ws, none)) :
    ws = (handleTickLoop fin hasHeader blocks st).st.emitted.map Prod.snd := by
  induction blocks generalizing st with
  | nil =>
    simp only [handleTickLoop, Option.some.injEq, Prod.mk.injEq, and_true] at hret
    exact hret.symm
  | cons block rest ih =>
    cases hv : handleTickVisit fin hasHeader block st with
    | next st1 =>
      simp only [handleTickLoop, hv] at hret ⊢
      exact ih st1 hret
    | returned err => simp [handleTickLoop, hv] at hret
    | panicked => simp [handleTickLoop, hv] at hret

/-- A scan whose first part runs to its end goes on with the second part from the state the
first part leaves. -/
theorem handleTickLoop_append (fin : Header) (hasHeader : Hash → Except GoError Bool)
    (first second : List pendingBlock) (st : TickState) (ws : List worker)
    (hfirst : (handleTickLoop fin hasHeader first st).ret = some (ws, none)) :
    handleTickLoop fin hasHeader (first ++ second) st =
      handleTickLoop fin hasHeader second (handleTickLoop fin hasHeader first st).st := by
  induction first generalizing st with
  | nil => simp [handleTickLoop]
  | cons block rest ih =>
    cases hv : handleTickVisit fin hasHeader block st with
    | next st1 =>
      simp only [handleTickLoop, hv, List.cons_append] at hfirst ⊢
      exact ih st1 hfirst
    | returned err => simp [handleTickLoop, hv] at hfirst
    | panicked => simp [handleTickLoop, hv] at hfirst

/-- When a scan runs to its end, so does every first part of it. -/
theorem handleTickLoop_first_ok (fin : Header) (hasHeader : Hash → Except GoError Bool)
    (first second : List pendingBlock) (st : TickState) (ws : List worker)
    (hret : (handleTickLoop fin hasHeader (first ++ second) st).ret = some (ws, none)) :
    ∃ ws1, (handleTickLoop fin hasHeader first st).ret = some (ws1, none) := by
  induction first generalizing st with
  | nil => exact ⟨_, rfl⟩
  | cons block rest ih =>
    cases hv : handleTickVisit fin hasHeader block st with
    | next st1 =>
      simp only [handleTickLoop, hv, List.cons_append] at hret ⊢
      exact ih st1 hret
    | returned err => simp [handleTickLoop, hv] at hret
    | panicked => simp [handleTickLoop, hv] at hret

/-- A scan that returns an error ran to the end of a first part and failed at the next
block; the state it leaves is the state after the first part. -/
theorem handleTickLoop_error_split (fin : Header) (hasHeader : Hash → Except GoError Bool)
    (blocks : List pendingBlock) (st : TickState) (ws : List worker) (err : GoError)
    (hret : (handleTickLoop fin hasHeader blocks st).ret = some (ws, some err)) :
    ws = [] ∧ ∃ visited block rest ws1, blocks = visited ++ block :: rest ∧
      (handleTickLoop fin hasHeader visited st).ret = some (ws1, none) ∧
      handleTickVisit fin hasHeader block (handleTickLoop fin hasHeader visited st).st =
        Visit.returned err ∧
      (handleTickLoop fin hasHeader blocks st).st =
        (handleTickLoop fin hasHeader visited st).st := by
  induction blocks generalizing st with
  | nil => simp [handleTickLoop] at hret
  | cons block rest ih =>
    cases hv : handleTickVisit fin hasHeader block st with
    | next st1 =>
      simp only [handleTickLoop, hv] at hret ⊢
      obtain ⟨hws, visited, block1, rest1, ws1, hsplit, hok, hfail, hst⟩ := ih st1 hret
      refine ⟨hws, block :: visited, block1, rest1, ws1, by simp [hsplit], ?_, ?_, ?_⟩
      · simpa [handleTickLoop, hv] using hok
      · simpa [handleTickLoop, hv] using hfail
      · simpa [handleTickLoop, hv] using hst
    | returned e =>
      simp only [handleTickLoop, hv, Option.some.injEq, Prod.mk.injEq] at hret
      obtain ⟨hws, he⟩ := hret
      cases he
      refine ⟨hws.symm, [], block, rest, st.emitted.map Prod.snd, rfl, ?_, ?_, ?_⟩
      · simp [handleTickLoop]
      · simpa [handleTickLoop] using hv
      · simp [handleTickLoop, hv]
    | panicked => simp [handleTickLoop, hv] at hret

/-- Induction over any scan with the visited block known to be one of the scanned blocks. -/
theorem handleTickLoop_state_mem (fin : Header) (hasHeader : Hash → Except GoError Bool)
    (Inv : TickState → Prop) (blocks : List pendingBlock)
    (hstep : ∀ block ∈ blocks, ∀ st st1, Inv st →
      handleTickVisit fin hasHeader block st = Visit.next st1 → Inv st1)
    (st : TickState) (hinv : Inv st) :
    Inv (handleTickLoop fin hasHeader blocks st).st := by
  induction blocks generalizing st with
  | nil => simpa [handleTickLoop] using hinv
  | cons block rest ih =>
    have ih1 := ih (fun b hb => hstep b (List.mem_cons_of_mem _ hb))
    cases hv : handleTickVisit fin hasHeader block st with
    | next st1 =>
      simp only [handleTickLoop, hv]
      exact ih1 st1 (hstep block (List.mem_cons_self _ _) st st1 hinv hv)
    | returned err => simpa [handleTickLoop, hv] using hinv
    | panicked => simpa [handleTickLoop, hv] using hinv

/-- Whatever its outcome, a scan only shrinks the pending set, only extends the ready queue at
its end, and only appends workers recorded under hashes of scanned blocks. -/
theorem handleTickLoop_frame (fin : Header) (hasHeader : Hash → Except GoError Bool)
    (blocks : List pendingBlock) (st : TickState) :
    (handleTickLoop fin hasHeader blocks st).st.pending.Sublist st.pending ∧
      (∃ more, (handleTickLoop fin hasHeader blocks st).st.ready = st.ready ++ more) ∧
      ∃ added, (handleTickLoop fin hasHeader blocks st).st.emitted = st.emitted ++ added ∧
        ∀ e ∈ added, e.1 ∈ blocks.map (fun b => b.hash) := by
  apply handleTickLoop_state_mem fin hasHeader
    (fun s => s.pending.Sublist st.pending ∧ (∃ more, s.ready = st.ready ++ more) ∧
      ∃ added, s.emitted = st.emitted ++ added ∧
        ∀ e ∈ added, e.1 ∈ blocks.map (fun b => b.hash)) blocks
  · intro block hblock s s1 hinv hv
    obtain ⟨hsub, ⟨more, hmore⟩, added, hadded, htags⟩ := hinv
    obtain ⟨hsub1, ⟨more1, hmore1⟩, hemit⟩ := handleTickVisit_frame fin hasHeader block s s1 hv
    refine ⟨hsub1.trans hsub, ⟨more ++ more1, by rw [hmore1, hmore, List.append_assoc]⟩, ?_⟩
    rcases hemit with he | ⟨w, he⟩
    · exact ⟨added, by rw [he, hadded], htags⟩
    · refine ⟨added ++ [(block.hash, w)], by rw [he, hadded, List.append_assoc], ?_⟩
      intro e hmem
      rcases List.mem_append.mp hmem with h1 | h1
      · exact htags e h1
      · simp only [List.mem_singleton] at h1
        subst h1
        exact List.mem_map_of_mem (fun b => b.hash) hblock
  · exact ⟨List.Sublist.refl _, ⟨[], by simp⟩, [], by simp, by simp⟩

/-! ## Errors of the oracle -/

/-- C21: a failing oracle call makes the handler return that error and no worker:
`handleNewPeerState` (number present) and `handleWorkerResult` (failure other than
`UnknownParent`) when the finalised header cannot be read, `handleTick` (non-empty pending
set) when the finalised header cannot be read or when the scan reaches a fully known block
above `F.number` and `HasHeader` fails for its parent. -/
theorem oracle_error_returned (e : GoError) :
    (∀ ps number, ps.number = some number →
        handleNewPeerState (Except.error e) ps = (none, some e)) ∧
      (∀ res, failedOther res →
        (handleWorkerResult (Except.error e) res).ret = none ∧
        (handleWorkerResult (Except.error e) res).err = some e) ∧
      (∀ hasHeader pending ready, pending ≠ [] →
        (handleTick (Except.error e) hasHeader pending ready).ret = some ([], some e)) ∧
      (∀ fin hasHeader visited block rest ready ws number header body,
        (handleTickLoop fin hasHeader visited ⟨visited ++ block :: rest, ready, []⟩).ret =
          some (ws, none) →
        block.number = some number → fin.Number < number →
        block.header = some header → block.body = some body →
        hasHeader header.ParentHash = Except.error e →
        (handleTick (Except.ok fin) hasHeader (visited ++ block :: rest) ready).ret =
          some ([], some e)) := by
  refine ⟨?_, ?_, ?_, ?_⟩
  · intro ps number hn
    simp [handleNewPeerState, hn]
  · rintro res ⟨werr, he, hup⟩
    simp [handleWorkerResult, he, hup]
  · intro hasHeader pending ready hne
    have hlen : ¬ pending.length = 0 := fun h => hne (List.length_eq_zero.mp h)
    simp [handleTick, hlen]
  · intro fin hasHeader visited block rest ready ws number header body hok hn hgt hh hb herr
    rw [handleTick_eq_loop fin hasHeader _ ready (by simp),
      handleTickLoop_append fin hasHeader visited (block :: rest) _ ws hok]
    simp [handleTickLoop, handleTickVisit, hn, not_le.mpr hgt, hh, hb, herr]

theorem oracle_error_returned_witness :
    (handleTick (Except.ok sampleFin) sampleFailingHeader
        ([samplePruned] ++ sampleParent :: [sampleChild]) []).ret =
      some ([], some (GoError.other "db closed")) :=
  (oracle_error_returned (GoError.other "db closed")).2.2.2 sampleFin sampleFailingHeader
    [samplePruned] sampleParent [sampleChild] [] [] 6 ⟨⟨50⟩, 6, ⟨101⟩⟩ ⟨[]⟩
    (by decide) rfl (by decide) rfl rfl rfl

/-- C24, as amended: when `handleTick` returns an error it returns no worker; when the error
is that of the finalised header read, the pending set and the ready queue are as before the
call; when it is that of a `HasHeader` call, they are as the visits before the failing one
left them: the pending set has only lost blocks, the ready queue has only gained entries at
its end. -/
theorem handleTick_error_effect (fin : Except GoError Header)
    (hasHeader : Hash → Except GoError Bool) (pending : List pendingBlock)
    (ready : List BlockData) (ws : List worker) (e : GoError)
    (hret : (handleTick fin hasHeader pending ready).ret = some (ws, some e)) :
    ws = [] ∧
      (fin = Except.error e →
        (handleTick fin hasHeader pending ready).st.pending = pending ∧
        (handleTick fin hasHeader pending ready).st.ready = ready) ∧
      (handleTick fin hasHeader pending ready).st.pending.Sublist pending ∧
      (∃ more, (handleTick fin hasHeader pending ready).st.ready = ready ++ more) ∧
      (∀ F, fin = Except.ok F →
        ∃ visited block rest ws1, pending = visited ++ block :: rest ∧
          (handleTickLoop F hasHeader visited ⟨pending, ready, []⟩).ret = some (ws1, none) ∧
          handleTickVisit F hasHeader block
              (handleTickLoop F hasHeader visited ⟨pending, ready, []⟩).st =
            Visit.returned e ∧
          (handleTick fin hasHeader pending ready).st =
            (handleTickLoop F hasHeader visited ⟨pending, ready, []⟩).st) := by
  by_cases hne : pending = []
  · subst hne
    simp [handleTick] at hret
  · have hlen : ¬ pending.length = 0 := fun h => hne (List.length_eq_zero.mp h)
    cases fin with
    | error err =>
      have hr : handleTick (Except.error err) hasHeader pending ready =
          ⟨⟨pending, ready, []⟩, some ([], some err)⟩ := by
        simp [handleTick, hlen]
      rw [hr] at hret ⊢
      simp only [Option.some.injEq, Prod.mk.injEq] at hret
      exact ⟨hret.1.symm, fun _ => ⟨rfl, rfl⟩, List.Sublist.refl _, ⟨[], by simp⟩,
        fun F hF => by cases hF⟩
    | ok F =>
      rw [handleTick_eq_loop F hasHeader pending ready hne] at hret ⊢
      obtain ⟨hws, hsplit⟩ := handleTickLoop_error_split F hasHeader pending _ ws e hret
      obtain ⟨hsub, hmore, _⟩ := handleTickLoop_frame F hasHeader pending ⟨pending, ready, []⟩
      refine ⟨hws, ?_, hsub, hmore, ?_⟩
      · intro hF
        cases hF
      · intro F1 hF1
        cases hF1
        exact hsplit

theorem handleTick_error_effect_witness :
    ([] : List worker) = [] ∧
      ((Except.ok sampleFin : Except GoError Header) = Except.error (GoError.other "db closed") →
        (handleTick (Except.ok sampleFin) sampleFailingHeader
          [sampleHashOnly, sampleParent] []).st.pending = [sampleHashOnly, sampleParent] ∧
        (handleTick (Except.ok sampleFin) sampleFailingHeader
          [sampleHashOnly, sampleParent] []).st.ready = []) ∧
      (handleTick (Except.ok sampleFin) sampleFailingHeader
        [sampleHashOnly, sampleParent] []).st.pending.Sublist [sampleHashOnly, sampleParent] ∧
      (∃ more, (handleTick (Except.ok sampleFin) sampleFailingHeader
        [sampleHashOnly, sampleParent] []).st.ready = [] ++ more) ∧
      (∀ F, (Except.ok sampleFin : Except GoError Header) = Except.ok F →
        ∃ visited block rest ws1, [sampleHashOnly, sampleParent] = visited ++ block :: rest ∧
          (handleTickLoop F sampleFailingHeader visited
            ⟨[sampleHashOnly, sampleParent], [], []⟩).ret = some (ws1, none) ∧
          handleTickVisit F sampleFailingHeader block
              (handleTickLoop F sampleFailingHeader visited
                ⟨[sampleHashOnly, sampleParent], [], []⟩).st =
            Visit.returned (GoError.other "db closed") ∧
          (handleTick (Except.ok sampleFin) sampleFailingHeader
              [sampleHashOnly, sampleParent] []).st =
            (handleTickLoop F sampleFailingHeader visited
              ⟨[sampleHashOnly, sampleParent], [], []⟩).st) :=
  handleTick_error_effect (Except.ok sampleFin) sampleFailingHeader
    [sampleHashOnly, sampleParent] [] [] (GoError.other "db closed") (by decide)

/-- C24 fails as stated: the block at the finalised number is pruned before `HasHeader` fails
for the next block; the call returns the error and the pending set has lost the pruned
block. -/
theorem handleTick_error_effect_counterexample :
    (handleTick (Except.ok sampleFin) sampleFailingHeader [samplePruned, sampleParent] []).ret =
        some ([], some (GoError.other "db closed")) ∧
      (handleTick (Except.ok sampleFin) sampleFailingHeader
        [samplePruned, sampleParent] []).st.pending = [sampleParent] ∧
      [sampleParent] ≠ [samplePruned, sampleParent] := by
  decide



/-! ## Promotion and emitted workers -/

theorem filter_tags_nil (added : List (Hash × worker)) (hash : Hash)
    (h : ∀ e ∈ added, e.1 ≠ hash) :
    added.filter (fun e => decide (e.1 = hash)) = [] := by
  induction added with
  | nil => rfl
  | cons e rest ih =>
    have he : e.1 ≠ hash := h e (List.mem_cons_self _ _)
    simp only [List.filter_cons, he, decide_False]
    exact ih (fun x hx => h x (List.mem_cons_of_mem _ hx))

/-- C23, as amended: in a call that returns without error on a pending set with distinct
hashes, a fully known block above `F.number` whose parent is persisted, or is in the ready
queue when the scan reaches the block, is promoted, and no returned worker was appended for
it.  `pre` are the blocks enumerated before the block, `post` those after it. -/
theorem handleTick_promoted_no_worker (fin : Header) (hasHeader : Hash → Except GoError Bool)
    (pre post : List pendingBlock) (ready : List BlockData) (ws : List worker)
    (b : pendingBlock) (n : Nat) (header : Header) (body : Body)
    (hnodup : ((pre ++ b :: post).map (fun x => x.hash)).Nodup)
    (hn : b.number = some n) (hgt : fin.Number < n)
    (hh : b.header = some header) (hbody : b.body = some body)
    (hknown : hasHeader header.ParentHash = Except.ok true ∨
      blockQueueHas (handleTickLoop fin hasHeader pre ⟨pre ++ b :: post, ready, []⟩).st.ready
        header.ParentHash = true)
    (hret : (handleTick (Except.ok fin) hasHeader (pre ++ b :: post) ready).ret =
      some (ws, none)) :
    b.toBlockData ∈ (handleTick (Except.ok fin) hasHeader (pre ++ b :: post) ready).st.ready ∧
      (handleTick (Except.ok fin) hasHeader (pre ++ b :: post) ready).st.emitted.filter
          (fun e => decide (e.1 = b.hash)) = [] ∧
      ws = (handleTick (Except.ok fin) hasHeader (pre ++ b :: post) ready).st.emitted.map
        Prod.snd := by
  have hpreh : b.hash ∉ pre.map (fun x => x.hash) := by
    rw [List.map_append, List.map_cons, List.nodup_append] at hnodup
    intro hmem
    exact hnodup.2.2 hmem (List.mem_cons_self _ _)
  have hposth : b.hash ∉ post.map (fun x => x.hash) := by
    rw [List.map_append, List.map_cons, List.nodup_append] at hnodup
    exact (List.nodup_cons.mp hnodup.2.1).1
  rw [handleTick_eq_loop fin hasHeader _ ready (by simp)] at hret ⊢
  obtain ⟨ws1, hpre⟩ := handleTickLoop_first_ok fin hasHeader pre (b :: post) _ ws hret
  rw [handleTickLoop_append fin hasHeader pre (b :: post) _ ws1 hpre] at hret ⊢
  obtain ⟨_, _, added1, hadded1, htags1⟩ :=
    handleTickLoop_frame fin hasHeader pre ⟨pre ++ b :: post, ready, []⟩
  generalize (handleTickLoop fin hasHeader pre ⟨pre ++ b :: post, ready, []⟩).st = st1
    at hret hknown hadded1 ⊢
  cases hv : handleTickVisit fin hasHeader b st1 with
  | returned err => simp [handleTickLoop, hv] at hret
  | panicked => simp [handleTickLoop, hv] at hret
  | next st2 =>
    simp only [handleTickLoop, hv] at hret ⊢
    have hws := handleTickLoop_ret_ok fin hasHeader post st2 ws hret
    obtain ⟨_, ⟨more2, hmore2⟩, added2, hadded2, htags2⟩ :=
      handleTickLoop_frame fin hasHeader post st2
    rcases handleTickVisit_full fin hasHeader b st1 st2 n header body hn hgt hh hbody hv with
      ⟨has, _, _, hst⟩ | ⟨ho, hk, _⟩
    · obtain ⟨found, _, hfound, _, _⟩ :=
        handleReadyBlock_ready b.toBlockData st1.pending st1.ready
      have hready2 : st2.ready = st1.ready ++ b.toBlockData :: found := by
        rw [hst]
        exact hfound
      have hemit2 : st2.emitted = st1.emitted := by
        rw [hst]
      refine ⟨?_, ?_, hws⟩
      · rw [hmore2, hready2]
        simp
      · rw [hadded2, hemit2, hadded1, List.filter_append, List.filter_append]
        rw [filter_tags_nil added1 b.hash (fun e he heq => hpreh (heq ▸ htags1 e he)),
          filter_tags_nil added2 b.hash (fun e he heq => hposth (heq ▸ htags2 e he))]
        rfl
    · exfalso
      rcases hknown with hp | hp
      · rw [hp] at ho
        cases ho
      · rw [hp] at hk
        cases hk

theorem handleTick_promoted_no_worker_witness :
    sampleChild.toBlockData ∈
        (handleTick (Except.ok sampleFin) sampleHasHeader
          ([sampleParent] ++ sampleChild :: [sampleHashOnly]) []).st.ready ∧
      (handleTick (Except.ok sampleFin) sampleHasHeader
          ([sampleParent] ++ sampleChild :: [sampleHashOnly]) []).st.emitted.filter
          (fun e => decide (e.1 = sampleChild.hash)) = [] ∧
      [headerUnknownWorker sampleFin sampleHashOnly] =
        (handleTick (Except.ok sampleFin) sampleHasHeader
          ([sampleParent] ++ sampleChild :: [sampleHashOnly]) []).st.emitted.map Prod.snd :=
  handleTick_promoted_no_worker sampleFin sampleHasHeader [sampleParent] [sampleHashOnly] []
    [headerUnknownWorker sampleFin sampleHashOnly] sampleChild 7 ⟨⟨101⟩, 7, ⟨102⟩⟩ ⟨[]⟩
    (by decide) rfl (by decide) rfl rfl (Or.inr (by decide)) (by decide)

/-- C23 fails as stated: `sampleChild` is enumerated before its pending parent; the ancestor
worker is appended for it, and the promotion of the parent then brings it into the ready
queue through the cascade. -/
theorem handleTick_promoted_no_worker_counterexample :
    (handleTick (Except.ok sampleFin) sampleHasHeader
        [sampleChild, sampleHashOnly, sampleParent] []).ret =
        some ([ancestorWorker sampleFin ⟨⟨101⟩, 7, ⟨102⟩⟩ 7,
               headerUnknownWorker sampleFin sampleHashOnly], none) ∧
      sampleChild.toBlockData ∈
        (handleTick (Except.ok sampleFin) sampleHasHeader
          [sampleChild, sampleHashOnly, sampleParent] []).st.ready ∧
      (sampleChild.hash, ancestorWorker sampleFin ⟨⟨101⟩, 7, ⟨102⟩⟩ 7) ∈
        (handleTick (Except.ok sampleFin) sampleHasHeader
          [sampleChild, sampleHashOnly, sampleParent] []).st.emitted := by
  decide



/-! ## Two calls of `handleTick` in a row -/

/-- Apart from a promotion, what a visit returns and appends does not depend on the pending
set. -/
theorem handleTickVisit_pending_free (fin : Header) (hasHeader : Hash → Except GoError Bool)
    (block : pendingBlock) (P P2 : List pendingBlock) (R : List BlockData)
    (W : List (Hash × worker)) :
    (handleTickVisit fin hasHeader block ⟨P, R, W⟩ = Visit.panicked ∧
        handleTickVisit fin hasHeader block ⟨P2, R, W⟩ = Visit.panicked) ∨
      (∃ e, handleTickVisit fin hasHeader block ⟨P, R, W⟩ = Visit.returned e ∧
        handleTickVisit fin hasHeader block ⟨P2, R, W⟩ = Visit.returned e) ∨
      (∃ P1 P3 W1, handleTickVisit fin hasHeader block ⟨P, R, W⟩ = Visit.next ⟨P1, R, W1⟩ ∧
        handleTickVisit fin hasHeader block ⟨P2, R, W⟩ = Visit.next ⟨P3, R, W1⟩) ∨
      (∃ st1 bd more, handleTickVisit fin hasHeader block ⟨P, R, W⟩ = Visit.next st1 ∧
        st1.ready = R ++ bd :: more) := by
  cases hn : block.number with
  | none => left; simp [handleTickVisit, hn]
  | some n =>
    by_cases hle : n ≤ fin.Number
    · right; right; left
      exact ⟨removeBlock P block.hash, removeBlock P2 block.hash, W,
        by simp [handleTickVisit, hn, hle], by simp [handleTickVisit, hn, hle]⟩
    · cases hh : block.header with
      | none =>
        right; right; left
        exact ⟨P, P2, W ++ [(block.hash, headerUnknownWorker fin block)],
          by simp [handleTickVisit, hn, hle, hh], by simp [handleTickVisit, hn, hle, hh]⟩
      | some header =>
        cases hb : block.body with
        | none =>
          right; right; left
          exact ⟨P, P2, W ++ [(block.hash, bodyUnknownWorker block)],
            by simp [handleTickVisit, hn, hle, hh, hb],
            by simp [handleTickVisit, hn, hle, hh, hb]⟩
        | some body =>
          cases ho : hasHeader header.ParentHash with
          | error e =>
            right; left
            exact ⟨e, by simp [handleTickVisit, hn, hle, hh, hb, ho],
              by simp [handleTickVisit, hn, hle, hh, hb, ho]⟩
          | ok has =>
            by_cases hk : (has || blockQueueHas R header.ParentHash) = true
            · right; right; right
              obtain ⟨found, _, hfound, _, _⟩ := handleReadyBlock_ready block.toBlockData P R
              refine ⟨⟨(handleReadyBlock block.toBlockData P R).1,
                (handleReadyBlock block.toBlockData P R).2, W⟩, block.toBlockData, found, ?_, ?_⟩
              · simp only [handleTickVisit, hn, if_neg hle, hh, hb, ho, if_pos hk]
              · exact hfound
            · right; right; left
              exact ⟨P, P2, W ++ [(block.hash, ancestorWorker fin header n)],
                by simp only [handleTickVisit, hn, if_neg hle, hh, hb, ho, if_neg hk],
                by simp only [handleTickVisit, hn, if_neg hle, hh, hb, ho, if_neg hk]⟩

/-- A scan that leaves the ready queue as it was returns what the scan of the same blocks
without some of the pruned ones returns, whatever the two pending sets are. -/
theorem handleTickLoop_without_pruned (fin : Header) (hasHeader : Hash → Except GoError Bool)
    (blocks2 blocks : List pendingBlock) (hsub : blocks2.Sublist blocks)
    (hnodup : blocks.Nodup) (hdrop : ∀ x ∈ blocks, x ∉ blocks2 → prunable fin x)
    (P P2 : List pendingBlock) (R : List BlockData) (W : List (Hash × worker))
    (hsame : (handleTickLoop fin hasHeader blocks ⟨P, R, W⟩).st.ready = R) :
    (handleTickLoop fin hasHeader blocks2 ⟨P2, R, W⟩).ret =
      (handleTickLoop fin hasHeader blocks ⟨P, R, W⟩).ret := by
  induction hsub generalizing P P2 W with
  | slnil => rfl
  | @cons l1 l2 x hsub1 ih =>
    have hx : prunable fin x := by
      apply hdrop x (List.mem_cons_self _ _)
      intro hmem
      exact (List.nodup_cons.mp hnodup).1 (hsub1.subset hmem)
    obtain ⟨n, hn, hle⟩ := hx
    have hv : handleTickVisit fin hasHeader x ⟨P, R, W⟩ =
        Visit.next ⟨removeBlock P x.hash, R, W⟩ := by
      simp [handleTickVisit, hn, hle]
    simp only [handleTickLoop, hv] at hsame ⊢
    exact ih (List.nodup_cons.mp hnodup).2
      (fun y hy hnot => hdrop y (List.mem_cons_of_mem _ hy) hnot) _ P2 W hsame
  | @cons₂ l1 l2 x hsub1 ih =>
    have hnd := List.nodup_cons.mp hnodup
    have hdrop1 : ∀ y ∈ l2, y ∉ l1 → prunable fin y := by
      intro y hy hnot
      apply hdrop y (List.mem_cons_of_mem _ hy)
      intro hmem
      rcases List.mem_cons.mp hmem with heq | hmem1
      · subst heq
        exact hnd.1 hy
      · exact hnot hmem1
    rcases handleTickVisit_pending_free fin hasHeader x P P2 R W with ⟨h1, h2⟩ | ⟨e, h1, h2⟩ |
      ⟨P1, P3, W1, h1, h2⟩ | ⟨st1, bd, more, h1, hready⟩
    · simp [handleTickLoop, h1, h2]
    · simp [handleTickLoop, h1, h2]
    · simp only [handleTickLoop, h1, h2] at hsame ⊢
      exact ih hnd.2 hdrop1 P1 P3 W1 hsame
    · exfalso
      simp only [handleTickLoop, h1] at hsame
      obtain ⟨_, ⟨more1, hmore1⟩, _⟩ := handleTickLoop_frame fin hasHeader l2 st1
      rw [hmore1, hready] at hsame
      have hlen := congrArg List.length hsame
      simp at hlen

/-- After a scan without promotion on a pending set with distinct hashes, the blocks missing
from the pending set are pruned ones. -/
theorem handleTickLoop_only_pruned (fin : Header) (hasHeader : Hash → Except GoError Bool)
    (pending : List pendingBlock) (ready : List BlockData)
    (hnodup : (pending.map (fun b => b.hash)).Nodup)
    (hsame : (handleTickLoop fin hasHeader pending ⟨pending, ready, []⟩).st.ready = ready) :
    (handleTickLoop fin hasHeader pending ⟨pending, ready, []⟩).st.pending.Sublist pending ∧
      ∀ x ∈ pending,
        x ∉ (handleTickLoop fin hasHeader pending ⟨pending, ready, []⟩).st.pending →
        prunable fin x := by
  have hinv := handleTickLoop_state_mem fin hasHeader
    (fun s => (∃ bd more, s.ready = ready ++ bd :: more) ∨
      (s.ready = ready ∧ s.pending.Sublist pending ∧
        ∀ x ∈ pending, x ∉ s.pending → prunable fin x)) pending
    (by
      intro block hblock s s1 hinv hv
      rcases hinv with ⟨bd, more, hgrown⟩ | ⟨hready, hsub, hmiss⟩
      · left
        obtain ⟨_, ⟨more1, hmore1⟩, _⟩ := handleTickVisit_frame fin hasHeader block s s1 hv
        exact ⟨bd, more ++ more1, by rw [hmore1, hgrown]; simp⟩
      · obtain ⟨number, hn, hcase⟩ := handleTickVisit_next fin hasHeader block s s1 hv
        rcases hcase with ⟨hle, rfl⟩ | ⟨_, _, rfl⟩ | ⟨_, _, _, rfl⟩ |
          ⟨_, header, body, has, _, _, _, _, rfl⟩ | ⟨_, header, body, _, _, _, _, rfl⟩
        · right
          refine ⟨hready, (removeBlock_sublist _ _).trans hsub, ?_⟩
          intro x hx hnot
          by_cases hxs : x ∈ s.pending
          · have hhash : x.hash = block.hash := by
              by_contra hne
              exact hnot ((mem_removeBlock _ _ _).mpr ⟨hxs, hne⟩)
            have hxb : x = block :=
              hash_injective_of_nodup pending hnodup x block hx hblock hhash
            subst hxb
            exact ⟨number, hn, hle⟩
          · exact hmiss x hx hxs
        · exact Or.inr ⟨hready, hsub, hmiss⟩
        · exact Or.inr ⟨hready, hsub, hmiss⟩
        · left
          obtain ⟨found, _, hfound, _, _⟩ :=
            handleReadyBlock_ready block.toBlockData s.pending s.ready
          exact ⟨block.toBlockData, found, by simp only; rw [hfound, hready]⟩
        · exact Or.inr ⟨hready, hsub, hmiss⟩)
    ⟨pending, ready, []⟩ (Or.inr ⟨rfl, List.Sublist.refl _, fun x hx hnot => absurd hx hnot⟩)
  rcases hinv with ⟨bd, more, hgrown⟩ | ⟨_, hsub, hmiss⟩
  · exfalso
    rw [hgrown] at hsame
    have hlen := congrArg List.length hsame
    simp at hlen
  · exact ⟨hsub, hmiss⟩

/-- C22: idempotence of `handleTick`.  On a pending set with distinct hashes, when a call
promotes nothing (it leaves the ready queue as it was), a second call right after it, on the
pending set and the ready queue the first call left and with the same answers of the oracle,
returns what the first call returned: the same workers in the same order, field for field,
and the same error if any. -/
theorem handleTick_idempotent (fin : Except GoError Header)
    (hasHeader : Hash → Except GoError Bool) (pending : List pendingBlock)
    (ready : List BlockData)
    (hnodup : (pending.map (fun b => b.hash)).Nodup)
    (hsame : (handleTick fin hasHeader pending ready).st.ready = ready) :
    (handleTick fin hasHeader (handleTick fin hasHeader pending ready).st.pending
        (handleTick fin hasHeader pending ready).st.ready).ret =
      (handleTick fin hasHeader pending ready).ret := by
  rw [hsame]
  by_cases hne : pending = []
  · subst hne
    simp [handleTick]
  · have hlen : ¬ pending.length = 0 := fun h => hne (List.length_eq_zero.mp h)
    cases fin with
    | error err => simp [handleTick, hlen]
    | ok F =>
      rw [handleTick_eq_loop F hasHeader pending ready hne] at hsame ⊢
      obtain ⟨hsub, hmiss⟩ := handleTickLoop_only_pruned F hasHeader pending ready hnodup hsame
      have hkey := handleTickLoop_without_pruned F hasHeader
        (handleTickLoop F hasHeader pending ⟨pending, ready, []⟩).st.pending pending hsub
        (List.Nodup.of_map _ hnodup) hmiss pending
        (handleTickLoop F hasHeader pending ⟨pending, ready, []⟩).st.pending ready [] hsame
      rw [← hkey]
      generalize (handleTickLoop F hasHeader pending ⟨pending, ready, []⟩).st.pending = P1
      by_cases hne1 : P1 = []
      · subst hne1
        simp [handleTick, handleTickLoop]
      · rw [handleTick_eq_loop F hasHeader P1 ready hne1]

theorem handleTick_idempotent_witness :
    (handleTick (Except.ok sampleFin) sampleNoHeader
        (handleTick (Except.ok sampleFin) sampleNoHeader
          [samplePruned, sampleHashOnly, sampleChild] []).st.pending
        (handleTick (Except.ok sampleFin) sampleNoHeader
          [samplePruned, sampleHashOnly, sampleChild] []).st.ready).ret =
      (handleTick (Except.ok sampleFin) sampleNoHeader
        [samplePruned, sampleHashOnly, sampleChild] []).ret :=
  handleTick_idempotent (Except.ok sampleFin) sampleNoHeader
    [samplePruned, sampleHashOnly, sampleChild] [] (by decide) (by decide)


end TipSyncer
